import Mathlib

/-!
# ReadSmart local library store

A shallow embedding of `src/utils/storage.js`: the saved-content library that the
extension keeps in one IndexedDB object store (`keyPath: 'id'`, `autoIncrement: true`);
and of the helpers `truncateText`, `countWords` and `formatDate` of `src/utils/helpers.js`.

* JavaScript values are the JSON-shaped values plus `undefined`; numbers are integers.
  A string is the sequence of its code points; `truncateText`, which counts and cuts UTF-16
  code units, takes its text in code units.
* The object store of the host database is a list of records in ascending key order
  together with the current number of its key generator.
* Platform functions the source calls but does not define (`Date` parsing,
  `String.prototype.toLowerCase`, `JSON.parse`, the clock, `window.location`) and the
  failures of the storage layer are fields of `Env`. `JSON.stringify` is the function
  `jsonStringify`, and the function `jsonParse` is a `JSON.parse` for it.
* A promise that rejects is `Except.error`; one that resolves is `Except.ok`.
-/

namespace ReadSmart

/-- JavaScript values that can be stored in the library. -/
inductive JSValue where
  | undefined
  | null
  | bool (b : Bool)
  | number (n : Int)
  | string (s : String)
  | array (items : List JSValue)
  | object (props : List (String × JSValue))
deriving Repr, Inhabited

/-- An object: its own properties, in order. A property is read at its first entry. -/
abbrev Record := List (String × JSValue)

namespace JSValue

mutual
/-- Decision procedure for equality of values, by recursion on the first value. -/
def decEq : (a b : JSValue) → Decidable (a = b)
  | .undefined, .undefined => isTrue rfl
  | .undefined, .null => isFalse (fun h => JSValue.noConfusion h)
  | .undefined, .bool _ => isFalse (fun h => JSValue.noConfusion h)
  | .undefined, .number _ => isFalse (fun h => JSValue.noConfusion h)
  | .undefined, .string _ => isFalse (fun h => JSValue.noConfusion h)
  | .undefined, .array _ => isFalse (fun h => JSValue.noConfusion h)
  | .undefined, .object _ => isFalse (fun h => JSValue.noConfusion h)
  | .null, .undefined => isFalse (fun h => JSValue.noConfusion h)
  | .null, .null => isTrue rfl
  | .null, .bool _ => isFalse (fun h => JSValue.noConfusion h)
  | .null, .number _ => isFalse (fun h => JSValue.noConfusion h)
  | .null, .string _ => isFalse (fun h => JSValue.noConfusion h)
  | .null, .array _ => isFalse (fun h => JSValue.noConfusion h)
  | .null, .object _ => isFalse (fun h => JSValue.noConfusion h)
  | .bool _, .undefined => isFalse (fun h => JSValue.noConfusion h)
  | .bool _, .null => isFalse (fun h => JSValue.noConfusion h)
  | .bool x, .bool y =>
    if h : x = y then isTrue (congrArg JSValue.bool h)
    else isFalse (fun h2 => h (JSValue.bool.inj h2))
  | .bool _, .number _ => isFalse (fun h => JSValue.noConfusion h)
  | .bool _, .string _ => isFalse (fun h => JSValue.noConfusion h)
  | .bool _, .array _ => isFalse (fun h => JSValue.noConfusion h)
  | .bool _, .object _ => isFalse (fun h => JSValue.noConfusion h)
  | .number _, .undefined => isFalse (fun h => JSValue.noConfusion h)
  | .number _, .null => isFalse (fun h => JSValue.noConfusion h)
  | .number _, .bool _ => isFalse (fun h => JSValue.noConfusion h)
  | .number x, .number y =>
    if h : x = y then isTrue (congrArg JSValue.number h)
    else isFalse (fun h2 => h (JSValue.number.inj h2))
  | .number _, .string _ => isFalse (fun h => JSValue.noConfusion h)
  | .number _, .array _ => isFalse (fun h => JSValue.noConfusion h)
  | .number _, .object _ => isFalse (fun h => JSValue.noConfusion h)
  | .string _, .undefined => isFalse (fun h => JSValue.noConfusion h)
  | .string _, .null => isFalse (fun h => JSValue.noConfusion h)
  | .string _, .bool _ => isFalse (fun h => JSValue.noConfusion h)
  | .string _, .number _ => isFalse (fun h => JSValue.noConfusion h)
  | .string x, .string y =>
    if h : x = y then isTrue (congrArg JSValue.string h)
    else isFalse (fun h2 => h (JSValue.string.inj h2))
  | .string _, .array _ => isFalse (fun h => JSValue.noConfusion h)
  | .string _, .object _ => isFalse (fun h => JSValue.noConfusion h)
  | .array _, .undefined => isFalse (fun h => JSValue.noConfusion h)
  | .array _, .null => isFalse (fun h => JSValue.noConfusion h)
  | .array _, .bool _ => isFalse (fun h => JSValue.noConfusion h)
  | .array _, .number _ => isFalse (fun h => JSValue.noConfusion h)
  | .array _, .string _ => isFalse (fun h => JSValue.noConfusion h)
  | .array x, .array y =>
    match decEqList x y with
    | isTrue h => isTrue (congrArg JSValue.array h)
    | isFalse h => isFalse (fun h2 => h (JSValue.array.inj h2))
  | .array _, .object _ => isFalse (fun h => JSValue.noConfusion h)
  | .object _, .undefined => isFalse (fun h => JSValue.noConfusion h)
  | .object _, .null => isFalse (fun h => JSValue.noConfusion h)
  | .object _, .bool _ => isFalse (fun h => JSValue.noConfusion h)
  | .object _, .number _ => isFalse (fun h => JSValue.noConfusion h)
  | .object _, .string _ => isFalse (fun h => JSValue.noConfusion h)
  | .object _, .array _ => isFalse (fun h => JSValue.noConfusion h)
  | .object x, .object y =>
    match decEqProps x y with
    | isTrue h => isTrue (congrArg JSValue.object h)
    | isFalse h => isFalse (fun h2 => h (JSValue.object.inj h2))
/-- Equality of element lists. -/
def decEqList : (xs ys : List JSValue) → Decidable (xs = ys)
  | [], [] => isTrue rfl
  | [], _ :: _ => isFalse (fun h => List.noConfusion h)
  | _ :: _, [] => isFalse (fun h => List.noConfusion h)
  | x :: xs, y :: ys =>
    match decEq x y, decEqList xs ys with
    | isTrue h1, isTrue h2 => isTrue (by rw [h1, h2])
    | isFalse h1, _ => isFalse (fun h => h1 (List.cons.inj h).1)
    | _, isFalse h2 => isFalse (fun h => h2 (List.cons.inj h).2)
/-- Equality of property lists. -/
def decEqProps : (xs ys : List (String × JSValue)) → Decidable (xs = ys)
  | [], [] => isTrue rfl
  | [], _ :: _ => isFalse (fun h => List.noConfusion h)
  | _ :: _, [] => isFalse (fun h => List.noConfusion h)
  | (k, x) :: xs, (l, y) :: ys =>
    if hk : k = l then
      match decEq x y, decEqProps xs ys with
      | isTrue h1, isTrue h2 => isTrue (by rw [hk, h1, h2])
      | isFalse h1, _ => isFalse (fun h => h1 (Prod.mk.inj (List.cons.inj h).1).2)
      | _, isFalse h2 => isFalse (fun h => h2 (List.cons.inj h).2)
    else isFalse (fun h => hk (Prod.mk.inj (List.cons.inj h).1).1)
end

instance : DecidableEq JSValue := decEq

/-- ToBoolean: the values that count as true in `a || b` and `!a`. -/
def truthy : JSValue → Bool
  | undefined => false
  | null => false
  | bool b => b
  | number n => n != 0
  | string s => s != ""
  | array _ => true
  | object _ => true

/-- The operator `a || b`. -/
def or (a b : JSValue) : JSValue := if a.truthy then a else b

mutual
/-- ToString, as applied by a template literal. -/
def toJSString : JSValue → String
  | undefined => "undefined"
  | null => "null"
  | bool true => "true"
  | bool false => "false"
  | number n => toString n
  | string s => s
  | array xs => joinWith "," xs
  | object _ => "[object Object]"
/-- The steps of `Array.prototype.join(sep)`: `undefined` and `null` elements give the empty
string. -/
def joinWith (sep : String) : List JSValue → String
  | [] => ""
  | undefined :: [] => ""
  | null :: [] => ""
  | x :: [] => toJSString x
  | undefined :: y :: ys => sep ++ joinWith sep (y :: ys)
  | null :: y :: ys => sep ++ joinWith sep (y :: ys)
  | x :: y :: ys => toJSString x ++ sep ++ joinWith sep (y :: ys)
end

mutual
/-- Whether a value is a valid IndexedDB key: a number, a string, or an array of valid keys. -/
def isValidKey : JSValue → Bool
  | number _ => true
  | string _ => true
  | array xs => allValidKeys xs
  | _ => false
/-- Whether all values of a list are valid keys. -/
def allValidKeys : List JSValue → Bool
  | [] => true
  | x :: xs => isValidKey x && allValidKeys xs
end

mutual
/-- The key order of IndexedDB: numbers before strings before arrays; arrays compare
element by element. On values that are not keys the result is `eq`. -/
def keyCmp : JSValue → JSValue → Ordering
  | number a, number b => compare a b
  | number _, string _ => .lt
  | number _, array _ => .lt
  | string _, number _ => .gt
  | string a, string b => compare a b
  | string _, array _ => .lt
  | array _, number _ => .gt
  | array _, string _ => .gt
  | array a, array b => keyCmpList a b
  | _, _ => .eq
/-- Element-wise comparison of array keys. -/
def keyCmpList : List JSValue → List JSValue → Ordering
  | [], [] => .eq
  | [], _ :: _ => .lt
  | _ :: _, [] => .gt
  | a :: as, b :: bs =>
    match keyCmp a b with
    | .lt => .lt
    | .gt => .gt
    | .eq => keyCmpList as bs
end

end JSValue

open JSValue

/-! ## Objects -/

/-- The own property `k` of `r`, if it has one. -/
def prop? (r : Record) (k : String) : Option JSValue := r.lookup k

/-- The property read `r.k`: `undefined` when `r` has no such property. -/
def getProp (r : Record) (k : String) : JSValue := (prop? r k).getD .undefined

/-- Whether `r` has an own property `k`. -/
def hasProp (r : Record) (k : String) : Bool := (prop? r k).isSome

/-- Define the property `k` of `r` as `v`: an existing property keeps its place. -/
def setProp : Record → String → JSValue → Record
  | [], k, v => [(k, v)]
  | (k', v') :: rest, k, v =>
    if k' = k then (k, v) :: rest else (k', v') :: setProp rest k v

/-- The object literal `{ ...a, ...b }`: the properties of `a`, those that `b` also has
taking the value from `b`, followed by the properties only `b` has. -/
def spread (a b : Record) : Record :=
  a.map (fun p => (p.1, (prop? b p.1).getD p.2)) ++ b.filter (fun p => !hasProp a p.1)

/-- The object without its property `k` (the rest of `const { k, ...rest } = r`). -/
def omitProp (r : Record) (k : String) : Record := r.filter (fun p => p.1 != k)

/-! ## Strings -/

/-- The code points `String.prototype.trim` strips: WhiteSpace and LineTerminator. -/
def isJSWhiteSpace (c : Char) : Bool :=
  let n := c.toNat
  n == 0x09 || n == 0x0A || n == 0x0B || n == 0x0C || n == 0x0D || n == 0x20 ||
  n == 0xA0 || n == 0x1680 || (0x2000 ≤ n && n ≤ 0x200A) || n == 0x2028 ||
  n == 0x2029 || n == 0x202F || n == 0x205F || n == 0x3000 || n == 0xFEFF

/-- The method `String.prototype.trim`. -/
def jsTrim (s : String) : String :=
  ⟨((s.data.dropWhile isJSWhiteSpace).reverse.dropWhile isJSWhiteSpace).reverse⟩

/-- Whether `needle` occurs in `hay` as a contiguous run. -/
def occursIn (needle : List Char) : List Char → Bool
  | [] => needle.isEmpty
  | c :: cs => needle.isPrefixOf (c :: cs) || occursIn needle cs

/-- The method `String.prototype.includes`. -/
def jsIncludes (hay needle : String) : Bool := occursIn needle.data hay.data

/-! ## JSON -/

mutual
/-- What `JSON.parse(JSON.stringify(v))` gives for a value `v` inside an array or as the
whole text: `undefined` becomes `null`, an object loses the properties whose value is
`undefined`, and arrays and objects are treated the same way inside. -/
def jsonClean : JSValue → JSValue
  | .undefined => .null
  | .null => .null
  | .bool b => .bool b
  | .number n => .number n
  | .string s => .string s
  | .array xs => .array (jsonCleanList xs)
  | .object props => .object (jsonCleanProps [] props)
/-- The elements of an array after the round trip. -/
def jsonCleanList : List JSValue → List JSValue
  | [] => []
  | x :: xs => jsonClean x :: jsonCleanList xs
/-- The properties of an object after the round trip; `seen` are the names met so far, a
property being read at its first entry. -/
def jsonCleanProps (seen : List String) : List (String × JSValue) → List (String × JSValue)
  | [] => []
  | (k, .undefined) :: rest => jsonCleanProps (k :: seen) rest
  | (k, v) :: rest =>
    if k ∈ seen then jsonCleanProps seen rest
    else (k, jsonClean v) :: jsonCleanProps (k :: seen) rest
end

/-- The four bits of a number as a hexadecimal digit. -/
def hexDigit (n : Nat) : Char :=
  if n < 10 then Char.ofNat (48 + n) else Char.ofNat (87 + n)

/-- The steps of QuoteJSONString for one character. -/
def quoteJSONChar (c : Char) : List Char :=
  if c = '"' then ['\\', '"']
  else if c = '\\' then ['\\', '\\']
  else if c.toNat = 8 then ['\\', 'b']
  else if c.toNat = 12 then ['\\', 'f']
  else if c = '\n' then ['\\', 'n']
  else if c = '\r' then ['\\', 'r']
  else if c = '\t' then ['\\', 't']
  else if c.toNat < 32 then
    ['\\', 'u', '0', '0', hexDigit (c.toNat / 16), hexDigit (c.toNat % 16)]
  else [c]

/-- The steps of QuoteJSONString: the string between double quotes, with its escapes. -/
def quoteJSON (str : String) : String :=
  ⟨'"' :: (str.data.flatMap quoteJSONChar ++ ['"'])⟩

mutual
/-- The text `JSON.stringify(v, null, 2)` of a value that `jsonClean` has passed, at the
given indentation. -/
def renderJSON (indent : String) : JSValue → String
  | .undefined => "null"
  | .null => "null"
  | .bool true => "true"
  | .bool false => "false"
  | .number n => toString n
  | .string s => quoteJSON s
  | .array [] => "[]"
  | .array (x :: xs) =>
    "[\n" ++ renderElements (indent ++ "  ") (x :: xs) ++ "\n" ++ indent ++ "]"
  | .object [] => "\x7b\x7d"
  | .object (p :: ps) =>
    "\x7b\n" ++ renderProperties (indent ++ "  ") (p :: ps) ++ "\n" ++ indent ++ "\x7d"
/-- The elements of an array, one to a line. -/
def renderElements (indent : String) : List JSValue → String
  | [] => ""
  | x :: [] => indent ++ renderJSON indent x
  | x :: y :: ys => indent ++ renderJSON indent x ++ ",\n" ++ renderElements indent (y :: ys)
/-- The properties of an object, one to a line. -/
def renderProperties (indent : String) : List (String × JSValue) → String
  | [] => ""
  | (k, v) :: [] => indent ++ quoteJSON k ++ ": " ++ renderJSON indent v
  | (k, v) :: q :: qs =>
    indent ++ quoteJSON k ++ ": " ++ renderJSON indent v ++ ",\n" ++
      renderProperties indent (q :: qs)
end

/-- The function `JSON.stringify(v, null, 2)` on the values of this model. An integer is
written in digits, as the platform writes it below 10^21 in magnitude. -/
def jsonStringify (v : JSValue) : String := renderJSON "" (jsonClean v)

/-! ## Reading JSON -/

/-- The white space of the JSON grammar. -/
def isJSONSpace (c : Char) : Bool := c = ' ' || c = '\t' || c = '\n' || c = '\r'

/-- The text after its leading white space. -/
def skipJSONSpace (cs : List Char) : List Char := cs.dropWhile isJSONSpace

/-- The value of a hexadecimal digit. -/
def hexValue (c : Char) : Option Nat :=
  if 48 ≤ c.toNat ∧ c.toNat ≤ 57 then some (c.toNat - 48)
  else if 97 ≤ c.toNat ∧ c.toNat ≤ 102 then some (c.toNat - 87)
  else if 65 ≤ c.toNat ∧ c.toNat ≤ 70 then some (c.toNat - 55)
  else none

/-- Where the reader of a string literal stands. -/
inductive StringState where
  /-- Between two characters. -/
  | plain
  /-- Behind a backslash. -/
  | escape
  /-- Within the four digits of an escape `\uXXXX`: the leading surrogate that waits for its
  trailing one, if any, the number of digits read and their value. -/
  | hex (lead : Option Nat) (count : Nat) (value : Nat)
  /-- Behind the escape of a leading surrogate: a backslash must follow. -/
  | trail (lead : Nat)
  /-- Behind that backslash: the letter `u` must follow. -/
  | trailEscape (lead : Nat)
deriving DecidableEq, Repr

/-- The character a simple escape stands for. -/
def simpleEscape (c : Char) : Option Char :=
  if c = '"' then some '"'
  else if c = '\\' then some '\\'
  else if c = '/' then some '/'
  else if c = 'b' then some (Char.ofNat 8)
  else if c = 'f' then some (Char.ofNat 12)
  else if c = 'n' then some '\n'
  else if c = 'r' then some '\r'
  else if c = 't' then some '\t'
  else none

/-- Put a character in front of the characters read. -/
def consRead (c : Char) (res : Option (List Char × List Char)) :
    Option (List Char × List Char) :=
  res.map (fun p => (c :: p.1, p.2))

/-- Read a string literal behind its opening quote: the characters it denotes and the text
behind its closing quote. A surrogate that is not part of a pair is not a character of this
model, and the literal has no value then. -/
def readString : StringState → List Char → Option (List Char × List Char)
  | _, [] => none
  | .plain, c :: cs =>
    if c = '"' then some ([], cs)
    else if c = '\\' then readString .escape cs
    else if c.toNat < 32 then none
    else consRead c (readString .plain cs)
  | .escape, c :: cs =>
    if c = 'u' then readString (.hex none 0 0) cs
    else
      match simpleEscape c with
      | some d => consRead d (readString .plain cs)
      | none => none
  | .hex lead count value, c :: cs =>
    match hexValue c with
    | none => none
    | some d =>
      let unit := 16 * value + d
      if count < 3 then readString (.hex lead (count + 1) unit) cs
      else
        match lead with
        | some hi =>
          if 0xDC00 ≤ unit ∧ unit ≤ 0xDFFF then
            consRead (Char.ofNat (0x10000 + (hi - 0xD800) * 0x400 + (unit - 0xDC00)))
              (readString .plain cs)
          else none
        | none =>
          if 0xD800 ≤ unit ∧ unit ≤ 0xDBFF then readString (.trail unit) cs
          else if 0xDC00 ≤ unit ∧ unit ≤ 0xDFFF then none
          else consRead (Char.ofNat unit) (readString .plain cs)
  | .trail lead, c :: cs => if c = '\\' then readString (.trailEscape lead) cs else none
  | .trailEscape lead, c :: cs => if c = 'u' then readString (.hex (some lead) 0 0) cs else none

/-- The number a run of decimal digits denotes. -/
def digitsValue (cs : List Char) : Nat := cs.foldl (fun n c => 10 * n + (c.toNat - 48)) 0

/-- The digits behind the sign `c`, if the text starts with it. -/
def afterSign (c : Char) (cs : List Char) : List Char :=
  if cs.head? = some c then cs.tail else cs

/-- Read a number of the JSON grammar: an optional minus sign, the digits of the integer part
(a zero is not followed by more of them), an optional fraction and an optional exponent.
The numbers of this model are the integers, and a number that is not an integer has no
value here. -/
def parseNumber (cs : List Char) : Option (JSValue × List Char) :=
  let negative := cs.head? = some '-'
  let cs1 := afterSign '-' cs
  let intDigits := cs1.takeWhile Char.isDigit
  let cs2 := cs1.dropWhile Char.isDigit
  let hasFraction := cs2.head? = some '.'
  let fracDigits := if hasFraction then cs2.tail.takeWhile Char.isDigit else []
  let cs3 := if hasFraction then cs2.tail.dropWhile Char.isDigit else cs2
  let hasExponent := cs3.head? = some 'e' ∨ cs3.head? = some 'E'
  let cs4 :=
    if hasExponent then
      (if cs3.tail.head? = some '-' ∨ cs3.tail.head? = some '+' then cs3.tail.tail
       else cs3.tail)
    else cs3
  let expNegative := hasExponent ∧ cs3.tail.head? = some '-'
  let expDigits := if hasExponent then cs4.takeWhile Char.isDigit else []
  let cs5 := if hasExponent then cs4.dropWhile Char.isDigit else cs3
  if intDigits = [] then none
  else if intDigits.head? = some '0' ∧ intDigits.length ≠ 1 then none
  else if hasFraction ∧ fracDigits = [] then none
  else if hasExponent ∧ expDigits = [] then none
  else
    let mantissa := digitsValue (intDigits ++ fracDigits)
    let shift : Int :=
      (if expNegative then -(digitsValue expDigits : Int) else (digitsValue expDigits : Int)) -
        (fracDigits.length : Int)
    let sign : Int := if negative then -1 else 1
    if 0 ≤ shift then some (.number (sign * (mantissa * 10 ^ shift.toNat : Nat)), cs5)
    else if mantissa % 10 ^ (-shift).toNat = 0 then
      some (.number (sign * (mantissa / 10 ^ (-shift).toNat : Nat)), cs5)
    else none

/-- Read the rest of a literal name. -/
def parseLiteral (name : List Char) (v : JSValue) (cs : List Char) :
    Option (JSValue × List Char) :=
  if name.isPrefixOf cs then some (v, cs.drop name.length) else none

/-- The member `k: v` in front of the members read behind it: a name that comes again
keeps its place and takes the later value. -/
def addMember (k : String) (v : JSValue) (rest : Record) : Record :=
  match prop? rest k with
  | some later => (k, later) :: omitProp rest k
  | none => (k, v) :: rest

mutual
/-- Read a JSON value at the start of the text: the value and the text behind it. The first
argument bounds the number of nested calls. -/
def parseValue : Nat → List Char → Option (JSValue × List Char)
  | 0, _ => none
  | fuel + 1, cs =>
    let text := skipJSONSpace cs
    if text.head? = some '"' then
      (readString .plain text.tail).map (fun p => (JSValue.string ⟨p.1⟩, p.2))
    else if text.head? = some '[' then
      if (skipJSONSpace text.tail).head? = some ']' then
        some (.array [], (skipJSONSpace text.tail).tail)
      else (parseElements fuel text.tail).map (fun p => (JSValue.array p.1, p.2))
    else if text.head? = some '\x7b' then
      if (skipJSONSpace text.tail).head? = some '\x7d' then
        some (.object [], (skipJSONSpace text.tail).tail)
      else (parseMembers fuel text.tail).map (fun p => (JSValue.object p.1, p.2))
    else if text.head? = some 'n' then parseLiteral ['u', 'l', 'l'] .null text.tail
    else if text.head? = some 't' then parseLiteral ['r', 'u', 'e'] (.bool true) text.tail
    else if text.head? = some 'f' then
      parseLiteral ['a', 'l', 's', 'e'] (.bool false) text.tail
    else parseNumber text
/-- Read the elements of an array up to its closing bracket. -/
def parseElements : Nat → List Char → Option (List JSValue × List Char)
  | 0, _ => none
  | fuel + 1, cs =>
    (parseValue fuel cs).bind fun p =>
      if (skipJSONSpace p.2).head? = some ',' then
        (parseElements fuel (skipJSONSpace p.2).tail).map (fun q => (p.1 :: q.1, q.2))
      else if (skipJSONSpace p.2).head? = some ']' then some ([p.1], (skipJSONSpace p.2).tail)
      else none
/-- Read the members of an object up to its closing brace. -/
def parseMembers : Nat → List Char → Option (Record × List Char)
  | 0, _ => none
  | fuel + 1, cs =>
    if (skipJSONSpace cs).head? = some '"' then
      (readString .plain (skipJSONSpace cs).tail).bind fun key =>
        if (skipJSONSpace key.2).head? = some ':' then
          (parseValue fuel (skipJSONSpace key.2).tail).bind fun p =>
            if (skipJSONSpace p.2).head? = some ',' then
              (parseMembers fuel (skipJSONSpace p.2).tail).map
                (fun q => (addMember ⟨key.1⟩ p.1 q.1, q.2))
            else if (skipJSONSpace p.2).head? = some '\x7d' then
              some ([(⟨key.1⟩, p.1)], (skipJSONSpace p.2).tail)
            else none
        else none
    else none
end

/-- The function `JSON.parse(text)` without a reviver, on the values of this model: `none`
when it throws a SyntaxError. The text is one value with white space around it; a call is
nested within another only behind a bracket, a brace or a comma, so twice the length of the
text bounds the nesting. -/
def jsonParse (text : String) : Option JSValue :=
  (parseValue (2 * text.length + 1) text.data).bind fun p =>
    if skipJSONSpace p.2 = [] then some p.1 else none

mutual
/-- Whether a value is one `JSON.parse` can give: without `undefined`, and without a name
that comes twice in an object. -/
def cleanValue : JSValue → Bool
  | .undefined => false
  | .null => true
  | .bool _ => true
  | .number _ => true
  | .string _ => true
  | .array xs => cleanList xs
  | .object props => cleanProps props
/-- Whether all elements of an array are such values. -/
def cleanList : List JSValue → Bool
  | [] => true
  | x :: xs => cleanValue x && cleanList xs
/-- Whether all properties of an object hold such values, under names that differ. -/
def cleanProps : List (String × JSValue) → Bool
  | [] => true
  | (k, v) :: rest => cleanValue v && (prop? rest k).isNone && cleanProps rest
end

/-- Whether a character can follow a number: it is no digit and starts neither a fraction
nor an exponent. -/
def endsNumber (rest : List Char) : Prop :=
  ∀ c, rest.head? = some c → c.isDigit = false ∧ c ≠ '.' ∧ c ≠ 'e' ∧ c ≠ 'E'

/-! ## The host object store -/

/-- The ways a call can fail. -/
inductive JSError where
  /-- The request of `indexedDB.open` fired `onerror`. -/
  | openFailed
  /-- A request fired `onerror` for a reason of the storage layer (quota, input/output). -/
  | requestFailed
  /-- DataError: the value given as key is not a valid key. -/
  | dataError
  /-- ConstraintError: `add` on a key already stored, or the key generator is used up. -/
  | constraintError
  /-- The error `new Error('Item not found')`. -/
  | itemNotFound
  /-- The error `new Error('Invalid import data format')`. -/
  | invalidFormat
  /-- SyntaxError of `JSON.parse`. -/
  | syntaxError
  /-- TypeError: a call on a value that has no such method, or destructuring `null`. -/
  | typeError
deriving DecidableEq, Repr, Inhabited

deriving instance DecidableEq for Except

/-- The object store `savedContent`: its records in ascending key order, each holding its
key in the property `id`, and the current number of the key generator. -/
structure Store where
  records : List Record
  keyGen : Nat
deriving DecidableEq, Repr, Inhabited

/-- The store as `onupgradeneeded` creates it: no record, key generator at 1. -/
def Store.empty : Store := { records := [], keyGen := 1 }

/-- The largest number a key generator hands out. -/
def maxGeneratedKey : Nat := 2 ^ 53

/-- The key of a stored record: the value at the key path `id`. -/
def keyOf (r : Record) : JSValue := getProp r "id"

/-- The record stored under `key`, if any. -/
def findByKey (key : JSValue) (records : List Record) : Option Record :=
  records.find? (fun r => keyOf r = key)

/-- Place a record in front of the first record with a greater key. -/
def insertByKey (r : Record) : List Record → List Record
  | [] => [r]
  | x :: xs =>
    match keyCmp (keyOf r) (keyOf x) with
    | .lt => r :: x :: xs
    | _ => x :: insertByKey r xs

/-- Replace the record stored under `key` by `r`. -/
def replaceByKey (key : JSValue) (r : Record) (records : List Record) : List Record :=
  records.map (fun x => if keyOf x = key then r else x)

/-- A key given explicitly moves the key generator past it when it is a number at or
above the current number. -/
def bumpKeyGen (keyGen : Nat) : JSValue → Nat
  | .number n => if (keyGen : Int) ≤ n then (min n (maxGeneratedKey : Int)).toNat + 1 else keyGen
  | _ => keyGen

/-- The steps of `objectStore.add(value)` (`noOverwrite = true`) and `objectStore.put(value)`
on a store with in-line keys at `id` and a key generator. A property `id` that is present and
not `undefined` is the key and must be a valid one; otherwise the generator supplies the key
and it is written into the value. Returns the key and the new store. -/
def storeRecord (s : Store) (value : Record) (noOverwrite : Bool) :
    Except JSError (JSValue × Store) :=
  match getProp value "id" with
  | .undefined =>
    if maxGeneratedKey < s.keyGen then .error .constraintError
    else
      let key := JSValue.number s.keyGen
      let stored := setProp value "id" key
      match findByKey key s.records with
      | some _ =>
        if noOverwrite then .error .constraintError
        else .ok (key, { records := replaceByKey key stored s.records, keyGen := s.keyGen + 1 })
      | none => .ok (key, { records := insertByKey stored s.records, keyGen := s.keyGen + 1 })
  | key =>
    if !isValidKey key then .error .dataError
    else
      match findByKey key s.records with
      | some _ =>
        if noOverwrite then .error .constraintError
        else .ok (key, { records := replaceByKey key value s.records,
                         keyGen := bumpKeyGen s.keyGen key })
      | none => .ok (key, { records := insertByKey value s.records,
                            keyGen := bumpKeyGen s.keyGen key })

/-- The steps of `objectStore.get(key)`: DataError on a value that is not a valid key. -/
def storeGet (s : Store) (key : JSValue) : Except JSError (Option Record) :=
  if !isValidKey key then .error .dataError else .ok (findByKey key s.records)

/-- The steps of `objectStore.delete(key)`: DataError on a value that is not a valid key. -/
def storeDelete (s : Store) (key : JSValue) : Except JSError Store :=
  if !isValidKey key then .error .dataError
  else .ok { s with records := s.records.filter (fun r => keyOf r ≠ key) }

/-! ## The environment of a call -/

/-- What a call takes from the platform and the storage layer. -/
structure Env where
  /-- The time value of `new Date(v)` in milliseconds; `none` is NaN (an invalid date). -/
  timeValue : JSValue → Option Int
  /-- The method `String.prototype.toLowerCase`. -/
  toLowerCase : String → String
  /-- The function `JSON.parse`; `none` when it throws. -/
  jsonParse : String → Option JSValue
  /-- The value of `new Date().toISOString()`. -/
  nowISO : String
  /-- The value of `window.location.hostname`. -/
  hostname : String
  /-- The value of `window.location.href`. -/
  href : String
  /-- Whether `initDB` rejects: no handle is cached and the open request fires `onerror`. -/
  openFails : Bool
  /-- Whether the request with this number (counted from 0 within the call) fires `onerror`
  for a reason of the storage layer. -/
  requestFails : Nat → Bool
  /-- The time value of `new Date()` in milliseconds. -/
  now : Int
  /-- The local time zone adjustment `LocalTZA(t, isUTC)` in milliseconds: what is added to a
  UTC time value to get local time (`isUTC = true`), or taken from a local time value to get
  UTC (`isUTC = false`). -/
  localTZA : Int → Bool → Int

/-- A request `add` or `put` number `n` of a call. -/
def requestStore (env : Env) (n : Nat) (s : Store) (value : Record) (noOverwrite : Bool) :
    Except JSError (JSValue × Store) :=
  match storeRecord s value noOverwrite with
  | .error e => .error e
  | .ok res => if env.requestFails n then .error .requestFailed else .ok res

/-! ## The operations of `storage.js` -/

/-- The function `saveToLibrary(content)`. Every failure is rethrown to the caller. -/
def saveToLibrary (env : Env) (s : Store) (content : Record) : Except JSError JSValue × Store :=
  if env.openFails then (.error .openFailed, s)
  else
    let item :=
      setProp
        (setProp
          (setProp content "date" ((getProp content "date").or (.string env.nowISO)))
          "source" ((getProp content "source").or (.string env.hostname)))
        "url" ((getProp content "url").or (.string env.href))
    match requestStore env 0 s item true with
    | .ok (key, s') => (.ok key, s')
    | .error e => (.error e, s)

/-- The comparator `(a, b) => new Date(b.date) - new Date(a.date)` as `sort` reads it:
a NaN result counts as 0. -/
def dateCompare (env : Env) (a b : Record) : Int :=
  match env.timeValue (getProp b "date"), env.timeValue (getProp a "date") with
  | some tb, some ta => tb - ta
  | _, _ => 0

/-- Insert `a` in front of the first element it need not follow. -/
def orderedInsert {α : Type} (cmp : α → α → Int) (a : α) : List α → List α
  | [] => [a]
  | b :: l => if cmp a b ≤ 0 then a :: b :: l else b :: orderedInsert cmp a l

/-- The method `Array.prototype.sort(cmp)`: a stable sort. For a consistent comparator the
result is the one order the language fixes. For an inconsistent one (NaN results, as for a
record without a valid date) the language leaves the order to the engine; this is the order
of a stable insertion sort, which an engine need not give. What is stated below about the
order assumes valid dates, but for one example in which every comparison of neighbours is
NaN, so that the list stays as it is. -/
def jsSort {α : Type} (cmp : α → α → Int) : List α → List α
  | [] => []
  | a :: l => orderedInsert cmp a (jsSort cmp l)

/-- The function `getAllSaved()`. A failure of `initDB` is caught and gives `[]`; the promise
of the request is returned without `await`, so its rejection is not caught. -/
def getAllSaved (env : Env) (s : Store) : Except JSError (List Record) :=
  if env.openFails then .ok []
  else if env.requestFails 0 then .error .requestFailed
  else .ok (jsSort (dateCompare env) s.records)

/-- The function `getSavedById(id)`: the record, `undefined` when there is none, `null` when
`initDB` fails. -/
def getSavedById (env : Env) (s : Store) (id : JSValue) : Except JSError JSValue :=
  if env.openFails then .ok .null
  else
    match storeGet s id with
    | .error e => .error e
    | .ok found =>
      if env.requestFails 0 then .error .requestFailed
      else
        match found with
        | some r => .ok (.object r)
        | none => .ok .undefined

/-- The function `deleteSaved(id)`. -/
def deleteSaved (env : Env) (s : Store) (id : JSValue) : Except JSError Unit × Store :=
  if env.openFails then (.error .openFailed, s)
  else
    match storeDelete s id with
    | .error e => (.error e, s)
    | .ok s' => if env.requestFails 0 then (.error .requestFailed, s) else (.ok (), s')

/-- The function `updateSaved(id, updates)`: request 0 is the `get`, request 1 the `put`. -/
def updateSaved (env : Env) (s : Store) (id : JSValue) (updates : Record) :
    Except JSError Record × Store :=
  if env.openFails then (.error .openFailed, s)
  else
    match storeGet s id with
    | .error e => (.error e, s)
    | .ok found =>
      if env.requestFails 0 then (.error .requestFailed, s)
      else
        match found with
        | none => (.error .itemNotFound, s)
        | some item =>
          let updatedItem := setProp (spread item updates) "id" id
          match requestStore env 1 s updatedItem false with
          | .ok (_, s') => (.ok updatedItem, s')
          | .error e => (.error e, s)

/-- The expression `item.tags?.join(' ')`: `undefined` for a missing or `null` value, the
joined string for an array, a TypeError for any other value. -/
def joinTags : JSValue → Except JSError JSValue
  | .undefined => .ok .undefined
  | .null => .ok .undefined
  | .array xs => .ok (.string (joinWith " " xs))
  | _ => .error .typeError

/-- The template literal of `searchLibrary`, before lower-casing. -/
def searchText (item : Record) : Except JSError String :=
  match joinTags (getProp item "tags") with
  | .error e => .error e
  | .ok tags =>
    .ok ("\n        " ++ ((getProp item "text").or (.string "")).toJSString ++ " \n        " ++
      ((getProp item "summary").or (.string "")).toJSString ++ " \n        " ++
      ((getProp item "pageTitle").or (.string "")).toJSString ++ " \n        " ++
      ((getProp item "notes").or (.string "")).toJSString ++ " \n        " ++
      (tags.or (.string "")).toJSString ++ "\n      ")

/-- The call `allItems.filter(...)` of `searchLibrary`; an exception of the callback ends it. -/
def filterMatching (env : Env) (lowerQuery : String) : List Record → Except JSError (List Record)
  | [] => .ok []
  | item :: rest =>
    match searchText item with
    | .error e => .error e
    | .ok text =>
      match filterMatching env lowerQuery rest with
      | .error e => .error e
      | .ok kept =>
        if jsIncludes (env.toLowerCase text) lowerQuery then .ok (item :: kept) else .ok kept

/-- The function `searchLibrary(query)` for a string `query`: every exception, a rejection of
`getAllSaved` included, is caught and gives `[]`. -/
def searchLibrary (env : Env) (s : Store) (query : String) : List Record :=
  match getAllSaved env s with
  | .error _ => []
  | .ok allItems =>
    if query = "" || jsTrim query = "" then allItems
    else
      match filterMatching env (env.toLowerCase query) allItems with
      | .error _ => []
      | .ok kept => kept

/-- The function `clearAllSaved()`: the key generator keeps its number. -/
def clearAllSaved (env : Env) (s : Store) : Except JSError Unit × Store :=
  if env.openFails then (.error .openFailed, s)
  else if env.requestFails 0 then (.error .requestFailed, s)
  else (.ok (), { s with records := [] })

/-- The properties `"i"`, `"i+1"`, ... of an array-like value. -/
def indexedProps : Nat → List JSValue → Record
  | _, [] => []
  | i, x :: xs => (toString i, x) :: indexedProps (i + 1) xs

/-- The rest object of `const { id, ...itemData } = item`: `none` is the TypeError on `null`
and `undefined`; a number or boolean has no own property. -/
def restWithoutId : JSValue → Option Record
  | .undefined => none
  | .null => none
  | .bool _ => some []
  | .number _ => some []
  | .string str =>
    some (indexedProps 0 (str.data.map (fun c => JSValue.string (String.singleton c))))
  | .array xs => some (omitProp (indexedProps 0 xs) "id")
  | .object props => some (omitProp props "id")

/-- The loop of `importLibrary` from element number `i` on. `start` is the store when the
transaction began, `cur` the store now, `aborted` whether the transaction has aborted. A
request that fires `onerror` aborts the transaction (the handler does not cancel the event):
what it wrote is rolled back and every later `add` throws, which the loop catches as well. -/
def importLoop (env : Env) (start : Store) :
    List JSValue → Nat → Store → Bool → Nat → Except JSError Nat × Store
  | [], _, cur, _, imported => (.ok imported, cur)
  | item :: rest, i, cur, aborted, imported =>
    match restWithoutId item with
    | none => (.error .typeError, cur)
    | some itemData =>
      if aborted then importLoop env start rest (i + 1) cur true imported
      else
        match requestStore env i cur itemData true with
        | .ok (_, cur') => importLoop env start rest (i + 1) cur' false (imported + 1)
        | .error _ => importLoop env start rest (i + 1) start true imported

/-- The function `importLibrary(jsonData)`. -/
def importLibrary (env : Env) (s : Store) (jsonData : String) : Except JSError Nat × Store :=
  match env.jsonParse jsonData with
  | none => (.error .syntaxError, s)
  | some (.array items) =>
    if env.openFails then (.error .openFailed, s)
    else importLoop env s items 0 s false 0
  | some _ => (.error .invalidFormat, s)

/-- The call `xs.slice(0, stop)` for an integer `stop`: a negative `stop` counts from the
end. -/
def sliceFromStart {α : Type} (xs : List α) (stop : Int) : List α :=
  if stop < 0 then xs.take (xs.length - (-stop).toNat) else xs.take stop.toNat

/-- The function `getRecentItems(count = 5)`; `none` is a call without the argument. Every
exception, a rejection of `getAllSaved` included, is caught and gives `[]`. -/
def getRecentItems (env : Env) (s : Store) (count : Option Int) : List Record :=
  match getAllSaved env s with
  | .error _ => []
  | .ok allItems => sliceFromStart allItems (count.getD 5)

/-- The keys under which the index `tags` (key path `tags`, `multiEntry: true`) lists a
record: the elements of an array that are valid keys, or the value itself when it is a valid
key and not an array. -/
def tagIndexKeys (r : Record) : List JSValue :=
  match getProp r "tags" with
  | .array xs => xs.filter isValidKey
  | v => if isValidKey v then [v] else []

/-- The function `getItemsByTag(tag)` for a string `tag`: the records the index lists under
the key, in primary key order. A failure of `initDB` is caught and gives `[]`; the promise of
the request is returned without `await`, so its rejection is not caught. -/
def getItemsByTag (env : Env) (s : Store) (tag : String) : Except JSError (List Record) :=
  if env.openFails then .ok []
  else if env.requestFails 0 then .error .requestFailed
  else .ok (s.records.filter (fun r => decide (JSValue.string tag ∈ tagIndexKeys r)))

/-- The function `exportLibrary()`: a rejection of `getAllSaved` is rethrown. -/
def exportLibrary (env : Env) (s : Store) : Except JSError String :=
  match getAllSaved env s with
  | .error e => .error e
  | .ok allItems => .ok (jsonStringify (.array (allItems.map .object)))

/-- The milliseconds of a day. -/
def msPerDay : Int := 86400000

/-- The time value of `d` after `const d = new Date(); d.setDate(d.getDate() - n)`: the local
time of now, `n` days of the calendar earlier, taken back to UTC. -/
def daysBefore (env : Env) (n : Int) : Int :=
  let shifted := env.now + env.localTZA env.now true - n * msPerDay
  shifted - env.localTZA shifted false

/-- The test `new Date(item.date) > bound`: false for an invalid date. -/
def dateAfter (env : Env) (bound : Int) (item : Record) : Bool :=
  match env.timeValue (getProp item "date") with
  | some t => decide (bound < t)
  | none => false

/-- What the callback `item => item.tags || []` of `flatMap` adds: the elements of an array,
nothing for a falsy value, any other value itself. -/
def tagsOrEmpty (item : Record) : List JSValue :=
  match (getProp item "tags").or (.array []) with
  | .array xs => xs
  | v => [v]

/-- Whether a value is a primitive: compared by value in a `Set`. -/
def isPrimitive : JSValue → Bool
  | .array _ => false
  | .object _ => false
  | _ => true

/-- The values of `[...new Set(xs)]` given those already in the set: a primitive value is
kept the first time it occurs; an array or object is a reference of its own and always kept. -/
def setValues (seen : List JSValue) : List JSValue → List JSValue
  | [] => []
  | x :: xs =>
    if isPrimitive x && decide (x ∈ seen) then setValues seen xs
    else x :: setValues (x :: seen) xs

/-- The object `getLibraryStats` returns. -/
structure LibraryStats where
  total : Nat
  thisWeek : Nat
  thisMonth : Nat
  timeSaved : Nat
  sources : List JSValue
  tags : List JSValue
deriving DecidableEq, Repr, Inhabited

/-- The function `getLibraryStats()`; the two calls of `new Date()` are taken at the same
instant. Every exception, a rejection of `getAllSaved` included, is caught and gives the
empty statistics. -/
def getLibraryStats (env : Env) (s : Store) : LibraryStats :=
  match getAllSaved env s with
  | .error _ =>
    { total := 0, thisWeek := 0, thisMonth := 0, timeSaved := 0, sources := [], tags := [] }
  | .ok allItems =>
    { total := allItems.length
      thisWeek := (allItems.filter (dateAfter env (daysBefore env 7))).length
      thisMonth := (allItems.filter (dateAfter env (daysBefore env 30))).length
      timeSaved := allItems.length * 3
      sources := setValues [] (allItems.map (fun item => getProp item "source"))
      tags := setValues [] (allItems.flatMap tagsOrEmpty) }

/-! ## The helpers of `helpers.js` -/

/-- The UTF-16 code units of a character: one, or the two of a surrogate pair for a code
point above U+FFFF. -/
def utf16Units (c : Char) : List Nat :=
  if c.toNat < 0x10000 then [c.toNat]
  else [0xD800 + (c.toNat - 0x10000) / 0x400, 0xDC00 + (c.toNat - 0x10000) % 0x400]

/-- The UTF-16 code units of a string: what `length` counts and `substring` cuts. -/
def utf16 (str : String) : List Nat := str.data.flatMap utf16Units

/-- The function `truncateText(text, maxLength)` for a string `text`, given by its UTF-16
code units, and an integer `maxLength`. The result is in code units as well, since the cut of
`substring` can fall within a surrogate pair. -/
def truncateText (text : List Nat) (maxLength : Int) : List Nat :=
  if text = [] then []
  else if (text.length : Int) ≤ maxLength then text
  else text.take maxLength.toNat ++ utf16 "..."

/-- Put a character in front of the first piece. -/
def consToFirst (c : Char) : List (List Char) → List (List Char)
  | [] => [[c]]
  | piece :: pieces => (c :: piece) :: pieces

/-- The call `str.split(/\\s+/)` on the characters of a string: the pieces between the runs of
white space; the empty string gives one empty piece. -/
def splitWhiteSpace : List Char → List (List Char)
  | [] => [[]]
  | c :: [] => if isJSWhiteSpace c then [[], []] else [[c]]
  | c :: d :: ds =>
    if isJSWhiteSpace c then
      if isJSWhiteSpace d then splitWhiteSpace (d :: ds) else [] :: splitWhiteSpace (d :: ds)
    else consToFirst c (splitWhiteSpace (d :: ds))

/-- The function `countWords(text)` for a string `text`. -/
def countWords (text : String) : Nat :=
  if text = "" then 0 else (splitWhiteSpace (jsTrim text).data).length

/-- The value of `Math.ceil(a / b)` for an integer `a` that is not negative and a positive
integer `b`. For the milliseconds of a day as `b` and `a` below 2^53 the rounded quotient of
the platform has the ceiling of the exact one. -/
def ceilDiv (a b : Nat) : Nat := (a + (b - 1)) / b

/-- The days between now and a time value as `formatDate` counts them:
`Math.ceil(Math.abs(now - date) / (1000 * 60 * 60 * 24))`. -/
def diffDays (env : Env) (date : Int) : Nat :=
  ceilDiv (env.now - date).natAbs (1000 * 60 * 60 * 24)

/-- The function `formatDate(dateString)`; the method `toLocaleDateString` of the platform
takes the time value of the date, `none` for an invalid date, whose differences are NaN and
pass none of the comparisons. -/
def formatDate (env : Env) (toLocaleDateString : Option Int → String)
    (dateString : JSValue) : String :=
  match env.timeValue dateString with
  | none => toLocaleDateString none
  | some date =>
    let days := diffDays env date
    if days = 0 then "Today"
    else if days = 1 then "Yesterday"
    else if days < 7 then toString days ++ " days ago"
    else if days < 30 then toString (days / 7) ++ " weeks ago"
    else if days < 365 then toString (days / 30) ++ " months ago"
    else toLocaleDateString (some date)

/-! ## Invariants of the store -/

/-- Whether the key generator will not hand out this key again: a numeric key lies below the
current number, unless the generator is used up (keys that are not numbers are not
constrained). -/
def keyBelow (keyGen : Nat) : JSValue → Bool
  | .number n => decide (n < (keyGen : Int)) || decide (maxGeneratedKey < keyGen)
  | _ => true

/-- The states the object store can be in: every record holds a valid key at `id`, the
records are in strictly ascending key order, the key generator is past every numeric key, and
its current number is at most one past the largest key it hands out. -/
def Store.WF (s : Store) : Prop :=
  (∀ r ∈ s.records, isValidKey (keyOf r) = true) ∧
  (s.records.map keyOf).Pairwise (fun a b => keyCmp a b = .lt) ∧
  (∀ r ∈ s.records, keyBelow s.keyGen (keyOf r) = true) ∧
  s.keyGen ≤ maxGeneratedKey + 1

/-- Every key of the store is a number the key generator has passed: the stores whose ids
were all assigned by the store itself. -/
def Store.AutoKeyed (s : Store) : Prop :=
  ∀ r ∈ s.records, ∃ n : Int, keyOf r = .number n ∧ n < (s.keyGen : Int)

/-- The record has `date`, `source` and `url`, none of them missing: each reads as a value
that `item.k || default` keeps, so not as `undefined`, `null`, `false`, 0 or the empty
string. -/
def hasDefaults (r : Record) : Prop :=
  (getProp r "date").truthy = true ∧ (getProp r "source").truthy = true ∧
    (getProp r "url").truthy = true

/-- On every persisted record `date`, `source` and `url` are present. -/
def Store.DefaultsPresent (s : Store) : Prop := ∀ r ∈ s.records, hasDefaults r

/-- Every element of a parsed snapshot is an object on which `date`, `source` and `url` are
present. -/
def snapshotHasDefaults : JSValue → Prop
  | .array items => ∀ item ∈ items, ∃ props, item = .object props ∧ hasDefaults props
  | _ => True

/-- The updates leave the field `k` alone or give it a value that is not missing. -/
def fieldKept (updates : Record) (k : String) : Bool :=
  match prop? updates k with
  | some v => v.truthy
  | none => true

/-- The updates leave `date`, `source` and `url` alone or give them a value that is not
missing. -/
def updatesKeepDefaults (updates : Record) : Prop :=
  fieldKept updates "date" = true ∧ fieldKept updates "source" = true ∧
    fieldKept updates "url" = true

/-- The date of every record is a valid date. -/
def datesValid (env : Env) (records : List Record) : Prop :=
  ∀ r ∈ records, (env.timeValue (getProp r "date")).isSome = true

/-- The time value of the date of a record (0 for an invalid date). -/
def timeOf (env : Env) (r : Record) : Int := (env.timeValue (getProp r "date")).getD 0

/-! ## What the specification says of the search text -/

/-- A field as a string, an absent (or otherwise falsy) field counting as empty. -/
def fieldString (item : Record) (k : String) : String :=
  match prop? item k with
  | some v => if v.truthy then v.toJSString else ""
  | none => ""

/-- The tags of a record joined by single spaces; empty when the record has no tags. -/
def tagsString (item : Record) : String :=
  match prop? item "tags" with
  | some (.array xs) => joinWith " " xs
  | _ => ""

/-- The string read off the specification's words: the concatenation of `text`, `summary`,
`pageTitle`, `notes` and the space-joined `tags`, absent fields counting as empty. -/
def specSearchText (item : Record) : String :=
  fieldString item "text" ++ fieldString item "summary" ++ fieldString item "pageTitle" ++
    fieldString item "notes" ++ tagsString item

/-- The five parts with the white space the template of the source puts around them: a line
break and eight spaces in front of each part, a space behind each of the first four, a line
break and six spaces at the end. -/
def separatedSearchText (item : Record) : String :=
  "\n        " ++ fieldString item "text" ++ " \n        " ++ fieldString item "summary" ++
    " \n        " ++ fieldString item "pageTitle" ++ " \n        " ++
    fieldString item "notes" ++ " \n        " ++ tagsString item ++ "\n      "

/-- Whether every record has `tags` missing, `null` or an array. -/
def tagsWellTyped (records : List Record) : Prop :=
  ∀ r ∈ records, (joinTags (getProp r "tags")).isOk = true

/-! ## What the claims speak of -/

/-- The number of words of a text: the maximal runs of characters that are not white space. -/
def wordRuns : List Char → Nat
  | [] => 0
  | c :: [] => if isJSWhiteSpace c then 0 else 1
  | c :: d :: ds =>
    if isJSWhiteSpace c then wordRuns (d :: ds)
    else if isJSWhiteSpace d then wordRuns (d :: ds) + 1 else wordRuns (d :: ds)

/-- The records `importLibrary` stores for the objects of a snapshot when the key generator
stands at `keyGen`: each without its own `id`, under the next number. -/
def importedRecords : Nat → List Record → List Record
  | _, [] => []
  | keyGen, props :: rest =>
    setProp (omitProp props "id") "id" (.number keyGen) :: importedRecords (keyGen + 1) rest

/-- A property value that the JSON round trip gives back as it is: `undefined` (the property
is dropped and reads as `undefined` again) or a value `jsonClean` does not change. -/
def jsonStable (v : JSValue) : Prop := v = .undefined ∨ jsonClean v = v

mutual
/-- A value that JSON holds as it is and that `JSON.stringify` writes as this model does:
without `undefined`, without a name that comes twice in an object, and with every number
an integer below 10^21 in magnitude, which is written in digits. -/
def plainJSON : JSValue → Bool
  | .undefined => false
  | .null => true
  | .bool _ => true
  | .number n => decide (n.natAbs < 10 ^ 21)
  | .string _ => true
  | .array xs => plainList xs
  | .object props => plainProps props
/-- Whether all elements of an array are such values. -/
def plainList : List JSValue → Bool
  | [] => true
  | x :: xs => plainJSON x && plainList xs
/-- Whether all properties of an object hold such values, under names that differ. -/
def plainProps : List (String × JSValue) → Bool
  | [] => true
  | (k, v) :: rest => plainJSON v && (prop? rest k).isNone && plainProps rest
end

/-- Every field of every record is missing (`undefined`) or a value JSON holds as it is. -/
def recordsPlain (records : List Record) : Prop :=
  ∀ r ∈ records, ∀ p ∈ r, p.2 = .undefined ∨ plainJSON p.2 = true

/-! ## An example environment -/

/-- The number a run of decimal digits denotes. -/
def decimal? (cs : List Char) : Option Nat :=
  if cs.all Char.isDigit && !cs.isEmpty then
    some (cs.foldl (fun n c => 10 * n + (c.toNat - 48)) 0)
  else none

/-- Days from 1970-01-01 to the given day of the proleptic Gregorian calendar. -/
def daysFromCivil (y m d : Nat) : Int :=
  let y' : Int := if m ≤ 2 then (y : Int) - 1 else y
  let era : Int := y' / 400
  let yoe : Int := y' - era * 400
  let mp : Int := if m ≤ 2 then (m : Int) + 9 else (m : Int) - 3
  let doy : Int := (153 * mp + 2) / 5 + d - 1
  let doe : Int := yoe * 365 + yoe / 4 - yoe / 100 + doy
  era * 146097 + doe - 719468

/-- The number of days of a month. -/
def daysInMonth (y m : Nat) : Nat :=
  if m = 2 then (if y % 4 = 0 ∧ (y % 100 ≠ 0 ∨ y % 400 = 0) then 29 else 28)
  else if m = 4 ∨ m = 6 ∨ m = 9 ∨ m = 11 then 30 else 31

/-- The time value of a string in the format of `toISOString`, `YYYY-MM-DDTHH:mm:ss.sssZ`. -/
def isoTimeValue (str : String) : Option Int :=
  let cs := str.data
  if cs.length = 24 ∧ cs.get? 4 = some '-' ∧ cs.get? 7 = some '-' ∧ cs.get? 10 = some 'T' ∧
      cs.get? 13 = some ':' ∧ cs.get? 16 = some ':' ∧ cs.get? 19 = some '.' ∧
      cs.get? 23 = some 'Z' then
    match decimal? (cs.take 4), decimal? ((cs.drop 5).take 2), decimal? ((cs.drop 8).take 2),
      decimal? ((cs.drop 11).take 2), decimal? ((cs.drop 14).take 2),
      decimal? ((cs.drop 17).take 2), decimal? ((cs.drop 20).take 3) with
    | some y, some mo, some d, some h, some mi, some sec, some ms =>
      if 1 ≤ mo ∧ mo ≤ 12 ∧ 1 ≤ d ∧ d ≤ daysInMonth y mo ∧ h ≤ 23 ∧ mi ≤ 59 ∧
          sec ≤ 59 then
        some (daysFromCivil y mo d * 86400000 + h * 3600000 + mi * 60000 + sec * 1000 + ms)
      else none
    | _, _, _, _, _, _, _ => none
  else none

/-- The records of the example store in the order of `getAllSaved`. -/
def exampleSnapshotRecords : List Record :=
  [[("text", .string "b"), ("date", .string "2024-03-01T00:00:00.000Z"),
    ("source", .string "example.com"), ("url", .string "https://example.com/b"),
    ("id", .number 2)],
   [("text", .string "a"), ("notes", .string "n"),
    ("date", .string "2024-01-01T00:00:00.000Z"), ("source", .string "example.com"),
    ("url", .string "https://example.com/a"), ("id", .number 1)],
   [("text", .string "c"), ("date", .string "2024-01-01T00:00:00.000Z"),
    ("source", .string "example.org"), ("url", .string "https://example.org/c"),
    ("id", .number 3)]]

/-- The snapshot array of the example store. -/
def exampleSnapshot : JSValue := .array (exampleSnapshotRecords.map .object)

/-- An example of `new Date(v)`: strings in the format of `toISOString` and numbers; every
other value is taken as an invalid date. -/
def exampleTimeValue : JSValue → Option Int
  | .string str => isoTimeValue str
  | .number n => some n
  | _ => none

/-- An example environment: a page of `example.com`, a storage layer that does not fail,
lower-casing of the letters A to Z, a clock in UTC, and a `JSON.parse` that knows five texts. -/
def exampleEnv : Env where
  timeValue := exampleTimeValue
  toLowerCase := fun str => ⟨str.data.map Char.toLower⟩
  jsonParse := fun str =>
    if str = "[\x7b\"text\":\"a\"\x7d]" then some (.array [.object [("text", .string "a")]])
    else if str = "[]" then some (.array [])
    else if str = "[1]" then some (.array [.number 1])
    else if str = "\x7b\x7d" then some (.object [])
    else if str = jsonStringify exampleSnapshot then some exampleSnapshot
    else none
  nowISO := "2024-05-01T12:00:00.000Z"
  hostname := "example.com"
  href := "https://example.com/page"
  openFails := false
  requestFails := fun _ => false
  now := 1714564800000
  localTZA := fun _ _ => 0

/-- An example of `toLocaleDateString` in the locale `en-US` and in UTC that knows two
days. -/
def exampleLocaleDateString : Option Int → String
  | none => "Invalid Date"
  | some t =>
    if t / 86400000 = 19844 then "5/1/2024"
    else if t / 86400000 = 19358 then "1/1/2023"
    else "1/1/1970"

/-- The example environment when the `getAll` request fires `onerror`. -/
def failingReadEnv : Env := { exampleEnv with requestFails := fun _ => true }

/-- The example environment when the second `add` request of a call fires `onerror`. -/
def failingSecondAddEnv : Env := { exampleEnv with requestFails := fun n => n == 1 }

/-- The example environment on a page without a hostname. -/
def noHostEnv : Env := { exampleEnv with hostname := "" }

/-- The example environment with the function `jsonParse` as its `JSON.parse`. -/
def parsingEnv : Env := { exampleEnv with jsonParse := jsonParse }

/-- A store whose only record has a tag that is `undefined`: what saving the snippet
`{text: "a", tags: [undefined]}` leaves in the empty store. -/
def undefinedTagStore : Store where
  records :=
    [[("text", .string "a"), ("tags", .array [.undefined]),
      ("date", .string "2024-05-01T12:00:00.000Z"), ("source", .string "example.com"),
      ("url", .string "https://example.com/page"), ("id", .number 1)]]
  keyGen := 2

/-- The example environment when the database cannot be opened. -/
def failingOpenEnv : Env := { exampleEnv with openFails := true }

/-- An example store: three saved snippets, the first and the third of the same date. -/
def exampleStore : Store where
  records :=
    [[("text", .string "a"), ("notes", .string "n"),
      ("date", .string "2024-01-01T00:00:00.000Z"), ("source", .string "example.com"),
      ("url", .string "https://example.com/a"), ("id", .number 1)],
     [("text", .string "b"), ("date", .string "2024-03-01T00:00:00.000Z"),
      ("source", .string "example.com"), ("url", .string "https://example.com/b"),
      ("id", .number 2)],
     [("text", .string "c"), ("date", .string "2024-01-01T00:00:00.000Z"),
      ("source", .string "example.org"), ("url", .string "https://example.org/c"),
      ("id", .number 3)]]
  keyGen := 4

/-- A store with a record that has no date: what saving a snippet of January, importing
`[{"text":"a"}]` and saving a snippet of March leave in the empty store. -/
def undatedStore : Store where
  records :=
    [[("text", .string "jan"), ("date", .string "2024-01-01T00:00:00.000Z"),
      ("source", .string "example.com"), ("url", .string "https://example.com/page"),
      ("id", .number 1)],
     [("text", .string "a"), ("id", .number 2)],
     [("text", .string "mar"), ("date", .string "2024-03-01T00:00:00.000Z"),
      ("source", .string "example.com"), ("url", .string "https://example.com/page"),
      ("id", .number 3)]]
  keyGen := 4

/-- An example store with tags: the first record is dated exactly seven days before the now
of the example environment, the second a day and a half before it, the third months before. -/
def statsStore : Store where
  records :=
    [[("text", .string "x"), ("tags", .array [.string "a", .string "b"]),
      ("date", .string "2024-04-24T12:00:00.000Z"), ("source", .string "example.com"),
      ("url", .string "https://example.com/x"), ("id", .number 1)],
     [("text", .string "y"), ("tags", .array [.string "b"]),
      ("date", .string "2024-04-30T00:00:00.000Z"), ("source", .string "example.org"),
      ("url", .string "https://example.org/y"), ("id", .number 2)],
     [("text", .string "z"), ("date", .string "2024-01-01T00:00:00.000Z"),
      ("source", .string "example.com"), ("url", .string "https://example.com/z"),
      ("id", .number 3)]]
  keyGen := 4

/-- An example store with one snippet that has a text and a summary. -/
def searchStore : Store where
  records :=
    [[("text", .string "ab"), ("summary", .string "Cd"),
      ("date", .string "2024-01-01T00:00:00.000Z"), ("source", .string "example.com"),
      ("url", .string "https://example.com/a"), ("id", .number 1)]]
  keyGen := 2

/-! ## Objects: reading after writing -/

theorem prop?_setProp_self (r : Record) (k : String) (v : JSValue) :
    prop? (setProp r k v) k = some v := by
  induction r with
  | nil => simp [setProp, prop?, List.lookup]
  | cons p rest ih =>
    obtain ⟨k', v'⟩ := p
    by_cases h : k' = k
    · simp [setProp, h, prop?, List.lookup]
    · have hne : (k == k') = false := by simpa using fun e => h e.symm
      simpa [setProp, h, prop?, List.lookup, hne] using ih

theorem prop?_setProp_of_ne (r : Record) {k k' : String} (v : JSValue) (h : k' ≠ k) :
    prop? (setProp r k v) k' = prop? r k' := by
  induction r with
  | nil =>
    have hne : (k' == k) = false := by simpa using h
    simp [setProp, prop?, List.lookup, hne]
  | cons p rest ih =>
    obtain ⟨k0, v0⟩ := p
    by_cases h0 : k0 = k
    · subst h0
      have hne : (k' == k0) = false := by simpa using h
      simp [setProp, prop?, List.lookup, hne]
    · by_cases h1 : k' = k0
      · subst h1
        simp [setProp, h0, prop?, List.lookup]
      · have hne : (k' == k0) = false := by simpa using h1
        simpa [setProp, h0, prop?, List.lookup, hne] using ih

theorem getProp_setProp_self (r : Record) (k : String) (v : JSValue) :
    getProp (setProp r k v) k = v := by
  simp [getProp, prop?_setProp_self]

theorem getProp_setProp_of_ne (r : Record) {k k' : String} (v : JSValue) (h : k' ≠ k) :
    getProp (setProp r k v) k' = getProp r k' := by
  simp [getProp, prop?_setProp_of_ne r v h]

theorem hasProp_setProp_self (r : Record) (k : String) (v : JSValue) :
    hasProp (setProp r k v) k = true := by
  simp [hasProp, prop?_setProp_self]

theorem hasProp_setProp_of_ne (r : Record) {k k' : String} (v : JSValue) (h : k' ≠ k) :
    hasProp (setProp r k v) k' = hasProp r k' := by
  simp [hasProp, prop?_setProp_of_ne r v h]

theorem hasProp_setProp_of_hasProp (r : Record) (k k' : String) (v : JSValue)
    (h : hasProp r k' = true) : hasProp (setProp r k v) k' = true := by
  by_cases hk : k' = k
  · subst hk; exact hasProp_setProp_self r _ v
  · rw [hasProp_setProp_of_ne r v hk]; exact h

theorem prop?_append (a b : Record) (k : String) :
    prop? (a ++ b) k = (prop? a k).orElse (fun _ => prop? b k) := by
  induction a with
  | nil => simp [prop?, List.lookup]
  | cons p rest ih =>
    obtain ⟨k0, v0⟩ := p
    cases hk : (k == k0) with
    | true => simp [prop?, List.lookup, hk]
    | false => simpa [prop?, List.lookup, hk] using ih

theorem prop?_map_override (a b : Record) (k : String) :
    prop? (a.map (fun p => (p.1, (prop? b p.1).getD p.2))) k =
      (prop? a k).map (fun v => (prop? b k).getD v) := by
  induction a with
  | nil => simp [prop?, List.lookup]
  | cons p rest ih =>
    obtain ⟨k0, v0⟩ := p
    cases hk : (k == k0) with
    | true =>
      have : k = k0 := by simpa using hk
      subst this
      simp [prop?, List.lookup]
    | false => simpa [prop?, List.lookup, hk] using ih

theorem prop?_filter_of_pred (b : Record) (q : String → Bool) (k : String) (hq : q k = true) :
    prop? (b.filter (fun p => q p.1)) k = prop? b k := by
  induction b with
  | nil => simp [prop?, List.lookup]
  | cons p rest ih =>
    obtain ⟨k0, v0⟩ := p
    cases hk : (k == k0) with
    | true =>
      have : k = k0 := by simpa using hk
      subst this
      simp [prop?, List.lookup, List.filter, hq]
    | false =>
      cases hq0 : q k0 with
      | true => simpa [prop?, List.lookup, List.filter, hq0, hk] using ih
      | false => simpa [prop?, List.lookup, List.filter, hq0, hk] using ih

theorem prop?_filter_of_not_pred (b : Record) (q : String → Bool) (k : String)
    (hq : q k = false) : prop? (b.filter (fun p => q p.1)) k = none := by
  induction b with
  | nil => simp [prop?, List.lookup]
  | cons p rest ih =>
    obtain ⟨k0, v0⟩ := p
    cases hq0 : q k0 with
    | true =>
      have hk : (k == k0) = false := by
        simp only [beq_eq_false_iff_ne, ne_eq]
        intro e; subst e; rw [hq] at hq0; cases hq0
      simpa [prop?, List.lookup, List.filter, hq0, hk] using ih
    | false => simpa [prop?, List.lookup, List.filter, hq0] using ih

/-- Reading a property of `{ ...a, ...b }`: the value of `b` when `b` has the property, the
value of `a` otherwise. -/
theorem prop?_spread (a b : Record) (k : String) :
    prop? (spread a b) k = (prop? b k).orElse (fun _ => prop? a k) := by
  unfold spread
  rw [prop?_append, prop?_map_override]
  cases ha : prop? a k with
  | some v =>
    have : hasProp a k = true := by simp [hasProp, ha]
    cases hb : prop? b k <;> simp
  | none =>
    have hq : (fun k' => !hasProp a k') k = true := by simp [hasProp, ha]
    have := prop?_filter_of_pred b (fun k' => !hasProp a k') k hq
    simp only [Option.map_none', Option.orElse_none] at *
    rw [this]
    cases hb : prop? b k <;> simp

theorem prop?_omitProp_self (r : Record) (k : String) : prop? (omitProp r k) k = none := by
  have := prop?_filter_of_not_pred r (fun k' => k' != k) k (by simp)
  simpa [omitProp] using this

theorem prop?_omitProp_of_ne (r : Record) {k k' : String} (h : k' ≠ k) :
    prop? (omitProp r k) k' = prop? r k' := by
  have := prop?_filter_of_pred r (fun k0 => k0 != k) k' (by simpa using h)
  simpa [omitProp] using this

/-! ## The object store: finding and placing records -/

theorem findByKey_eq_none {key : JSValue} {records : List Record} :
    findByKey key records = none ↔ ∀ r ∈ records, keyOf r ≠ key := by
  simp [findByKey, List.find?_eq_none]

theorem findByKey_some {key : JSValue} {records : List Record} {r : Record}
    (h : findByKey key records = some r) : r ∈ records ∧ keyOf r = key := by
  unfold findByKey at h
  have h1 := List.mem_of_find?_eq_some h
  have h2 := List.find?_some h
  exact ⟨h1, by simpa using h2⟩

theorem mem_insertByKey {r x : Record} {records : List Record} :
    x ∈ insertByKey r records ↔ x = r ∨ x ∈ records := by
  induction records with
  | nil => simp [insertByKey]
  | cons y ys ih =>
    unfold insertByKey
    split
    · simp
    · simp only [List.mem_cons, ih]
      tauto

theorem insertByKey_perm (r : Record) (records : List Record) :
    (insertByKey r records).Perm (r :: records) := by
  induction records with
  | nil => simp [insertByKey]
  | cons y ys ih =>
    unfold insertByKey
    split
    · exact List.Perm.refl _
    · exact (List.Perm.cons y ih).trans (List.Perm.swap r y ys)

theorem length_insertByKey (r : Record) (records : List Record) :
    (insertByKey r records).length = records.length + 1 := by
  simpa using (insertByKey_perm r records).length_eq

theorem findByKey_insertByKey_self {r : Record} {records : List Record}
    (h : ∀ x ∈ records, keyOf x ≠ keyOf r) :
    findByKey (keyOf r) (insertByKey r records) = some r := by
  induction records with
  | nil => simp [insertByKey, findByKey]
  | cons y ys ih =>
    have hy : keyOf y ≠ keyOf r := h y (List.mem_cons_self _ _)
    have hys : ∀ x ∈ ys, keyOf x ≠ keyOf r := fun x hx => h x (List.mem_cons_of_mem _ hx)
    unfold insertByKey
    split
    · simp [findByKey]
    · have := ih hys
      simp only [findByKey] at this ⊢
      rw [List.find?_cons_of_neg _ (by simpa using hy)]
      exact this

theorem findByKey_insertByKey_of_ne {r : Record} {records : List Record} {key : JSValue}
    (h : keyOf r ≠ key) : findByKey key (insertByKey r records) = findByKey key records := by
  induction records with
  | nil => simp [insertByKey, findByKey, h]
  | cons y ys ih =>
    unfold insertByKey
    split
    · simp [findByKey, h]
    · by_cases hy : keyOf y = key
      · simp [findByKey, hy]
      · simp only [findByKey] at ih ⊢
        rw [List.find?_cons_of_neg _ (by simpa using hy),
          List.find?_cons_of_neg _ (by simpa using hy)]
        exact ih

theorem keyBelow_ne_keyGen {keyGen : Nat} {key : JSValue} (h : keyBelow keyGen key = true)
    (hgen : keyGen ≤ maxGeneratedKey) : key ≠ .number keyGen := by
  intro e
  subst e
  simp only [keyBelow, lt_self_iff_false, decide_False, Bool.false_or, decide_eq_true_eq] at h
  omega

/-- In a well-formed store no record holds the number the key generator hands out next. -/
theorem Store.WF.fresh {s : Store} (h : s.WF) (hgen : s.keyGen ≤ maxGeneratedKey) :
    ∀ r ∈ s.records, keyOf r ≠ .number s.keyGen :=
  fun r hr => keyBelow_ne_keyGen (h.2.2.1 r hr) hgen

theorem Store.empty_WF : Store.empty.WF := by
  simp [Store.WF, Store.empty, maxGeneratedKey]

/-! ## Saving -/

/-- The object `saveToLibrary` hands to `add` has the `id` of `content`. -/
theorem getProp_saved_id (content : Record) (d s u : JSValue) :
    getProp (setProp (setProp (setProp content "date" d) "source" s) "url" u) "id" =
      getProp content "id" := by
  rw [getProp_setProp_of_ne _ _ (by decide), getProp_setProp_of_ne _ _ (by decide),
    getProp_setProp_of_ne _ _ (by decide)]

/-- What `add` does with a value without `id` in a well-formed store whose key generator is
not used up: the value is stored under the next number. -/
theorem storeRecord_generated {s : Store} {value : Record} (noOverwrite : Bool) (hwf : s.WF)
    (hgen : s.keyGen ≤ maxGeneratedKey) (hid : getProp value "id" = .undefined) :
    storeRecord s value noOverwrite =
      .ok (.number s.keyGen,
        { records := insertByKey (setProp value "id" (.number s.keyGen)) s.records,
          keyGen := s.keyGen + 1 }) := by
  have hfresh : findByKey (.number s.keyGen) s.records = none :=
    findByKey_eq_none.2 (hwf.fresh hgen)
  unfold storeRecord
  rw [hid]
  simp only [not_lt.2 hgen, if_false, hfresh]

/-- C1 (amended): in a well-formed store whose key generator is not used up and with a storage
layer that does not fail, `saveToLibrary(x)` for an item `x` without an `id` of its own returns
a newly assigned id, the next number of the key generator, which no stored record has; and
`getSavedById` of that id then returns a record that has this `id`, has each of `date`,
`source` and `url` equal to the value of `x` when that value is truthy and to the default
(current ISO timestamp, page hostname, page URL) otherwise, and agrees with `x` on every other
property. -/
theorem saveToLibrary_getSavedById (env : Env) (s : Store) (x : Record)
    (hwf : s.WF) (hgen : s.keyGen ≤ maxGeneratedKey)
    (hopen : env.openFails = false) (hreq : env.requestFails 0 = false)
    (hid : getProp x "id" = .undefined) :
    ∃ s' stored,
      saveToLibrary env s x = (.ok (.number s.keyGen), s') ∧
      (∀ r ∈ s.records, keyOf r ≠ .number s.keyGen) ∧
      getSavedById env s' (.number s.keyGen) = .ok (.object stored) ∧
      prop? stored "id" = some (.number s.keyGen) ∧
      (∀ p ∈ [("date", env.nowISO), ("source", env.hostname), ("url", env.href)],
        ((getProp x p.1).truthy = true → prop? stored p.1 = some (getProp x p.1)) ∧
        ((getProp x p.1).truthy = false → prop? stored p.1 = some (.string p.2))) ∧
      (∀ k, k ≠ "id" → k ≠ "date" → k ≠ "source" → k ≠ "url" →
        prop? stored k = prop? x k) := by
  let item :=
    setProp
      (setProp
        (setProp x "date" ((getProp x "date").or (.string env.nowISO)))
        "source" ((getProp x "source").or (.string env.hostname)))
      "url" ((getProp x "url").or (.string env.href))
  have hitem : getProp item "id" = .undefined := by
    rw [getProp_saved_id]; exact hid
  let stored := setProp item "id" (.number s.keyGen)
  have hkey : keyOf stored = .number s.keyGen := getProp_setProp_self _ _ _
  have hfresh := hwf.fresh hgen
  refine ⟨{ records := insertByKey stored s.records, keyGen := s.keyGen + 1 }, stored,
    ?_, hfresh, ?_, prop?_setProp_self _ _ _, ?_, ?_⟩
  · simp only [saveToLibrary, hopen, requestStore, storeRecord_generated true hwf hgen hitem,
      hreq]
    rfl
  · have hfind : findByKey (.number s.keyGen) (insertByKey stored s.records) = some stored := by
      have := @findByKey_insertByKey_self stored s.records
        (by rw [hkey]; exact hfresh)
      rwa [hkey] at this
    simp [getSavedById, hopen, storeGet, isValidKey, hfind, hreq]
  · intro p hp
    simp only [List.mem_cons, List.mem_singleton, List.not_mem_nil, or_false] at hp
    rcases hp with rfl | rfl | rfl
    · have h : prop? stored "date" = some ((getProp x "date").or (.string env.nowISO)) := by
        simp only [stored, item]
        rw [prop?_setProp_of_ne _ _ (by decide), prop?_setProp_of_ne _ _ (by decide),
          prop?_setProp_of_ne _ _ (by decide), prop?_setProp_self]
      constructor <;> intro ht <;> simp [h, JSValue.or, ht]
    · have h : prop? stored "source" = some ((getProp x "source").or (.string env.hostname)) := by
        simp only [stored, item]
        rw [prop?_setProp_of_ne _ _ (by decide), prop?_setProp_of_ne _ _ (by decide),
          prop?_setProp_self]
      constructor <;> intro ht <;> simp [h, JSValue.or, ht]
    · have h : prop? stored "url" = some ((getProp x "url").or (.string env.href)) := by
        simp only [stored, item]
        rw [prop?_setProp_of_ne _ _ (by decide), prop?_setProp_self]
      constructor <;> intro ht <;> simp [h, JSValue.or, ht]
  · intro k h1 h2 h3 h4
    simp only [stored, item]
    rw [prop?_setProp_of_ne _ _ h1, prop?_setProp_of_ne _ _ h4, prop?_setProp_of_ne _ _ h3,
      prop?_setProp_of_ne _ _ h2]

/-- C1 (witness): saving `{text: "a"}` into the empty store on a page of `example.com`. -/
theorem saveToLibrary_getSavedById_witness :
    Store.empty.WF ∧ Store.empty.keyGen ≤ maxGeneratedKey ∧
    exampleEnv.openFails = false ∧ exampleEnv.requestFails 0 = false ∧
    getProp [("text", JSValue.string "a")] "id" = .undefined ∧
    ∃ s' stored,
      saveToLibrary exampleEnv Store.empty [("text", .string "a")] =
        (.ok (.number Store.empty.keyGen), s') ∧
      (∀ r ∈ Store.empty.records, keyOf r ≠ .number Store.empty.keyGen) ∧
      getSavedById exampleEnv s' (.number Store.empty.keyGen) = .ok (.object stored) ∧
      prop? stored "id" = some (.number Store.empty.keyGen) ∧
      (∀ p ∈ [("date", exampleEnv.nowISO), ("source", exampleEnv.hostname),
          ("url", exampleEnv.href)],
        ((getProp [("text", JSValue.string "a")] p.1).truthy = true →
          prop? stored p.1 = some (getProp [("text", JSValue.string "a")] p.1)) ∧
        ((getProp [("text", JSValue.string "a")] p.1).truthy = false →
          prop? stored p.1 = some (.string p.2))) ∧
      (∀ k, k ≠ "id" → k ≠ "date" → k ≠ "source" → k ≠ "url" →
        prop? stored k = prop? [("text", JSValue.string "a")] k) :=
  ⟨Store.empty_WF, by decide, rfl, rfl, rfl,
    saveToLibrary_getSavedById exampleEnv Store.empty [("text", .string "a")]
      Store.empty_WF (by decide) rfl rfl rfl⟩

/-- C1 (counterexample): an item that supplies the empty string as `source` is stored with the
page hostname instead of the supplied value; and an item that carries an `id` the store
already holds is not saved at all: the call fails and returns no id. -/
theorem saveToLibrary_counterexample :
    prop? [("text", JSValue.string "a"), ("source", JSValue.string "")] "source" =
      some (.string "") ∧
    saveToLibrary exampleEnv Store.empty [("text", .string "a"), ("source", .string "")] =
      (.ok (.number 1),
        { records := [[("text", .string "a"), ("source", .string "example.com"),
            ("date", .string "2024-05-01T12:00:00.000Z"),
            ("url", .string "https://example.com/page"), ("id", .number 1)]],
          keyGen := 2 }) ∧
    getSavedById exampleEnv
      { records := [[("text", .string "a"), ("source", .string "example.com"),
          ("date", .string "2024-05-01T12:00:00.000Z"),
          ("url", .string "https://example.com/page"), ("id", .number 1)]],
        keyGen := 2 } (.number 1) =
      .ok (.object [("text", .string "a"), ("source", .string "example.com"),
        ("date", .string "2024-05-01T12:00:00.000Z"),
        ("url", .string "https://example.com/page"), ("id", .number 1)]) ∧
    (saveToLibrary exampleEnv
      { records := [[("text", .string "a"), ("source", .string "example.com"),
          ("date", .string "2024-05-01T12:00:00.000Z"),
          ("url", .string "https://example.com/page"), ("id", .number 1)]],
        keyGen := 2 } [("id", .number 1), ("text", .string "b")]).1 =
      .error .constraintError := by
  decide

/-! ## Sorting by date -/

theorem orderedInsert_perm {α : Type} (cmp : α → α → Int) (a : α) (l : List α) :
    (orderedInsert cmp a l).Perm (a :: l) := by
  induction l with
  | nil => simp [orderedInsert]
  | cons b l ih =>
    unfold orderedInsert
    split
    · exact List.Perm.refl _
    · exact (List.Perm.cons b ih).trans (List.Perm.swap a b l)

theorem jsSort_perm {α : Type} (cmp : α → α → Int) (l : List α) :
    (jsSort cmp l).Perm l := by
  induction l with
  | nil => simp [jsSort]
  | cons a l ih =>
    unfold jsSort
    exact (orderedInsert_perm cmp a _).trans (List.Perm.cons a ih)

/-- On valid dates the comparator is the difference of the time values. -/
theorem dateCompare_of_valid (env : Env) {a b : Record}
    (ha : (env.timeValue (getProp a "date")).isSome = true)
    (hb : (env.timeValue (getProp b "date")).isSome = true) :
    dateCompare env a b = timeOf env b - timeOf env a := by
  unfold dateCompare timeOf
  cases hta : env.timeValue (getProp a "date") with
  | none => rw [hta] at ha; cases ha
  | some ta =>
    cases htb : env.timeValue (getProp b "date") with
    | none => rw [htb] at hb; cases hb
    | some tb => simp

theorem orderedInsert_sorted (env : Env) (a : Record) (l : List Record)
    (ha : (env.timeValue (getProp a "date")).isSome = true) (hl : datesValid env l)
    (hs : l.Pairwise (fun x y => timeOf env x ≥ timeOf env y)) :
    (orderedInsert (dateCompare env) a l).Pairwise (fun x y => timeOf env x ≥ timeOf env y) := by
  induction l with
  | nil => simp [orderedInsert]
  | cons b l ih =>
    have hb := hl b (List.mem_cons_self _ _)
    have hl' : datesValid env l := fun r hr => hl r (List.mem_cons_of_mem _ hr)
    have hcmp := dateCompare_of_valid env ha hb
    rw [List.pairwise_cons] at hs
    unfold orderedInsert
    split
    · rename_i hle
      rw [hcmp] at hle
      refine List.pairwise_cons.2 ⟨?_, List.pairwise_cons.2 hs⟩
      intro y hy
      rcases List.mem_cons.1 hy with rfl | hy
      · omega
      · have := hs.1 y hy
        omega
    · rename_i hnle
      rw [hcmp] at hnle
      refine List.pairwise_cons.2 ⟨?_, ih hl' hs.2⟩
      intro y hy
      rcases List.mem_cons.1 ((orderedInsert_perm _ a l).subset hy) with rfl | hy
      · omega
      · exact hs.1 y hy

theorem jsSort_sorted (env : Env) (l : List Record) (hl : datesValid env l) :
    (jsSort (dateCompare env) l).Pairwise (fun x y => timeOf env x ≥ timeOf env y) := by
  induction l with
  | nil => simp [jsSort]
  | cons a l ih =>
    have hl' : datesValid env l := fun r hr => hl r (List.mem_cons_of_mem _ hr)
    unfold jsSort
    refine orderedInsert_sorted env a _ (hl a (List.mem_cons_self _ _)) ?_ (ih hl')
    intro r hr
    exact hl' r ((jsSort_perm _ l).subset hr)

theorem orderedInsert_filter (env : Env) (a : Record) (l : List Record) (t : Int)
    (ha : (env.timeValue (getProp a "date")).isSome = true) (hl : datesValid env l) :
    (orderedInsert (dateCompare env) a l).filter (fun r => timeOf env r = t) =
      (a :: l).filter (fun r => timeOf env r = t) := by
  induction l with
  | nil => simp [orderedInsert]
  | cons b l ih =>
    have hb := hl b (List.mem_cons_self _ _)
    have hl' : datesValid env l := fun r hr => hl r (List.mem_cons_of_mem _ hr)
    have hcmp := dateCompare_of_valid env ha hb
    unfold orderedInsert
    split
    · rfl
    · rename_i hnle
      rw [hcmp] at hnle
      have hlt : timeOf env a < timeOf env b := by omega
      by_cases hat : timeOf env a = t
      · have hbt : ¬ timeOf env b = t := by omega
        have := ih hl'
        simp only [List.filter_cons, hat, hbt, decide_True, decide_False, if_true] at this ⊢
        simpa using this
      · have := ih hl'
        simp only [List.filter_cons, hat, decide_False] at this ⊢
        simp only [this]
        simp

theorem jsSort_filter (env : Env) (l : List Record) (t : Int) (hl : datesValid env l) :
    (jsSort (dateCompare env) l).filter (fun r => timeOf env r = t) =
      l.filter (fun r => timeOf env r = t) := by
  induction l with
  | nil => simp [jsSort]
  | cons a l ih =>
    have hl' : datesValid env l := fun r hr => hl r (List.mem_cons_of_mem _ hr)
    unfold jsSort
    rw [orderedInsert_filter env a _ t (hl a (List.mem_cons_self _ _))
      (fun r hr => hl' r ((jsSort_perm _ l).subset hr))]
    simp only [List.filter_cons, ih hl']

theorem insertByKey_append {r : Record} {records : List Record}
    (h : ∀ x ∈ records, keyCmp (keyOf r) (keyOf x) ≠ .lt) :
    insertByKey r records = records ++ [r] := by
  induction records with
  | nil => simp [insertByKey]
  | cons y ys ih =>
    have hy := h y (List.mem_cons_self _ _)
    have hys : ∀ x ∈ ys, keyCmp (keyOf r) (keyOf x) ≠ .lt :=
      fun x hx => h x (List.mem_cons_of_mem _ hx)
    unfold insertByKey
    split
    · rename_i hlt; exact absurd hlt hy
    · simp [ih hys]

theorem keyCmp_number_ne_lt {m n : Int} (h : n < m) : keyCmp (.number m) (.number n) ≠ .lt := by
  have hgt : compare m n = .gt := compare_gt_iff_gt.2 h
  simp [keyCmp, hgt]

/-- The result of `saveToLibrary` for an item without `id`, spelled out. -/
theorem saveToLibrary_generated (env : Env) (s : Store) (x : Record)
    (hwf : s.WF) (hgen : s.keyGen ≤ maxGeneratedKey)
    (hopen : env.openFails = false) (hreq : env.requestFails 0 = false)
    (hid : getProp x "id" = .undefined) :
    saveToLibrary env s x =
      (.ok (.number s.keyGen),
        { records := insertByKey
            (setProp
              (setProp
                (setProp
                  (setProp x "date" ((getProp x "date").or (.string env.nowISO)))
                  "source" ((getProp x "source").or (.string env.hostname)))
                "url" ((getProp x "url").or (.string env.href)))
              "id" (.number s.keyGen)) s.records,
          keyGen := s.keyGen + 1 }) := by
  have hitem := (getProp_saved_id x ((getProp x "date").or (.string env.nowISO))
    ((getProp x "source").or (.string env.hostname))
    ((getProp x "url").or (.string env.href))).trans hid
  simp only [saveToLibrary, hopen, requestStore, storeRecord_generated true hwf hgen hitem,
    hreq]
  rfl

/-- In a store whose ids were all assigned by the store, saving an item without `id` puts the
new record behind all others: the stored order is the order of insertion. -/
theorem saveToLibrary_appends (env : Env) (s : Store) (x : Record)
    (hwf : s.WF) (hauto : s.AutoKeyed) (hgen : s.keyGen ≤ maxGeneratedKey)
    (hopen : env.openFails = false) (hreq : env.requestFails 0 = false)
    (hid : getProp x "id" = .undefined) :
    ∃ stored, (saveToLibrary env s x).2.records = s.records ++ [stored] ∧
      (saveToLibrary env s x).2.AutoKeyed := by
  rw [saveToLibrary_generated env s x hwf hgen hopen hreq hid]
  have hkey := getProp_setProp_self
    (setProp (setProp (setProp x "date" ((getProp x "date").or (.string env.nowISO)))
      "source" ((getProp x "source").or (.string env.hostname)))
      "url" ((getProp x "url").or (.string env.href))) "id" (.number s.keyGen)
  refine ⟨_, insertByKey_append ?_, ?_⟩
  · intro y hy
    obtain ⟨n, hn, hlt⟩ := hauto y hy
    show keyCmp (getProp _ "id") (keyOf y) ≠ .lt
    rw [hkey, hn]
    exact keyCmp_number_ne_lt hlt
  · intro r hr
    rcases mem_insertByKey.1 hr with rfl | hr
    · exact ⟨s.keyGen, hkey, by push_cast; omega⟩
    · obtain ⟨n, hn, hlt⟩ := hauto r hr
      exact ⟨n, hn, by push_cast; omega⟩

/-- C2 (amended): when the read succeeds, `getAllSaved` returns a permutation of the stored
records; if every stored date is a valid date, the result is ordered by date descending,
records of equal date keep their stored order (which is the order of insertion, a save
appending its record), and if the dates are pairwise distinct the order is strictly
descending. -/
theorem getAllSaved_sorted (env : Env) (s : Store)
    (hopen : env.openFails = false) (hreq : env.requestFails 0 = false) :
    ∃ items, getAllSaved env s = .ok items ∧
      items.Perm s.records ∧
      (datesValid env s.records →
        items.Pairwise (fun a b => timeOf env a ≥ timeOf env b) ∧
        (∀ t, items.filter (fun r => timeOf env r = t) =
          s.records.filter (fun r => timeOf env r = t)) ∧
        ((s.records.map (timeOf env)).Nodup →
          items.Pairwise (fun a b => timeOf env a > timeOf env b))) ∧
      (s.WF → s.AutoKeyed → s.keyGen ≤ maxGeneratedKey →
        ∀ x, getProp x "id" = .undefined →
          ∃ stored, (saveToLibrary env s x).2.records = s.records ++ [stored]) := by
  refine ⟨jsSort (dateCompare env) s.records, by simp [getAllSaved, hopen, hreq],
    jsSort_perm _ _, ?_, ?_⟩
  · intro hvalid
    have hsorted := jsSort_sorted env s.records hvalid
    refine ⟨hsorted, fun t => jsSort_filter env s.records t hvalid, ?_⟩
    intro hnodup
    have hnd : ((jsSort (dateCompare env) s.records).map (timeOf env)).Nodup :=
      ((jsSort_perm (dateCompare env) s.records).map (timeOf env)).nodup_iff.2 hnodup
    have hne : (jsSort (dateCompare env) s.records).Pairwise
        (fun a b => timeOf env a ≠ timeOf env b) := by
      simpa [List.Nodup, List.pairwise_map] using hnd
    refine (hsorted.and hne).imp ?_
    intro a b hab
    exact lt_of_le_of_ne hab.1 (Ne.symm hab.2)
  · intro hwf hauto hgen x hid
    obtain ⟨stored, h, _⟩ := saveToLibrary_appends env s x hwf hauto hgen hopen hreq hid
    exact ⟨stored, h⟩

/-- C2 (witness): the example store, whose first and third record share a date. -/
theorem getAllSaved_sorted_witness :
    exampleEnv.openFails = false ∧ exampleEnv.requestFails 0 = false ∧
    datesValid exampleEnv exampleStore.records ∧
    getAllSaved exampleEnv exampleStore =
      .ok [[("text", .string "b"), ("date", .string "2024-03-01T00:00:00.000Z"),
            ("source", .string "example.com"), ("url", .string "https://example.com/b"),
            ("id", .number 2)],
           [("text", .string "a"), ("notes", .string "n"),
            ("date", .string "2024-01-01T00:00:00.000Z"), ("source", .string "example.com"),
            ("url", .string "https://example.com/a"), ("id", .number 1)],
           [("text", .string "c"), ("date", .string "2024-01-01T00:00:00.000Z"),
            ("source", .string "example.org"), ("url", .string "https://example.org/c"),
            ("id", .number 3)]] ∧
    ∃ items, getAllSaved exampleEnv exampleStore = .ok items ∧
      items.Perm exampleStore.records ∧
      (datesValid exampleEnv exampleStore.records →
        items.Pairwise (fun a b => timeOf exampleEnv a ≥ timeOf exampleEnv b) ∧
        (∀ t, items.filter (fun r => timeOf exampleEnv r = t) =
          exampleStore.records.filter (fun r => timeOf exampleEnv r = t)) ∧
        ((exampleStore.records.map (timeOf exampleEnv)).Nodup →
          items.Pairwise (fun a b => timeOf exampleEnv a > timeOf exampleEnv b))) ∧
      (exampleStore.WF → exampleStore.AutoKeyed → exampleStore.keyGen ≤ maxGeneratedKey →
        ∀ x, getProp x "id" = .undefined →
          ∃ stored, (saveToLibrary exampleEnv exampleStore x).2.records =
            exampleStore.records ++ [stored]) :=
  ⟨rfl, rfl, by unfold datesValid; decide, by decide,
    getAllSaved_sorted exampleEnv exampleStore rfl rfl⟩

/-- C2 (counterexample): a store that the operations reach and in which one record has no
date. The comparator of `getAllSaved` is NaN wherever that record is compared, so `sort`
leaves the three records as they are stored: the snippet of January comes before the snippet
of March, which is not newest first. -/
theorem getAllSaved_undated_counterexample :
    (saveToLibrary exampleEnv
      (importLibrary exampleEnv
        (saveToLibrary exampleEnv Store.empty
          [("text", .string "jan"), ("date", .string "2024-01-01T00:00:00.000Z")]).2
        "[\x7b\"text\":\"a\"\x7d]").2
      [("text", .string "mar"), ("date", .string "2024-03-01T00:00:00.000Z")]).2 =
      undatedStore ∧
    undatedStore.WF ∧ undatedStore.AutoKeyed ∧
    getAllSaved exampleEnv undatedStore = .ok undatedStore.records ∧
    (undatedStore.records.map (fun r => exampleEnv.timeValue (getProp r "date")) =
      [some 1704067200000, none, some 1709251200000]) ∧
    ¬ datesValid exampleEnv undatedStore.records := by
  unfold Store.WF Store.AutoKeyed datesValid
  refine ⟨by decide, ⟨by decide, by decide, by decide, by decide⟩, ?_, by decide, by decide,
    by decide⟩
  intro r hr
  simp only [undatedStore, List.mem_cons, List.mem_singleton, List.not_mem_nil, or_false] at hr
  rcases hr with rfl | rfl | rfl
  · exact ⟨1, by decide, by decide⟩
  · exact ⟨2, by decide, by decide⟩
  · exact ⟨3, by decide, by decide⟩

/-! ## The key order -/

mutual
theorem keyCmp_self : ∀ a : JSValue, keyCmp a a = .eq
  | .undefined => rfl
  | .null => rfl
  | .bool _ => rfl
  | .number _ => by simp only [keyCmp]; exact compare_eq_iff_eq.2 rfl
  | .string _ => by simp only [keyCmp]; exact compare_eq_iff_eq.2 rfl
  | .array xs => by simp only [keyCmp]; exact keyCmpList_self xs
  | .object _ => rfl
theorem keyCmpList_self : ∀ xs : List JSValue, keyCmpList xs xs = .eq
  | [] => rfl
  | x :: xs => by simp only [keyCmpList, keyCmp_self x, keyCmpList_self xs]
end

mutual
theorem eq_of_keyCmp_eq : ∀ a b : JSValue, isValidKey a = true → isValidKey b = true →
    keyCmp a b = .eq → a = b
  | .undefined, _, ha, _, _ => by simp [isValidKey] at ha
  | .null, _, ha, _, _ => by simp [isValidKey] at ha
  | .bool _, _, ha, _, _ => by simp [isValidKey] at ha
  | .object _, _, ha, _, _ => by simp [isValidKey] at ha
  | .number m, b, _, hb, h => by
    cases b <;> simp only [keyCmp, isValidKey] at h hb <;> try cases h
    · cases hb
    · cases hb
    · cases hb
    · rw [compare_eq_iff_eq.1 h]
    · cases hb
  | .string s, b, _, hb, h => by
    cases b <;> simp only [keyCmp, isValidKey] at h hb <;> try cases h
    · cases hb
    · cases hb
    · cases hb
    · rw [compare_eq_iff_eq.1 h]
    · cases hb
  | .array xs, b, ha, hb, h => by
    cases b <;> simp only [keyCmp, isValidKey] at h ha hb <;> try cases h
    · cases hb
    · cases hb
    · cases hb
    · rename_i ys
      rw [eqList_of_keyCmpList_eq xs ys ha hb h]
    · cases hb
theorem eqList_of_keyCmpList_eq : ∀ xs ys : List JSValue, allValidKeys xs = true →
    allValidKeys ys = true → keyCmpList xs ys = .eq → xs = ys
  | [], [], _, _, _ => rfl
  | [], _ :: _, _, _, h => by simp [keyCmpList] at h
  | _ :: _, [], _, _, h => by simp [keyCmpList] at h
  | x :: xs, y :: ys, hx, hy, h => by
    simp only [allValidKeys, Bool.and_eq_true] at hx hy
    simp only [keyCmpList] at h
    cases hc : keyCmp x y with
    | lt => rw [hc] at h; cases h
    | gt => rw [hc] at h; cases h
    | eq =>
      rw [hc] at h
      rw [eq_of_keyCmp_eq x y hx.1 hy.1 hc, eqList_of_keyCmpList_eq xs ys hx.2 hy.2 h]
end

theorem compare_swap_eq {α : Type} [LinearOrder α] (a b : α) :
    compare b a = (compare a b).swap := by
  rcases lt_trichotomy a b with h | h | h
  · rw [compare_lt_iff_lt.2 h, compare_gt_iff_gt.2 h]; rfl
  · subst h; rw [compare_eq_iff_eq.2 rfl]; rfl
  · rw [compare_gt_iff_gt.2 h, compare_lt_iff_lt.2 h]; rfl

mutual
theorem keyCmp_swap : ∀ a b : JSValue, keyCmp b a = (keyCmp a b).swap
  | .undefined, b => by cases b <;> rfl
  | .null, b => by cases b <;> rfl
  | .bool _, b => by cases b <;> rfl
  | .object _, b => by cases b <;> rfl
  | .number m, b => by
    cases b <;> try rfl
    simp only [keyCmp]
    exact compare_swap_eq _ _
  | .string s, b => by
    cases b <;> try rfl
    simp only [keyCmp]
    exact compare_swap_eq _ _
  | .array xs, b => by
    cases b <;> try rfl
    simp only [keyCmp]
    exact keyCmpList_swap xs _
theorem keyCmpList_swap : ∀ xs ys : List JSValue, keyCmpList ys xs = (keyCmpList xs ys).swap
  | [], [] => rfl
  | [], _ :: _ => rfl
  | _ :: _, [] => rfl
  | x :: xs, y :: ys => by
    simp only [keyCmpList]
    rw [keyCmp_swap x y, keyCmpList_swap xs ys]
    cases keyCmp x y <;> rfl
end

mutual
theorem keyCmp_trans : ∀ a b c : JSValue, isValidKey a = true → isValidKey b = true →
    isValidKey c = true → keyCmp a b = .lt → keyCmp b c = .lt → keyCmp a c = .lt
  | .undefined, _, _, ha, _, _, _, _ => by simp [isValidKey] at ha
  | .null, _, _, ha, _, _, _, _ => by simp [isValidKey] at ha
  | .bool _, _, _, ha, _, _, _, _ => by simp [isValidKey] at ha
  | .object _, _, _, ha, _, _, _, _ => by simp [isValidKey] at ha
  | .number m, b, c, _, hb, hc, h1, h2 => by
    cases b <;> cases c <;> simp only [keyCmp, isValidKey] at h1 h2 hb hc ⊢ <;>
      first
        | rfl
        | exact absurd h1 (by decide)
        | exact absurd h2 (by decide)
        | exact absurd hb (by decide)
        | exact absurd hc (by decide)
        | exact compare_lt_iff_lt.2 (lt_trans (compare_lt_iff_lt.1 h1) (compare_lt_iff_lt.1 h2))
  | .string s, b, c, _, hb, hc, h1, h2 => by
    cases b <;> cases c <;> simp only [keyCmp, isValidKey] at h1 h2 hb hc ⊢ <;>
      first
        | rfl
        | exact absurd h1 (by decide)
        | exact absurd h2 (by decide)
        | exact absurd hb (by decide)
        | exact absurd hc (by decide)
        | exact compare_lt_iff_lt.2 (lt_trans (compare_lt_iff_lt.1 h1) (compare_lt_iff_lt.1 h2))
  | .array xs, b, c, ha, hb, hc, h1, h2 => by
    cases b <;> cases c <;> simp only [keyCmp, isValidKey] at h1 h2 ha hb hc ⊢ <;>
      first
        | rfl
        | exact absurd h1 (by decide)
        | exact absurd h2 (by decide)
        | exact absurd hb (by decide)
        | exact absurd hc (by decide)
        | exact keyCmpList_trans xs _ _ ha hb hc h1 h2
theorem keyCmpList_trans : ∀ xs ys zs : List JSValue, allValidKeys xs = true →
    allValidKeys ys = true → allValidKeys zs = true →
    keyCmpList xs ys = .lt → keyCmpList ys zs = .lt → keyCmpList xs zs = .lt
  | [], [], _, _, _, _, h1, _ => by simp [keyCmpList] at h1
  | [], _ :: _, [], _, _, _, _, h2 => by simp [keyCmpList] at h2
  | [], _ :: _, _ :: _, _, _, _, _, _ => rfl
  | _ :: _, [], _, _, _, _, h1, _ => by simp [keyCmpList] at h1
  | _ :: _, _ :: _, [], _, _, _, _, h2 => by simp [keyCmpList] at h2
  | x :: xs, y :: ys, z :: zs, hx, hy, hz, h1, h2 => by
    simp only [allValidKeys, Bool.and_eq_true] at hx hy hz
    simp only [keyCmpList] at h1 h2 ⊢
    cases hxy : keyCmp x y with
    | gt => rw [hxy] at h1; cases h1
    | lt =>
      cases hyz : keyCmp y z with
      | gt => rw [hyz] at h2; cases h2
      | lt => rw [keyCmp_trans x y z hx.1 hy.1 hz.1 hxy hyz]
      | eq =>
        have := eq_of_keyCmp_eq y z hy.1 hz.1 hyz
        subst this
        rw [hxy]
    | eq =>
      have := eq_of_keyCmp_eq x y hx.1 hy.1 hxy
      subst this
      rw [hxy] at h1
      cases hyz : keyCmp x z with
      | gt => rw [hyz] at h2; cases h2
      | lt => rfl
      | eq =>
        rw [hyz] at h2
        exact keyCmpList_trans xs ys zs hx.2 hy.2 hz.2 h1 h2
end

/-- Placing a record with a new valid key keeps the records in ascending key order. -/
theorem insertByKey_sorted {r : Record} {records : List Record}
    (hr : isValidKey (keyOf r) = true) (hv : ∀ x ∈ records, isValidKey (keyOf x) = true)
    (hne : ∀ x ∈ records, keyOf x ≠ keyOf r)
    (hs : (records.map keyOf).Pairwise (fun a b => keyCmp a b = .lt)) :
    ((insertByKey r records).map keyOf).Pairwise (fun a b => keyCmp a b = .lt) := by
  induction records with
  | nil => simp [insertByKey]
  | cons x xs ih =>
    have hx := hv x (List.mem_cons_self _ _)
    have hvxs : ∀ y ∈ xs, isValidKey (keyOf y) = true :=
      fun y hy => hv y (List.mem_cons_of_mem _ hy)
    have hnexs : ∀ y ∈ xs, keyOf y ≠ keyOf r := fun y hy => hne y (List.mem_cons_of_mem _ hy)
    rw [List.map_cons, List.pairwise_cons] at hs
    have hxlt : ∀ y ∈ xs, keyCmp (keyOf x) (keyOf y) = .lt :=
      fun y hy => hs.1 (keyOf y) (List.mem_map_of_mem _ hy)
    unfold insertByKey
    cases hc : keyCmp (keyOf r) (keyOf x) with
    | lt =>
      simp only [List.map_cons, List.pairwise_cons]
      refine ⟨?_, hs⟩
      intro k hk
      rcases List.mem_cons.1 hk with rfl | hk
      · exact hc
      · obtain ⟨y, hy, rfl⟩ := List.mem_map.1 hk
        exact keyCmp_trans _ _ _ hr hx (hvxs y hy) hc (hxlt y hy)
    | eq =>
      exact absurd (eq_of_keyCmp_eq _ _ hr hx hc).symm (hne x (List.mem_cons_self _ _))
    | gt =>
      have hxr : keyCmp (keyOf x) (keyOf r) = .lt := by
        rw [keyCmp_swap (keyOf r) (keyOf x), hc]; rfl
      simp only [List.map_cons, List.pairwise_cons]
      refine ⟨?_, ih hvxs hnexs hs.2⟩
      intro k hk
      obtain ⟨y, hy, rfl⟩ := List.mem_map.1 hk
      rcases mem_insertByKey.1 hy with rfl | hy
      · exact hxr
      · exact hxlt y hy

/-- Records in strictly ascending key order have pairwise distinct keys. -/
theorem nodup_of_sorted_keys {keys : List JSValue}
    (h : keys.Pairwise (fun a b => keyCmp a b = .lt)) : keys.Nodup := by
  refine h.imp ?_
  intro a b hab e
  subst e
  rw [keyCmp_self] at hab
  cases hab

/-- In a well-formed store no two records share a key. -/
theorem Store.WF.nodup_keys {s : Store} (h : s.WF) : (s.records.map keyOf).Nodup :=
  nodup_of_sorted_keys h.2.1

/-! ## The object store: `put`, `delete` and the invariant -/

/-- What `add` and `put` do with a value whose `id` is a valid key. -/
theorem storeRecord_explicit {s : Store} {value : Record} {key : JSValue} (noOverwrite : Bool)
    (hkey : getProp value "id" = key) (hvalid : isValidKey key = true) :
    storeRecord s value noOverwrite =
      match findByKey key s.records with
      | some _ =>
        if noOverwrite then .error .constraintError
        else .ok (key, { records := replaceByKey key value s.records,
                         keyGen := bumpKeyGen s.keyGen key })
      | none => .ok (key, { records := insertByKey value s.records,
                            keyGen := bumpKeyGen s.keyGen key }) := by
  unfold storeRecord
  rw [hkey]
  cases key <;> simp_all [isValidKey]

theorem keyOf_replaceByKey {key : JSValue} {r : Record} (hr : keyOf r = key)
    (records : List Record) :
    (replaceByKey key r records).map keyOf = records.map keyOf := by
  induction records with
  | nil => simp [replaceByKey]
  | cons x xs ih =>
    simp only [replaceByKey, List.map_cons] at ih ⊢
    rw [ih]
    by_cases hx : keyOf x = key
    · simp [hx, hr]
    · simp [hx]

theorem length_replaceByKey (key : JSValue) (r : Record) (records : List Record) :
    (replaceByKey key r records).length = records.length := by
  simp [replaceByKey]

theorem mem_replaceByKey {key : JSValue} {r x : Record} {records : List Record}
    (h : x ∈ replaceByKey key r records) : x = r ∨ (x ∈ records ∧ keyOf x ≠ key) := by
  simp only [replaceByKey, List.mem_map] at h
  obtain ⟨y, hy, hxy⟩ := h
  by_cases hk : keyOf y = key
  · simp [hk] at hxy; exact Or.inl hxy.symm
  · simp [hk] at hxy; subst hxy; exact Or.inr ⟨hy, hk⟩

theorem mem_replaceByKey_of_ne {key : JSValue} {r x : Record} {records : List Record}
    (hx : x ∈ records) (hk : keyOf x ≠ key) : x ∈ replaceByKey key r records := by
  simp only [replaceByKey, List.mem_map]
  exact ⟨x, hx, by simp [hk]⟩

theorem findByKey_replaceByKey_self {key : JSValue} {r item : Record} {records : List Record}
    (hr : keyOf r = key) (hfound : findByKey key records = some item) :
    findByKey key (replaceByKey key r records) = some r := by
  induction records with
  | nil => simp [findByKey] at hfound
  | cons x xs ih =>
    by_cases hx : keyOf x = key
    · simp [findByKey, replaceByKey, hx, hr]
    · have hfound' : findByKey key xs = some item := by
        simpa [findByKey, hx] using hfound
      have := ih hfound'
      simp only [findByKey, replaceByKey, List.map_cons, hx, if_false] at this ⊢
      rw [List.find?_cons_of_neg _ (by simpa using hx)]
      exact this

theorem findByKey_replaceByKey_of_ne {key key' : JSValue} {r : Record} (hr : keyOf r = key)
    (hne : key' ≠ key) (records : List Record) :
    findByKey key' (replaceByKey key r records) = findByKey key' records := by
  induction records with
  | nil => simp [findByKey, replaceByKey]
  | cons x xs ih =>
    simp only [findByKey, replaceByKey, List.map_cons] at ih ⊢
    by_cases hx : keyOf x = key
    · have h1 : ¬ keyOf r = key' := by rw [hr]; exact fun e => hne e.symm
      have h2 : ¬ keyOf x = key' := by rw [hx]; exact fun e => hne e.symm
      simp only [hx, if_true]
      rw [List.find?_cons_of_neg _ (by simpa using h1),
        List.find?_cons_of_neg _ (by simpa using h2)]
      exact ih
    · simp only [hx, if_false]
      by_cases hx' : keyOf x = key'
      · simp [hx']
      · rw [List.find?_cons_of_neg _ (by simpa using hx'),
          List.find?_cons_of_neg _ (by simpa using hx')]
        exact ih

theorem le_bumpKeyGen {keyGen : Nat} (key : JSValue) (hmax : keyGen ≤ maxGeneratedKey + 1) :
    keyGen ≤ bumpKeyGen keyGen key := by
  cases key <;> simp only [bumpKeyGen, le_refl]
  split
  · rename_i n h
    simp only [maxGeneratedKey] at *
    omega
  · exact le_refl _

theorem bumpKeyGen_le_max {keyGen : Nat} (key : JSValue) (h : keyGen ≤ maxGeneratedKey + 1) :
    bumpKeyGen keyGen key ≤ maxGeneratedKey + 1 := by
  cases key <;> simp only [bumpKeyGen, h]
  split
  · simp only [maxGeneratedKey] at *
    omega
  · exact h

theorem keyBelow_bumpKeyGen_self (keyGen : Nat) (key : JSValue) :
    keyBelow (bumpKeyGen keyGen key) key = true := by
  cases key <;> simp only [keyBelow, bumpKeyGen]
  rename_i n
  split
  · simp only [maxGeneratedKey, Bool.or_eq_true, decide_eq_true_eq]
    push_cast
    omega
  · simp only [Bool.or_eq_true, decide_eq_true_eq] at *
    omega

theorem keyBelow_mono {g g' : Nat} {key : JSValue} (hg : g ≤ g')
    (h : keyBelow g key = true) : keyBelow g' key = true := by
  cases key <;> simp only [keyBelow] at h ⊢
  simp only [Bool.or_eq_true, decide_eq_true_eq] at *
  omega

/-- A key below the key generator does not move it. -/
theorem bumpKeyGen_of_keyBelow {keyGen : Nat} {key : JSValue}
    (h : keyBelow keyGen key = true) (hmax : keyGen ≤ maxGeneratedKey + 1) :
    bumpKeyGen keyGen key = keyGen := by
  cases key <;> simp only [bumpKeyGen]
  rename_i n
  simp only [keyBelow, Bool.or_eq_true, decide_eq_true_eq] at h
  split
  · simp only [maxGeneratedKey] at *
    omega
  · rfl

/-- The operations `add` and `put` keep the store well-formed. -/
theorem storeRecord_WF {s s' : Store} {value : Record} {noOverwrite : Bool} {key : JSValue}
    (hwf : s.WF) (h : storeRecord s value noOverwrite = .ok (key, s')) : s'.WF := by
  obtain ⟨hvalid, hsorted, hbelow, hmax⟩ := hwf
  by_cases hid : getProp value "id" = .undefined
  · unfold storeRecord at h
    rw [hid] at h
    simp only at h
    split at h
    · cases h
    · rename_i hgen
      have hgen' : s.keyGen ≤ maxGeneratedKey := not_lt.1 hgen
      have hfresh : findByKey (.number s.keyGen) s.records = none :=
        findByKey_eq_none.2 (fun r hr => keyBelow_ne_keyGen (hbelow r hr) hgen')
      rw [hfresh] at h
      simp only [Except.ok.injEq, Prod.mk.injEq] at h
      obtain ⟨_, rfl⟩ := h
      have hk : keyOf (setProp value "id" (.number s.keyGen)) = .number s.keyGen :=
        getProp_setProp_self _ _ _
      refine ⟨?_, ?_, ?_, by simp only; omega⟩
      · intro r hr
        rcases mem_insertByKey.1 hr with rfl | hr
        · rw [hk]; rfl
        · exact hvalid r hr
      · refine insertByKey_sorted (by rw [hk]; rfl) hvalid ?_ hsorted
        rw [hk]
        exact fun r hr => keyBelow_ne_keyGen (hbelow r hr) hgen'
      · intro r hr
        rcases mem_insertByKey.1 hr with rfl | hr
        · rw [hk]
          simp only [keyBelow, Bool.or_eq_true, decide_eq_true_eq]
          left; push_cast; omega
        · exact keyBelow_mono (Nat.le_succ _) (hbelow r hr)
  · have hkv : isValidKey (getProp value "id") = true := by
      by_contra hnv
      unfold storeRecord at h
      cases hk : getProp value "id" <;> rw [hk] at h hid hnv <;>
        simp_all [isValidKey]
    rw [storeRecord_explicit noOverwrite rfl hkv] at h
    cases hfind : findByKey (getProp value "id") s.records with
    | some item =>
      rw [hfind] at h
      simp only at h
      split at h
      · cases h
      · simp only [Except.ok.injEq, Prod.mk.injEq] at h
        obtain ⟨_, rfl⟩ := h
        refine ⟨?_, ?_, ?_, bumpKeyGen_le_max _ hmax⟩
        · intro r hr
          rcases mem_replaceByKey hr with rfl | ⟨hr, _⟩
          · exact hkv
          · exact hvalid r hr
        · simp only
          rw [@keyOf_replaceByKey (getProp value "id") value rfl s.records]
          exact hsorted
        · intro r hr
          rcases mem_replaceByKey hr with rfl | ⟨hr, _⟩
          · exact keyBelow_bumpKeyGen_self _ _
          · exact keyBelow_mono (le_bumpKeyGen _ hmax) (hbelow r hr)
    | none =>
      rw [hfind] at h
      simp only [Except.ok.injEq, Prod.mk.injEq] at h
      obtain ⟨_, rfl⟩ := h
      refine ⟨?_, ?_, ?_, bumpKeyGen_le_max _ hmax⟩
      · intro r hr
        rcases mem_insertByKey.1 hr with rfl | hr
        · exact hkv
        · exact hvalid r hr
      · exact insertByKey_sorted hkv hvalid (findByKey_eq_none.1 hfind) hsorted
      · intro r hr
        rcases mem_insertByKey.1 hr with rfl | hr
        · exact keyBelow_bumpKeyGen_self _ _
        · exact keyBelow_mono (le_bumpKeyGen _ hmax) (hbelow r hr)

theorem requestStore_WF {env : Env} {n : Nat} {s s' : Store} {value : Record}
    {noOverwrite : Bool} {key : JSValue} (hwf : s.WF)
    (h : requestStore env n s value noOverwrite = .ok (key, s')) : s'.WF := by
  unfold requestStore at h
  cases hs : storeRecord s value noOverwrite with
  | error e => rw [hs] at h; cases h
  | ok res =>
    rw [hs] at h
    simp only at h
    split at h
    · cases h
    · cases h
      exact storeRecord_WF hwf hs

theorem storeDelete_WF {s s' : Store} {key : JSValue} (hwf : s.WF)
    (h : storeDelete s key = .ok s') : s'.WF := by
  unfold storeDelete at h
  split at h
  · cases h
  · cases h
    obtain ⟨hvalid, hsorted, hbelow, hmax⟩ := hwf
    refine ⟨fun r hr => hvalid r (List.mem_of_mem_filter hr), ?_,
      fun r hr => hbelow r (List.mem_of_mem_filter hr), hmax⟩
    exact hsorted.sublist ((List.filter_sublist _).map keyOf)

/-- Saving keeps the store well-formed. -/
theorem saveToLibrary_WF (env : Env) (s : Store) (content : Record) (hwf : s.WF) :
    (saveToLibrary env s content).2.WF := by
  unfold saveToLibrary
  split
  · exact hwf
  · simp only
    split
    · rename_i key s' h
      exact requestStore_WF hwf h
    · exact hwf

/-- Updating keeps the store well-formed. -/
theorem updateSaved_WF (env : Env) (s : Store) (id : JSValue) (updates : Record)
    (hwf : s.WF) : (updateSaved env s id updates).2.WF := by
  unfold updateSaved
  split
  · exact hwf
  · split
    · exact hwf
    · split
      · exact hwf
      · split
        · exact hwf
        · simp only
          split
          · rename_i key s' h
            exact requestStore_WF hwf h
          · exact hwf

/-- Deleting keeps the store well-formed. -/
theorem deleteSaved_WF (env : Env) (s : Store) (id : JSValue) (hwf : s.WF) :
    (deleteSaved env s id).2.WF := by
  unfold deleteSaved
  split
  · exact hwf
  · split
    · exact hwf
    · rename_i s' h
      split
      · exact hwf
      · exact storeDelete_WF hwf h

/-- Clearing keeps the store well-formed. -/
theorem clearAllSaved_WF (env : Env) (s : Store) (hwf : s.WF) :
    (clearAllSaved env s).2.WF := by
  unfold clearAllSaved
  split
  · exact hwf
  · split
    · exact hwf
    · exact ⟨by simp, by simp, by simp, hwf.2.2.2⟩

theorem importLoop_WF (env : Env) (start : Store) (hstart : start.WF) (items : List JSValue) :
    ∀ (i : Nat) (cur : Store) (aborted : Bool) (imported : Nat), cur.WF →
      (importLoop env start items i cur aborted imported).2.WF := by
  induction items with
  | nil => intro i cur aborted imported hcur; exact hcur
  | cons item rest ih =>
    intro i cur aborted imported hcur
    unfold importLoop
    split
    · exact hcur
    · split
      · exact ih _ _ _ _ hcur
      · split
        · rename_i key cur' h
          exact ih _ _ _ _ (requestStore_WF hcur h)
        · exact ih _ _ _ _ hstart

/-- Importing keeps the store well-formed. -/
theorem importLibrary_WF (env : Env) (s : Store) (jsonData : String) (hwf : s.WF) :
    (importLibrary env s jsonData).2.WF := by
  unfold importLibrary
  split
  · exact hwf
  · split
    · exact hwf
    · exact importLoop_WF env s hwf _ _ _ _ _ hwf
  · exact hwf

/-! ## Updating -/

/-- When `getSavedById` returns a record, the id is a valid key and the store holds the record
under it. -/
theorem getSavedById_object {env : Env} {s : Store} {id : JSValue} {item : Record}
    (h : getSavedById env s id = .ok (.object item)) :
    isValidKey id = true ∧ findByKey id s.records = some item := by
  unfold getSavedById storeGet at h
  split at h
  · cases h
  · cases hv : isValidKey id with
    | false => simp [hv] at h
    | true =>
      simp only [hv, Bool.not_true, Bool.false_eq_true, if_false] at h
      split at h
      · cases h
      · cases hf : findByKey id s.records with
        | none => rw [hf] at h; cases h
        | some r =>
          rw [hf] at h
          simp only [Except.ok.injEq, JSValue.object.injEq] at h
          exact ⟨rfl, by rw [h]⟩

/-- The result of `updateSaved` on an existing id, spelled out: the merged record takes the
place of the stored one and the key generator keeps its number. -/
theorem updateSaved_found (env : Env) (s : Store) (id : JSValue) (updates item : Record)
    (hwf : s.WF) (hopen : env.openFails = false) (hreq0 : env.requestFails 0 = false)
    (hreq1 : env.requestFails 1 = false) (hvalid : isValidKey id = true)
    (hfound : findByKey id s.records = some item) :
    updateSaved env s id updates =
      (.ok (setProp (spread item updates) "id" id),
        { records := replaceByKey id (setProp (spread item updates) "id" id) s.records,
          keyGen := s.keyGen }) := by
  have hkey : getProp (setProp (spread item updates) "id" id) "id" = id :=
    getProp_setProp_self _ _ _
  have hmem := findByKey_some hfound
  have hbump : bumpKeyGen s.keyGen id = s.keyGen := by
    have := hwf.2.2.1 item hmem.1
    rw [hmem.2] at this
    exact bumpKeyGen_of_keyBelow this hwf.2.2.2
  simp only [updateSaved, hopen, storeGet, hvalid, hreq0, Bool.not_true, Bool.false_eq_true,
    if_false, requestStore]
  rw [hfound]
  simp only
  rw [storeRecord_explicit false hkey hvalid, hfound]
  simp only [Bool.false_eq_true, if_false, hreq1, hbump]

/-- C3 (amended): for an id that `getSavedById` finds and any `updates`, when the storage layer
does not fail, `updateSaved(id, updates)` returns and persists the merged record:
`getSavedById(id)` returns it afterwards, its `id` is `id`, every property other than `id`
that `updates` supplies has the supplied value, and every property `updates` does not supply
(`date` included) is as in the stored record. -/
theorem updateSaved_merge (env : Env) (s : Store) (id : JSValue) (updates item : Record)
    (hwf : s.WF) (hopen : env.openFails = false) (hreq0 : env.requestFails 0 = false)
    (hreq1 : env.requestFails 1 = false)
    (hexists : getSavedById env s id = .ok (.object item)) :
    ∃ merged s',
      updateSaved env s id updates = (.ok merged, s') ∧
      getSavedById env s' id = .ok (.object merged) ∧
      prop? merged "id" = some id ∧
      (∀ k v, k ≠ "id" → prop? updates k = some v → prop? merged k = some v) ∧
      (∀ k, k ≠ "id" → prop? updates k = none → prop? merged k = prop? item k) := by
  obtain ⟨hvalid, hfound⟩ := getSavedById_object hexists
  refine ⟨_, _, updateSaved_found env s id updates item hwf hopen hreq0 hreq1 hvalid hfound,
    ?_, prop?_setProp_self _ _ _, ?_, ?_⟩
  · have hkey : keyOf (setProp (spread item updates) "id" id) = id :=
      getProp_setProp_self _ _ _
    simp [getSavedById, hopen, storeGet, hvalid, hreq0,
      findByKey_replaceByKey_self hkey hfound]
  · intro k v hk hv
    rw [prop?_setProp_of_ne _ _ hk, prop?_spread, hv]
    rfl
  · intro k hk hv
    rw [prop?_setProp_of_ne _ _ hk, prop?_spread, hv]
    rfl

/-- C3 (witness): the record `{id: 1, text: "a", notes: "n"}` updated with `{text: "b"}`
becomes `{id: 1, text: "b", notes: "n"}`. -/
theorem updateSaved_merge_witness :
    Store.WF { records := [[("id", .number 1), ("text", .string "a"), ("notes", .string "n")]],
               keyGen := 2 } ∧
    exampleEnv.openFails = false ∧ exampleEnv.requestFails 0 = false ∧
    exampleEnv.requestFails 1 = false ∧
    getSavedById exampleEnv
      { records := [[("id", .number 1), ("text", .string "a"), ("notes", .string "n")]],
        keyGen := 2 } (.number 1) =
      .ok (.object [("id", .number 1), ("text", .string "a"), ("notes", .string "n")]) ∧
    updateSaved exampleEnv
      { records := [[("id", .number 1), ("text", .string "a"), ("notes", .string "n")]],
        keyGen := 2 } (.number 1) [("text", .string "b")] =
      (.ok [("id", .number 1), ("text", .string "b"), ("notes", .string "n")],
        { records := [[("id", .number 1), ("text", .string "b"), ("notes", .string "n")]],
          keyGen := 2 }) ∧
    ∃ merged s',
      updateSaved exampleEnv
        { records := [[("id", .number 1), ("text", .string "a"), ("notes", .string "n")]],
          keyGen := 2 } (.number 1) [("text", .string "b")] = (.ok merged, s') ∧
      getSavedById exampleEnv s' (.number 1) = .ok (.object merged) ∧
      prop? merged "id" = some (.number 1) ∧
      (∀ k v, k ≠ "id" → prop? [("text", JSValue.string "b")] k = some v →
        prop? merged k = some v) ∧
      (∀ k, k ≠ "id" → prop? [("text", JSValue.string "b")] k = none →
        prop? merged k =
          prop? [("id", .number 1), ("text", .string "a"), ("notes", .string "n")] k) :=
  ⟨by unfold Store.WF; decide, rfl, rfl, rfl, by decide, by decide,
    updateSaved_merge exampleEnv _ (.number 1) [("text", .string "b")] _
      (by unfold Store.WF; decide) rfl rfl rfl (by decide)⟩

/-- C3 (counterexample): `updates` that supply `id: 2` do not replace the id: the record
`{id: 1, text: "a", notes: "n"}` updated with `{id: 2, text: "b"}` keeps `id: 1`. -/
theorem updateSaved_counterexample :
    prop? [("id", JSValue.number 2), ("text", JSValue.string "b")] "id" = some (.number 2) ∧
    updateSaved exampleEnv
      { records := [[("id", .number 1), ("text", .string "a"), ("notes", .string "n")]],
        keyGen := 2 } (.number 1) [("id", .number 2), ("text", .string "b")] =
      (.ok [("id", .number 1), ("text", .string "b"), ("notes", .string "n")],
        { records := [[("id", .number 1), ("text", .string "b"), ("notes", .string "n")]],
          keyGen := 2 }) := by
  decide

/-- C4: for an id that no stored record has, `updateSaved` fails and leaves the store as it
was, whatever the storage layer does; when the storage layer does not fail and the id is a
valid key, the failure is the error `Item not found`. -/
theorem updateSaved_not_found (env : Env) (s : Store) (id : JSValue) (updates : Record)
    (hnone : ∀ r ∈ s.records, keyOf r ≠ id) :
    (∃ e, (updateSaved env s id updates).1 = .error e) ∧
    (updateSaved env s id updates).2 = s ∧
    (env.openFails = false → env.requestFails 0 = false → isValidKey id = true →
      (updateSaved env s id updates).1 = .error .itemNotFound) := by
  have hfind : findByKey id s.records = none := findByKey_eq_none.2 hnone
  unfold updateSaved storeGet
  cases env.openFails <;> cases isValidKey id <;> cases env.requestFails 0 <;>
    simp [hfind]

/-- C4 (witness): updating id 7 in the example store, which holds ids 1, 2 and 3. -/
theorem updateSaved_not_found_witness :
    (∀ r ∈ exampleStore.records, keyOf r ≠ .number 7) ∧
    (∃ e, (updateSaved exampleEnv exampleStore (.number 7) [("text", .string "b")]).1 =
      .error e) ∧
    (updateSaved exampleEnv exampleStore (.number 7) [("text", .string "b")]).2 =
      exampleStore ∧
    (exampleEnv.openFails = false → exampleEnv.requestFails 0 = false →
      isValidKey (.number 7) = true →
      (updateSaved exampleEnv exampleStore (.number 7) [("text", .string "b")]).1 =
        .error .itemNotFound) :=
  ⟨by decide,
    updateSaved_not_found exampleEnv exampleStore (.number 7) [("text", .string "b")]
      (by decide)⟩

/-- C5: for an id that `getSavedById` finds and any `updates`, also ones with an `id` of their
own, when the storage layer does not fail, `updateSaved(id, updates)` yields a record whose
`id` is `id`, the id of the stored record; the store holds as many records as before, and
under every other key it holds what it held. -/
theorem updateSaved_frame (env : Env) (s : Store) (id : JSValue) (updates item : Record)
    (hwf : s.WF) (hopen : env.openFails = false) (hreq0 : env.requestFails 0 = false)
    (hreq1 : env.requestFails 1 = false)
    (hexists : getSavedById env s id = .ok (.object item)) :
    ∃ merged s',
      updateSaved env s id updates = (.ok merged, s') ∧
      prop? merged "id" = some id ∧ keyOf item = id ∧
      s'.records.length = s.records.length ∧
      (∀ key, key ≠ id → findByKey key s'.records = findByKey key s.records) ∧
      (∀ r, keyOf r ≠ id → (r ∈ s'.records ↔ r ∈ s.records)) := by
  obtain ⟨hvalid, hfound⟩ := getSavedById_object hexists
  have hkey : keyOf (setProp (spread item updates) "id" id) = id :=
    getProp_setProp_self _ _ _
  refine ⟨_, _, updateSaved_found env s id updates item hwf hopen hreq0 hreq1 hvalid hfound,
    prop?_setProp_self _ _ _, (findByKey_some hfound).2, length_replaceByKey _ _ _,
    fun key hne => findByKey_replaceByKey_of_ne hkey hne _, ?_⟩
  intro r hr
  constructor
  · intro hmem
    rcases mem_replaceByKey hmem with rfl | ⟨h, _⟩
    · exact absurd hkey hr
    · exact h
  · intro hmem
    exact mem_replaceByKey_of_ne hmem hr

/-- C5 (witness): updating id 2 of the example store with updates that carry `id: 9`. -/
theorem updateSaved_frame_witness :
    exampleStore.WF ∧ exampleEnv.openFails = false ∧ exampleEnv.requestFails 0 = false ∧
    exampleEnv.requestFails 1 = false ∧
    getSavedById exampleEnv exampleStore (.number 2) =
      .ok (.object [("text", .string "b"), ("date", .string "2024-03-01T00:00:00.000Z"),
        ("source", .string "example.com"), ("url", .string "https://example.com/b"),
        ("id", .number 2)]) ∧
    ∃ merged s',
      updateSaved exampleEnv exampleStore (.number 2)
        [("id", .number 9), ("notes", .string "x")] = (.ok merged, s') ∧
      prop? merged "id" = some (.number 2) ∧
      keyOf [("text", .string "b"), ("date", .string "2024-03-01T00:00:00.000Z"),
        ("source", .string "example.com"), ("url", .string "https://example.com/b"),
        ("id", .number 2)] = .number 2 ∧
      s'.records.length = exampleStore.records.length ∧
      (∀ key, key ≠ .number 2 →
        findByKey key s'.records = findByKey key exampleStore.records) ∧
      (∀ r, keyOf r ≠ .number 2 → (r ∈ s'.records ↔ r ∈ exampleStore.records)) :=
  ⟨by unfold Store.WF; decide, rfl, rfl, rfl, by decide,
    updateSaved_frame exampleEnv exampleStore (.number 2)
      [("id", .number 9), ("notes", .string "x")] _ (by unfold Store.WF; decide) rfl rfl rfl
      (by decide)⟩

/-! ## The properties `date`, `source` and `url` -/

theorem hasProp_spread (a b : Record) (k : String) :
    hasProp (spread a b) k = (hasProp a k || hasProp b k) := by
  simp only [hasProp, prop?_spread]
  cases prop? b k <;> cases prop? a k <;> rfl

theorem hasDefaults_setProp_id {r : Record} (v : JSValue) (h : hasDefaults r) :
    hasDefaults (setProp r "id" v) := by
  unfold hasDefaults
  rw [getProp_setProp_of_ne r v (by decide), getProp_setProp_of_ne r v (by decide),
    getProp_setProp_of_ne r v (by decide)]
  exact h

theorem truthy_getProp_spread {a b : Record} {k : String}
    (ha : (getProp a k).truthy = true) (hb : fieldKept b k = true) :
    (getProp (spread a b) k).truthy = true := by
  unfold getProp fieldKept at *
  rw [prop?_spread]
  cases hbk : prop? b k with
  | some v =>
    rw [hbk] at hb
    exact hb
  | none => exact ha

theorem hasDefaults_spread {a b : Record} (h : hasDefaults a) (hb : updatesKeepDefaults b) :
    hasDefaults (spread a b) :=
  ⟨truthy_getProp_spread h.1 hb.1, truthy_getProp_spread h.2.1 hb.2.1,
    truthy_getProp_spread h.2.2 hb.2.2⟩

theorem hasDefaults_omitProp_id {r : Record} (h : hasDefaults r) :
    hasDefaults (omitProp r "id") := by
  unfold hasDefaults getProp at *
  rw [prop?_omitProp_of_ne r (by decide), prop?_omitProp_of_ne r (by decide),
    prop?_omitProp_of_ne r (by decide)]
  exact h

theorem truthy_or_string (v : JSValue) (str : String)
    (h : v.truthy = true ∨ str ≠ "") : (v.or (.string str)).truthy = true := by
  unfold JSValue.or
  by_cases hv : v.truthy = true
  · rw [if_pos hv]
    exact hv
  · rw [if_neg hv]
    rcases h with h | h
    · exact absurd h hv
    · simpa [JSValue.truthy] using h

/-- On the object `saveToLibrary` hands to `add` the three fields are present when each is
given by the caller or has a default that is not empty. -/
theorem hasDefaults_saved (env : Env) (content : Record)
    (hdate : (getProp content "date").truthy = true ∨ env.nowISO ≠ "")
    (hsource : (getProp content "source").truthy = true ∨ env.hostname ≠ "")
    (hurl : (getProp content "url").truthy = true ∨ env.href ≠ "") :
    hasDefaults
      (setProp
        (setProp
          (setProp content "date" ((getProp content "date").or (.string env.nowISO)))
          "source" ((getProp content "source").or (.string env.hostname)))
        "url" ((getProp content "url").or (.string env.href))) := by
  refine ⟨?_, ?_, ?_⟩
  · rw [getProp_setProp_of_ne _ _ (by decide), getProp_setProp_of_ne _ _ (by decide),
      getProp_setProp_self]
    exact truthy_or_string _ _ hdate
  · rw [getProp_setProp_of_ne _ _ (by decide), getProp_setProp_self]
    exact truthy_or_string _ _ hsource
  · rw [getProp_setProp_self]
    exact truthy_or_string _ _ hurl

/-- The records after `add` or `put`: those before, and the value, with its key written into
it when the key was generated. -/
theorem storeRecord_mem {s s' : Store} {value : Record} {noOverwrite : Bool} {key : JSValue}
    (h : storeRecord s value noOverwrite = .ok (key, s')) :
    ∀ r ∈ s'.records,
      r ∈ s.records ∨ r = value ∨ r = setProp value "id" (.number s.keyGen) := by
  intro r hr
  by_cases hid : getProp value "id" = .undefined
  · unfold storeRecord at h
    rw [hid] at h
    simp only at h
    split at h
    · cases h
    · cases hfind : findByKey (.number s.keyGen) s.records with
      | some item =>
        rw [hfind] at h
        simp only at h
        split at h
        · cases h
        · simp only [Except.ok.injEq, Prod.mk.injEq] at h
          obtain ⟨_, rfl⟩ := h
          rcases mem_replaceByKey hr with rfl | ⟨hr, _⟩
          · exact Or.inr (Or.inr rfl)
          · exact Or.inl hr
      | none =>
        rw [hfind] at h
        simp only [Except.ok.injEq, Prod.mk.injEq] at h
        obtain ⟨_, rfl⟩ := h
        rcases mem_insertByKey.1 hr with rfl | hr
        · exact Or.inr (Or.inr rfl)
        · exact Or.inl hr
  · have hkv : isValidKey (getProp value "id") = true := by
      by_contra hnv
      unfold storeRecord at h
      cases hk : getProp value "id" <;> rw [hk] at h hid hnv <;>
        simp_all [isValidKey]
    rw [storeRecord_explicit noOverwrite rfl hkv] at h
    cases hfind : findByKey (getProp value "id") s.records with
    | some item =>
      rw [hfind] at h
      simp only at h
      split at h
      · cases h
      · simp only [Except.ok.injEq, Prod.mk.injEq] at h
        obtain ⟨_, rfl⟩ := h
        rcases mem_replaceByKey hr with rfl | ⟨hr, _⟩
        · exact Or.inr (Or.inl rfl)
        · exact Or.inl hr
    | none =>
      rw [hfind] at h
      simp only [Except.ok.injEq, Prod.mk.injEq] at h
      obtain ⟨_, rfl⟩ := h
      rcases mem_insertByKey.1 hr with rfl | hr
      · exact Or.inr (Or.inl rfl)
      · exact Or.inl hr

theorem requestStore_defaults {env : Env} {n : Nat} {s s' : Store} {value : Record}
    {noOverwrite : Bool} {key : JSValue} (hs : s.DefaultsPresent) (hv : hasDefaults value)
    (h : requestStore env n s value noOverwrite = .ok (key, s')) : s'.DefaultsPresent := by
  unfold requestStore at h
  cases hsr : storeRecord s value noOverwrite with
  | error e => rw [hsr] at h; cases h
  | ok res =>
    rw [hsr] at h
    simp only at h
    split at h
    · cases h
    · cases h
      intro r hr
      rcases storeRecord_mem hsr r hr with h1 | rfl | rfl
      · exact hs r h1
      · exact hv
      · exact hasDefaults_setProp_id _ hv

theorem saveToLibrary_defaults (env : Env) (s : Store) (content : Record)
    (hs : s.DefaultsPresent)
    (hdate : (getProp content "date").truthy = true ∨ env.nowISO ≠ "")
    (hsource : (getProp content "source").truthy = true ∨ env.hostname ≠ "")
    (hurl : (getProp content "url").truthy = true ∨ env.href ≠ "") :
    (saveToLibrary env s content).2.DefaultsPresent := by
  unfold saveToLibrary
  split
  · exact hs
  · simp only
    split
    · rename_i key s' h
      exact requestStore_defaults hs (hasDefaults_saved env content hdate hsource hurl) h
    · exact hs

theorem updateSaved_defaults (env : Env) (s : Store) (id : JSValue) (updates : Record)
    (hs : s.DefaultsPresent) (hupdates : updatesKeepDefaults updates) :
    (updateSaved env s id updates).2.DefaultsPresent := by
  unfold updateSaved
  split
  · exact hs
  · split
    · exact hs
    · rename_i found hget
      split
      · exact hs
      · split
        · exact hs
        · rename_i item
          simp only
          split
          · rename_i key s' h
            have hitem : item ∈ s.records := by
              unfold storeGet at hget
              split at hget
              · cases hget
              · injection hget with hf
                exact (findByKey_some hf).1
            exact requestStore_defaults hs
              (hasDefaults_setProp_id _ (hasDefaults_spread (hs item hitem) hupdates)) h
          · exact hs

theorem deleteSaved_defaults (env : Env) (s : Store) (id : JSValue)
    (hs : s.DefaultsPresent) : (deleteSaved env s id).2.DefaultsPresent := by
  unfold deleteSaved storeDelete
  split
  · exact hs
  · split
    · exact hs
    · rename_i s' h
      split at h
      · cases h
      · cases h
        split
        · exact hs
        · exact fun r hr => hs r (List.mem_of_mem_filter hr)

theorem clearAllSaved_defaults (env : Env) (s : Store) (hs : s.DefaultsPresent) :
    (clearAllSaved env s).2.DefaultsPresent := by
  unfold clearAllSaved
  split
  · exact hs
  · split
    · exact hs
    · intro r hr
      cases hr

theorem importLoop_defaults (env : Env) (start : Store) (hstart : start.DefaultsPresent)
    (items : List JSValue)
    (hitems : ∀ item ∈ items, ∃ props, item = .object props ∧ hasDefaults props) :
    ∀ (i : Nat) (cur : Store) (aborted : Bool) (imported : Nat), cur.DefaultsPresent →
      (importLoop env start items i cur aborted imported).2.DefaultsPresent := by
  induction items with
  | nil => intro i cur aborted imported hcur; exact hcur
  | cons item rest ih =>
    have hrest : ∀ x ∈ rest, ∃ props, x = .object props ∧ hasDefaults props :=
      fun x hx => hitems x (List.mem_cons_of_mem _ hx)
    obtain ⟨props, rfl, hprops⟩ := hitems item (List.mem_cons_self _ _)
    intro i cur aborted imported hcur
    unfold importLoop
    simp only [restWithoutId]
    split
    · exact ih hrest _ _ _ _ hcur
    · split
      · rename_i key cur' h
        exact ih hrest _ _ _ _ (requestStore_defaults hcur (hasDefaults_omitProp_id hprops) h)
      · exact ih hrest _ _ _ _ hstart

theorem importLibrary_defaults (env : Env) (s : Store) (jsonData : String)
    (hs : s.DefaultsPresent)
    (hsnap : ∀ parsed, env.jsonParse jsonData = some parsed → snapshotHasDefaults parsed) :
    (importLibrary env s jsonData).2.DefaultsPresent := by
  unfold importLibrary
  split
  · exact hs
  · rename_i items hparse
    split
    · exact hs
    · exact importLoop_defaults env s hs items (hsnap _ hparse) _ _ _ _ hs
  · exact hs

theorem Store.empty_defaults : Store.empty.DefaultsPresent := by
  intro r hr
  cases hr

/-- C6 (amended): on every persisted record `date`, `source` and `url` are present, none of
them missing, in the empty store, and this is preserved by `deleteSaved` and `clearAllSaved`;
by `saveToLibrary` when each of the three is given by the caller or has a default that is
not empty; by `updateSaved` when the updates leave the three alone or give them values that
are not missing; by `importLibrary` when every element of the parsed snapshot is an object
on which the three are present. This holds whether or not the storage layer fails. -/
theorem defaultsPresent_preserved (env : Env) (s : Store) (hs : s.DefaultsPresent) :
    Store.empty.DefaultsPresent ∧
    (∀ content,
      ((getProp content "date").truthy = true ∨ env.nowISO ≠ "") →
      ((getProp content "source").truthy = true ∨ env.hostname ≠ "") →
      ((getProp content "url").truthy = true ∨ env.href ≠ "") →
        (saveToLibrary env s content).2.DefaultsPresent) ∧
    (∀ id updates, updatesKeepDefaults updates →
      (updateSaved env s id updates).2.DefaultsPresent) ∧
    (∀ id, (deleteSaved env s id).2.DefaultsPresent) ∧
    (clearAllSaved env s).2.DefaultsPresent ∧
    (∀ jsonData,
      (∀ parsed, env.jsonParse jsonData = some parsed → snapshotHasDefaults parsed) →
        (importLibrary env s jsonData).2.DefaultsPresent) :=
  ⟨Store.empty_defaults,
    fun content hdate hsource hurl => saveToLibrary_defaults env s content hs hdate hsource hurl,
    fun id updates hupdates => updateSaved_defaults env s id updates hs hupdates,
    fun id => deleteSaved_defaults env s id hs,
    clearAllSaved_defaults env s hs,
    fun jsonData hsnap => importLibrary_defaults env s jsonData hs hsnap⟩

/-- C6 (witness): the example store, on every record of which the three fields are present;
in the example environment the three defaults are not empty, so every save keeps them
present. -/
theorem defaultsPresent_preserved_witness :
    exampleStore.DefaultsPresent ∧
    (∀ content, (saveToLibrary exampleEnv exampleStore content).2.DefaultsPresent) ∧
    (updateSaved exampleEnv exampleStore (.number 1)
      [("notes", .string "m"), ("url", .string "https://example.com/c")]).2.DefaultsPresent :=
  have hs : exampleStore.DefaultsPresent := by
    unfold Store.DefaultsPresent hasDefaults
    decide
  ⟨hs,
    fun content =>
      (defaultsPresent_preserved exampleEnv exampleStore hs).2.1 content
        (Or.inr (by decide)) (Or.inr (by decide)) (Or.inr (by decide)),
    (defaultsPresent_preserved exampleEnv exampleStore hs).2.2.1 _ _
      (by unfold updatesKeepDefaults; decide)⟩

/-- C6 (counterexample): importing the snapshot `[{"text":"a"}]` into the empty store persists
the record `{text: "a", id: 1}`, which has no `date`, `source` or `url`; `updateSaved` with
the updates `{date: undefined, source: null, url: ""}` leaves the first record of the example
store with all three missing; and `saveToLibrary` on a page without a hostname persists the
empty string as `source`. -/
theorem importLibrary_defaults_counterexample :
    Store.empty.DefaultsPresent ∧
    importLibrary exampleEnv Store.empty "[\x7b\"text\":\"a\"\x7d]" =
      (.ok 1, { records := [[("text", .string "a"), ("id", .number 1)]], keyGen := 2 }) ∧
    ¬ (importLibrary exampleEnv Store.empty "[\x7b\"text\":\"a\"\x7d]").2.DefaultsPresent ∧
    exampleStore.DefaultsPresent ∧
    (updateSaved exampleEnv exampleStore (.number 1)
      [("date", .undefined), ("source", .null), ("url", .string "")]).1 =
      .ok [("text", .string "a"), ("notes", .string "n"), ("date", .undefined),
        ("source", .null), ("url", .string ""), ("id", .number 1)] ∧
    ¬ (updateSaved exampleEnv exampleStore (.number 1)
      [("date", .undefined), ("source", .null), ("url", .string "")]).2.DefaultsPresent ∧
    (saveToLibrary noHostEnv Store.empty
      [("text", .string "a")]).2.records =
      [[("text", .string "a"), ("date", .string "2024-05-01T12:00:00.000Z"),
        ("source", .string ""), ("url", .string "https://example.com/page"),
        ("id", .number 1)]] ∧
    ¬ (saveToLibrary noHostEnv Store.empty
      [("text", .string "a")]).2.DefaultsPresent := by
  unfold Store.DefaultsPresent hasDefaults
  decide

/-! ## Reading when the storage layer fails -/

/-- What `getAllSaved` gives in each situation of the storage layer: `[]` when the database
cannot be opened, a rejection when the `getAll` request fires `onerror`, and the sorted
records otherwise. -/
theorem getAllSaved_cases (env : Env) (s : Store) :
    (env.openFails = true → getAllSaved env s = .ok []) ∧
    (env.openFails = false → env.requestFails 0 = true →
      getAllSaved env s = .error .requestFailed) ∧
    (env.openFails = false → env.requestFails 0 = false →
      getAllSaved env s = .ok (jsSort (dateCompare env) s.records)) := by
  unfold getAllSaved
  refine ⟨fun h => by simp [h], fun h1 h2 => by simp [h1, h2], fun h1 h2 => by simp [h1, h2]⟩

/-- C7 (the failing input): when the database opens and the `getAll` request then fires
`onerror`, `getAllSaved` does not resolve to `[]` but rejects with the error of the request;
when the database cannot be opened it resolves to `[]`. -/
theorem getAllSaved_request_error :
    getAllSaved failingReadEnv exampleStore = .error .requestFailed ∧
    getAllSaved failingReadEnv exampleStore ≠ .ok [] ∧
    getAllSaved failingOpenEnv exampleStore = .ok [] := by
  decide

/-! ## Deleting -/

theorem filter_keyOf_ne_of_absent {id : JSValue} {records : List Record}
    (h : ∀ r ∈ records, keyOf r ≠ id) :
    records.filter (fun r => keyOf r ≠ id) = records := by
  rw [List.filter_eq_self]
  intro r hr
  simpa using h r hr

/-- C8: when the storage layer does not fail and `id` is a valid key, `deleteSaved(id)` on an
id that no stored record has succeeds and leaves the store, its records and their number, as
it was; and a second `deleteSaved(id)` after a first one succeeds and changes nothing more. -/
theorem deleteSaved_absent (env : Env) (s : Store) (id : JSValue)
    (hopen : env.openFails = false) (hreq : env.requestFails 0 = false)
    (hvalid : isValidKey id = true) :
    ((∀ r ∈ s.records, keyOf r ≠ id) →
      deleteSaved env s id = (.ok (), s) ∧
      (deleteSaved env s id).2.records.length = s.records.length) ∧
    deleteSaved env (deleteSaved env s id).2 id = (.ok (), (deleteSaved env s id).2) := by
  have hdel : ∀ t : Store, deleteSaved env t id =
      (.ok (), { t with records := t.records.filter (fun r => keyOf r ≠ id) }) := by
    intro t
    simp [deleteSaved, storeDelete, hopen, hreq, hvalid]
  constructor
  · intro hnone
    have h1 : deleteSaved env s id = (.ok (), s) := by
      rw [hdel, filter_keyOf_ne_of_absent hnone]
    exact ⟨h1, by rw [h1]⟩
  · rw [hdel s, hdel]
    simp only [List.filter_filter, Bool.and_self]

/-- C8 (witness): deleting id 7 from the example store, which holds ids 1, 2 and 3. -/
theorem deleteSaved_absent_witness :
    exampleEnv.openFails = false ∧ exampleEnv.requestFails 0 = false ∧
    isValidKey (.number 7) = true ∧
    (∀ r ∈ exampleStore.records, keyOf r ≠ .number 7) ∧
    (((∀ r ∈ exampleStore.records, keyOf r ≠ .number 7) →
      deleteSaved exampleEnv exampleStore (.number 7) = (.ok (), exampleStore) ∧
      (deleteSaved exampleEnv exampleStore (.number 7)).2.records.length =
        exampleStore.records.length) ∧
    deleteSaved exampleEnv (deleteSaved exampleEnv exampleStore (.number 7)).2 (.number 7) =
      (.ok (), (deleteSaved exampleEnv exampleStore (.number 7)).2)) :=
  ⟨rfl, rfl, rfl, by decide, deleteSaved_absent exampleEnv exampleStore (.number 7) rfl rfl rfl⟩

/-! ## Searching -/

theorem dropWhile_eq_nil_of_all {α : Type} (p : α → Bool) (l : List α)
    (h : l.all p = true) : l.dropWhile p = [] := by
  induction l with
  | nil => rfl
  | cons a l ih =>
    simp only [List.all_cons, Bool.and_eq_true] at h
    simp [List.dropWhile, h.1, ih h.2]

theorem all_of_dropWhile_eq_nil {α : Type} (p : α → Bool) (l : List α)
    (h : l.dropWhile p = []) : l.all p = true := by
  induction l with
  | nil => rfl
  | cons a l ih =>
    cases hp : p a with
    | true =>
      simp only [List.dropWhile, hp] at h
      simp [hp, ih h]
    | false => simp [List.dropWhile, hp] at h

/-- The method `trim` gives the empty string exactly on strings of white space only. -/
theorem jsTrim_eq_empty_iff (q : String) : jsTrim q = "" ↔ q.data.all isJSWhiteSpace = true := by
  constructor
  · intro h
    have h1 : ((q.data.dropWhile isJSWhiteSpace).reverse.dropWhile isJSWhiteSpace).reverse
        = [] := by
      have := congrArg String.data h
      simpa [jsTrim] using this
    have h2 : (q.data.dropWhile isJSWhiteSpace).reverse.dropWhile isJSWhiteSpace = [] := by
      simpa using h1
    have h3 := all_of_dropWhile_eq_nil _ _ h2
    rw [List.all_reverse] at h3
    cases hd : q.data.dropWhile isJSWhiteSpace with
    | nil => exact all_of_dropWhile_eq_nil _ _ hd
    | cons c cs =>
      have hc : isJSWhiteSpace c = true := by
        rw [hd] at h3
        simp only [List.all_cons, Bool.and_eq_true] at h3
        exact h3.1
      have hnc := List.head_dropWhile_not isJSWhiteSpace q.data (by rw [hd]; simp)
      simp only [hd, List.head_cons] at hnc
      rw [hc] at hnc
      cases hnc
  · intro h
    have h1 := dropWhile_eq_nil_of_all _ _ h
    show (⟨((q.data.dropWhile isJSWhiteSpace).reverse.dropWhile isJSWhiteSpace).reverse⟩
      : String) = ""
    rw [h1]
    rfl

/-- C9: for a query that is empty or consists of white space only, `searchLibrary(query)`
returns what `getAllSaved()` returns, in the same order (and `[]` if `getAllSaved` rejects). -/
theorem searchLibrary_blank (env : Env) (s : Store) (query : String)
    (hblank : query.data.all isJSWhiteSpace = true) :
    (∀ items, getAllSaved env s = .ok items → searchLibrary env s query = items) ∧
    (∀ e, getAllSaved env s = .error e → searchLibrary env s query = []) := by
  have htrim := (jsTrim_eq_empty_iff query).2 hblank
  constructor
  · intro items h
    simp [searchLibrary, h, htrim]
  · intro e h
    simp [searchLibrary, h]

/-- C9 (witness): the query of one space and one tab on the example store. -/
theorem searchLibrary_blank_witness :
    (" \t" : String).data.all isJSWhiteSpace = true ∧
    searchLibrary exampleEnv exampleStore " \t" =
      [[("text", .string "b"), ("date", .string "2024-03-01T00:00:00.000Z"),
        ("source", .string "example.com"), ("url", .string "https://example.com/b"),
        ("id", .number 2)],
       [("text", .string "a"), ("notes", .string "n"),
        ("date", .string "2024-01-01T00:00:00.000Z"), ("source", .string "example.com"),
        ("url", .string "https://example.com/a"), ("id", .number 1)],
       [("text", .string "c"), ("date", .string "2024-01-01T00:00:00.000Z"),
        ("source", .string "example.org"), ("url", .string "https://example.org/c"),
        ("id", .number 3)]] ∧
    (∀ items, getAllSaved exampleEnv exampleStore = .ok items →
      searchLibrary exampleEnv exampleStore " \t" = items) ∧
    (∀ e, getAllSaved exampleEnv exampleStore = .error e →
      searchLibrary exampleEnv exampleStore " \t" = []) :=
  ⟨by decide, by decide, searchLibrary_blank exampleEnv exampleStore " \t" (by decide)⟩

theorem occursIn_iff (needle hay : List Char) : occursIn needle hay = true ↔ needle <:+: hay := by
  induction hay with
  | nil =>
    simp only [occursIn, List.infix_nil, List.isEmpty_iff]
  | cons c cs ih =>
    simp only [occursIn, Bool.or_eq_true, ih, List.infix_cons_iff, List.isPrefixOf_iff_prefix]

/-- The method `includes` decides whether the needle is a contiguous part of the string. -/
theorem jsIncludes_iff (hay needle : String) :
    jsIncludes hay needle = true ↔ needle.data <:+: hay.data :=
  occursIn_iff _ _

theorem or_empty_toJSString (item : Record) (k : String) :
    ((getProp item k).or (.string "")).toJSString = fieldString item k := by
  unfold getProp fieldString JSValue.or
  cases h : prop? item k with
  | none => rfl
  | some v =>
    simp only [Option.getD_some]
    cases ht : v.truthy <;> simp [toJSString]

/-- On a record whose `tags` are missing, `null` or an array, the template of the source
evaluates to the five parts with its white space around them. -/
theorem searchText_of_tags {item : Record} (h : (joinTags (getProp item "tags")).isOk = true) :
    searchText item = .ok (separatedSearchText item) := by
  have htags : ∀ tags, joinTags (getProp item "tags") = .ok tags →
      (tags.or (.string "")).toJSString = tagsString item := by
    intro tags ht
    unfold getProp at ht
    unfold tagsString
    cases hp : prop? item "tags" with
    | none =>
      rw [hp] at ht
      simp only [Option.getD_none, joinTags, Except.ok.injEq] at ht
      subst ht
      rfl
    | some v =>
      rw [hp] at ht
      simp only [Option.getD_some] at ht
      cases v <;> simp only [joinTags, Except.ok.injEq] at ht <;> try (subst ht; rfl)
      · cases ht
      · cases ht
      · cases ht
      · rename_i xs
        subst ht
        simp only [JSValue.or, truthy]
        by_cases hx : joinWith " " xs = ""
        · simp [hx, toJSString]
        · simp [hx, toJSString]
      · cases ht
  unfold searchText
  cases hj : joinTags (getProp item "tags") with
  | error e => rw [hj] at h; cases h
  | ok tags =>
    simp only [or_empty_toJSString, htags tags hj, separatedSearchText]

theorem searchText_error_of_tags {item : Record}
    (h : (joinTags (getProp item "tags")).isOk = false) :
    ∃ e, searchText item = .error e := by
  unfold searchText
  cases hj : joinTags (getProp item "tags") with
  | error e => exact ⟨e, rfl⟩
  | ok tags => rw [hj] at h; cases h

theorem filterMatching_of_tags (env : Env) (lowerQuery : String) (items : List Record)
    (h : tagsWellTyped items) :
    filterMatching env lowerQuery items =
      .ok (items.filter (fun r =>
        decide (lowerQuery.data <:+: (env.toLowerCase (separatedSearchText r)).data))) := by
  induction items with
  | nil => rfl
  | cons item rest ih =>
    have hrest : tagsWellTyped rest := fun r hr => h r (List.mem_cons_of_mem _ hr)
    unfold filterMatching
    rw [searchText_of_tags (h item (List.mem_cons_self _ _)), ih hrest]
    simp only [List.filter_cons]
    by_cases hin : lowerQuery.data <:+: (env.toLowerCase (separatedSearchText item)).data
    · simp [hin, (jsIncludes_iff _ _).2 hin]
    · have : jsIncludes (env.toLowerCase (separatedSearchText item)) lowerQuery = false := by
        cases hb : jsIncludes (env.toLowerCase (separatedSearchText item)) lowerQuery with
        | false => rfl
        | true => exact absurd ((jsIncludes_iff _ _).1 hb) hin
      simp [hin, this]

theorem filterMatching_error (env : Env) (lowerQuery : String) (items : List Record)
    (h : ¬ tagsWellTyped items) : ∃ e, filterMatching env lowerQuery items = .error e := by
  induction items with
  | nil => exact absurd (fun r hr => by cases hr) h
  | cons item rest ih =>
    unfold filterMatching
    cases hok : (joinTags (getProp item "tags")).isOk with
    | false =>
      obtain ⟨e, he⟩ := searchText_error_of_tags hok
      exact ⟨e, by rw [he]⟩
    | true =>
      rw [searchText_of_tags hok]
      have hrest : ¬ tagsWellTyped rest := by
        intro hr
        apply h
        intro r hmem
        rcases List.mem_cons.1 hmem with rfl | hmem
        · exact hok
        · exact hr r hmem
      obtain ⟨e, he⟩ := ih hrest
      exact ⟨e, by simp only [he]⟩

/-- C10 (amended): for a query that is not empty or white space only, `searchLibrary(query)`
returns exactly those records of `getAllSaved()`, in the order of `getAllSaved()`, for which
the lower-cased query is a contiguous part of the lower-cased search text, the search text
being `text`, `summary`, `pageTitle`, `notes` and the space-joined `tags` (absent fields
counting as empty) each preceded by a line break and eight spaces, the first four followed by
a space, and the whole ended by a line break and six spaces; this when the `tags` of every
record are missing, `null` or an array, and otherwise it returns `[]`. -/
theorem searchLibrary_matches (env : Env) (s : Store) (query : String) (items : List Record)
    (hquery : query.data.all isJSWhiteSpace = false)
    (hall : getAllSaved env s = .ok items) :
    (tagsWellTyped items →
      searchLibrary env s query =
        items.filter (fun r => decide ((env.toLowerCase query).data <:+:
          (env.toLowerCase (separatedSearchText r)).data))) ∧
    (¬ tagsWellTyped items → searchLibrary env s query = []) := by
  have hne : query ≠ "" := by
    intro h
    subst h
    simp at hquery
  have htrim : jsTrim query ≠ "" := by
    intro h
    rw [(jsTrim_eq_empty_iff query).1 h] at hquery
    cases hquery
  constructor
  · intro htags
    simp [searchLibrary, hall, hne, htrim, filterMatching_of_tags env _ items htags]
  · intro htags
    obtain ⟨e, he⟩ := filterMatching_error env (env.toLowerCase query) items htags
    simp [searchLibrary, hall, hne, htrim, he]

/-- C10 (witness): the query `cD` finds the snippet whose summary is `Cd`. -/
theorem searchLibrary_matches_witness :
    ("cD" : String).data.all isJSWhiteSpace = false ∧
    getAllSaved exampleEnv searchStore = .ok searchStore.records ∧
    tagsWellTyped searchStore.records ∧
    searchLibrary exampleEnv searchStore "cD" = searchStore.records ∧
    ((tagsWellTyped searchStore.records →
      searchLibrary exampleEnv searchStore "cD" =
        searchStore.records.filter (fun r => decide ((exampleEnv.toLowerCase "cD").data <:+:
          (exampleEnv.toLowerCase (separatedSearchText r)).data))) ∧
    (¬ tagsWellTyped searchStore.records → searchLibrary exampleEnv searchStore "cD" = [])) :=
  ⟨by decide, by decide, by unfold tagsWellTyped; decide, by decide,
    searchLibrary_matches exampleEnv searchStore "cD" searchStore.records (by decide)
      (by decide)⟩

/-- C10 (counterexample): the query `bc` occurs in the concatenation `abCd` of the text `ab`
and the summary `Cd`, case ignored, yet `searchLibrary` does not return the record, because
the source puts white space between the parts. -/
theorem searchLibrary_counterexample :
    ("bc" : String).data.all isJSWhiteSpace = false ∧
    getAllSaved exampleEnv searchStore = .ok searchStore.records ∧
    (∀ r ∈ searchStore.records, specSearchText r = "abCd" ∧
      jsIncludes (exampleEnv.toLowerCase (specSearchText r)) (exampleEnv.toLowerCase "bc")
        = true) ∧
    searchLibrary exampleEnv searchStore "bc" = [] := by
  decide

/-! ## The most recent records -/

theorem getAllSaved_ok (env : Env) (s : Store) (hopen : env.openFails = false)
    (hreq : env.requestFails 0 = false) :
    getAllSaved env s = .ok (jsSort (dateCompare env) s.records) := by
  simp [getAllSaved, hopen, hreq]

/-- C11: when the read succeeds, `getRecentItems(count)` for a count 0, 1, 2, ... returns the
first `count` records of `getAllSaved()`: a prefix of it whose length is the smaller of
`count` and the number of stored records; without the argument `count` is 5. -/
theorem getRecentItems_prefix (env : Env) (s : Store) (count : Nat)
    (hopen : env.openFails = false) (hreq : env.requestFails 0 = false) :
    ∃ items, getAllSaved env s = .ok items ∧
      getRecentItems env s (some (count : Int)) = items.take count ∧
      getRecentItems env s (some (count : Int)) <+: items ∧
      (getRecentItems env s (some (count : Int))).length = min count s.records.length ∧
      getRecentItems env s none = getRecentItems env s (some 5) := by
  have hall := getAllSaved_ok env s hopen hreq
  have hlen : (jsSort (dateCompare env) s.records).length = s.records.length :=
    (jsSort_perm _ _).length_eq
  have htake : getRecentItems env s (some (count : Int)) =
      (jsSort (dateCompare env) s.records).take count := by
    simp [getRecentItems, hall, sliceFromStart]
  refine ⟨_, hall, htake, ?_, ?_, ?_⟩
  · rw [htake]; exact List.take_prefix _ _
  · rw [htake, List.length_take, hlen]
  · simp [getRecentItems]

/-- C11 (witness): the two most recent records of the example store. -/
theorem getRecentItems_prefix_witness :
    exampleEnv.openFails = false ∧ exampleEnv.requestFails 0 = false ∧
    (getRecentItems exampleEnv exampleStore (some 2)).map keyOf = [.number 2, .number 1] ∧
    ∃ items, getAllSaved exampleEnv exampleStore = .ok items ∧
      getRecentItems exampleEnv exampleStore (some ((2 : Nat) : Int)) = items.take 2 ∧
      getRecentItems exampleEnv exampleStore (some ((2 : Nat) : Int)) <+: items ∧
      (getRecentItems exampleEnv exampleStore (some ((2 : Nat) : Int))).length =
        min 2 exampleStore.records.length ∧
      getRecentItems exampleEnv exampleStore none =
        getRecentItems exampleEnv exampleStore (some 5) :=
  ⟨rfl, rfl, by decide, getRecentItems_prefix exampleEnv exampleStore 2 rfl rfl⟩

/-! ## Importing: snapshots that are not arrays -/

/-- C14 (amended): for a snapshot whose parsed top-level value is not an array, or that cannot
be parsed, `importLibrary` fails and leaves the store as it was: with the error
`Invalid import data format` for a parsed value that is not an array, with the SyntaxError of
`JSON.parse` otherwise. -/
theorem importLibrary_not_array (env : Env) (s : Store) (jsonData : String)
    (hshape : ∀ items, env.jsonParse jsonData ≠ some (.array items)) :
    (∃ e, (importLibrary env s jsonData).1 = .error e) ∧
    (importLibrary env s jsonData).2 = s ∧
    (∀ v, env.jsonParse jsonData = some v →
      (importLibrary env s jsonData).1 = .error .invalidFormat) ∧
    (env.jsonParse jsonData = none →
      (importLibrary env s jsonData).1 = .error .syntaxError) := by
  unfold importLibrary
  cases hp : env.jsonParse jsonData with
  | none => simp
  | some v =>
    cases v with
    | array items => exact absurd hp (hshape items)
    | _ => simp

/-- C14 (witness): the snapshot `{}` parses to an object, not an array. -/
theorem importLibrary_not_array_witness :
    (∀ items, exampleEnv.jsonParse "\x7b\x7d" ≠ some (.array items)) ∧
    (∃ e, (importLibrary exampleEnv exampleStore "\x7b\x7d").1 = .error e) ∧
    (importLibrary exampleEnv exampleStore "\x7b\x7d").2 = exampleStore ∧
    (∀ v, exampleEnv.jsonParse "\x7b\x7d" = some v →
      (importLibrary exampleEnv exampleStore "\x7b\x7d").1 = .error .invalidFormat) ∧
    (exampleEnv.jsonParse "\x7b\x7d" = none →
      (importLibrary exampleEnv exampleStore "\x7b\x7d").1 = .error .syntaxError) :=
  ⟨fun items h => by simp [exampleEnv] at h,
    importLibrary_not_array exampleEnv exampleStore "\x7b\x7d"
      (fun items h => by simp [exampleEnv] at h)⟩

/-- C14 (counterexample): the snapshot `[1]` is an array but not a sequence of record-like
objects; `importLibrary` does not fail on it: it returns 1 and the store has a new record,
`{id: 4}`. -/
theorem importLibrary_not_records_counterexample :
    exampleEnv.jsonParse "[1]" = some (.array [.number 1]) ∧
    (importLibrary exampleEnv exampleStore "[1]").1 = .ok 1 ∧
    (importLibrary exampleEnv exampleStore "[1]").2.records =
      exampleStore.records ++ [[("id", .number 4)]] ∧
    (importLibrary exampleEnv exampleStore "[1]").2 ≠ exampleStore := by
  decide

/-! ## Importing: a request that fails -/

set_option maxRecDepth 100000 in
/-- C15 (the failing input): a snapshot of three records is imported into the example store
and the `add` request of the second fires `onerror`. The error event is not cancelled, so the
transaction aborts: the call returns 1, the number of requests that had succeeded, and the
store is as before, without any new record. -/
theorem importLibrary_failed_request :
    exampleEnv.jsonParse (jsonStringify exampleSnapshot) = some exampleSnapshot ∧
    importLibrary failingSecondAddEnv exampleStore (jsonStringify exampleSnapshot) =
      (.ok 1, exampleStore) ∧
    (importLibrary failingSecondAddEnv exampleStore (jsonStringify exampleSnapshot)).1 ≠
      .ok 2 ∧
    (importLibrary failingSecondAddEnv exampleStore
      (jsonStringify exampleSnapshot)).2.records.length ≠ exampleStore.records.length + 2 := by
  decide

/-! ## Importing: records under fresh ids -/

/-- In a store whose ids were all assigned by the store, a record under the next number of
the key generator is placed behind all others. -/
theorem insertByKey_next {s : Store} {r : Record} (hauto : s.AutoKeyed)
    (hkey : keyOf r = .number s.keyGen) :
    insertByKey r s.records = s.records ++ [r] ∧
    Store.AutoKeyed { records := insertByKey r s.records, keyGen := s.keyGen + 1 } := by
  constructor
  · refine insertByKey_append ?_
    intro y hy
    obtain ⟨n, hn, hlt⟩ := hauto y hy
    rw [hkey, hn]
    exact keyCmp_number_ne_lt hlt
  · intro x hx
    rcases mem_insertByKey.1 hx with rfl | hx
    · exact ⟨s.keyGen, hkey, by push_cast; omega⟩
    · obtain ⟨n, hn, hlt⟩ := hauto x hx
      exact ⟨n, hn, by push_cast; omega⟩

theorem getProp_omitProp_id (props : Record) : getProp (omitProp props "id") "id" = .undefined := by
  simp [getProp, prop?_omitProp_self]

theorem length_importedRecords (keyGen : Nat) (propsList : List Record) :
    (importedRecords keyGen propsList).length = propsList.length := by
  induction propsList generalizing keyGen with
  | nil => rfl
  | cons p ps ih => simp [importedRecords, ih]

/-- The ids of the imported records are the numbers from the key generator on. -/
theorem keyOf_importedRecords (keyGen : Nat) (propsList : List Record) :
    (importedRecords keyGen propsList).map keyOf =
      (List.range propsList.length).map (fun j => JSValue.number ((keyGen + j : Nat) : Int)) := by
  induction propsList generalizing keyGen with
  | nil => rfl
  | cons p ps ih =>
    simp only [importedRecords, List.map_cons, List.length_cons, List.range_succ_eq_map,
      List.map_map, ih]
    refine congrArg₂ _ ?_ ?_
    · exact getProp_setProp_self _ _ _
    · apply List.map_congr_left
      intro j _
      simp only [Function.comp]
      congr 2
      omega

/-- Each imported record agrees with the object it comes from on every property but `id`. -/
theorem importedRecords_props (keyGen : Nat) (propsList : List Record) :
    List.Forall₂ (fun rec props => ∀ k, k ≠ "id" → prop? rec k = prop? props k)
      (importedRecords keyGen propsList) propsList := by
  induction propsList generalizing keyGen with
  | nil => exact List.Forall₂.nil
  | cons p ps ih =>
    refine List.Forall₂.cons ?_ (ih _)
    intro k hk
    rw [prop?_setProp_of_ne _ _ hk, prop?_omitProp_of_ne _ hk]

/-- The loop of `importLibrary` on a snapshot of objects when no request fails and the key
generator has room: every object is stored under the next number, the count grows by one
each time, and the records already there stay. -/
theorem importLoop_objects (env : Env) (start : Store)
    (hreq : ∀ n, env.requestFails n = false) (propsList : List Record) :
    ∀ (i : Nat) (cur : Store) (imported : Nat), cur.WF →
      cur.keyGen + propsList.length ≤ maxGeneratedKey + 1 →
      ∃ cur', importLoop env start (propsList.map .object) i cur false imported =
          (.ok (imported + propsList.length), cur') ∧
        cur'.WF ∧ cur'.keyGen = cur.keyGen + propsList.length ∧
        cur'.records.Perm (cur.records ++ importedRecords cur.keyGen propsList) ∧
        (cur.AutoKeyed →
          cur'.records = cur.records ++ importedRecords cur.keyGen propsList) := by
  induction propsList with
  | nil =>
    intro i cur imported hwf _
    exact ⟨cur, by simp [importLoop], hwf, by simp, by simp [importedRecords],
      fun _ => by simp [importedRecords]⟩
  | cons props rest ih =>
    intro i cur imported hwf hroom
    simp only [List.length_cons] at hroom
    have hgen : cur.keyGen ≤ maxGeneratedKey := by omega
    have hstore := storeRecord_generated true hwf hgen (getProp_omitProp_id props)
    have hwf1 := storeRecord_WF hwf hstore
    have hkey : keyOf (setProp (omitProp props "id") "id" (.number cur.keyGen)) =
        .number cur.keyGen := getProp_setProp_self _ _ _
    obtain ⟨cur', hloop, hwf', hgen', hperm, happ⟩ :=
      ih (i + 1) _ (imported + 1) hwf1 (by simp only; omega)
    refine ⟨cur', ?_, hwf', ?_, ?_, ?_⟩
    · simp only [List.map_cons, importLoop, restWithoutId, Bool.false_eq_true, if_false,
        requestStore, hstore, hreq]
      rw [hloop]
      simp only [List.length_cons]
      congr 2
      omega
    · rw [hgen']; simp only [List.length_cons]; omega
    · simp only [importedRecords]
      refine hperm.trans ?_
      refine (List.Perm.append_right _ (insertByKey_perm _ _)).trans ?_
      simp only [List.cons_append]
      exact List.perm_middle.symm
    · intro hauto
      obtain ⟨heq, hauto1⟩ := insertByKey_next hauto hkey
      rw [happ hauto1]
      simp only [heq, importedRecords, List.append_assoc, List.singleton_append]

/-- The result of `importLibrary` on a snapshot that parses to an array of objects, when the
storage layer does not fail and the key generator has room. -/
theorem importLibrary_objects (env : Env) (s : Store) (jsonData : String)
    (propsList : List Record) (hwf : s.WF) (hopen : env.openFails = false)
    (hreq : ∀ n, env.requestFails n = false)
    (hparse : env.jsonParse jsonData = some (.array (propsList.map .object)))
    (hroom : s.keyGen + propsList.length ≤ maxGeneratedKey + 1) :
    ∃ s', importLibrary env s jsonData = (.ok propsList.length, s') ∧
      s'.WF ∧ s'.keyGen = s.keyGen + propsList.length ∧
      s'.records.Perm (s.records ++ importedRecords s.keyGen propsList) ∧
      (s.AutoKeyed → s'.records = s.records ++ importedRecords s.keyGen propsList) := by
  obtain ⟨s', hloop, hrest⟩ := importLoop_objects env s hreq propsList 0 s 0 hwf hroom
  refine ⟨s', ?_, hrest⟩
  simp only [importLibrary, hparse, hopen, Bool.false_eq_true, if_false, hloop, Nat.zero_add]

/-! ## The JSON round trip -/

theorem jsonCleanList_map_object (records : List Record) :
    jsonCleanList (records.map .object) =
      (records.map (jsonCleanProps [])).map .object := by
  induction records with
  | nil => rfl
  | cons r rs ih => simp [jsonCleanList, jsonClean, ih]

/-- The snapshot array of a list of records after the round trip. -/
theorem jsonClean_snapshot (records : List Record) :
    jsonClean (.array (records.map .object)) =
      .array ((records.map (jsonCleanProps [])).map .object) := by
  simp [jsonClean, jsonCleanList_map_object]

theorem prop?_cons_self (k : String) (v : JSValue) (rest : Record) :
    prop? ((k, v) :: rest) k = some v := by
  simp [prop?, List.lookup]

theorem prop?_cons_of_ne {k k0 : String} (v : JSValue) (rest : Record) (h : k ≠ k0) :
    prop? ((k0, v) :: rest) k = prop? rest k := by
  have hne : (k == k0) = false := by simpa using h
  simp [prop?, List.lookup, hne]

/-- Reading a property after the round trip: nothing for a name already seen, for a missing
property and for the value `undefined`; the cleaned value otherwise. -/
theorem prop?_jsonCleanProps (props : Record) (k : String) :
    ∀ seen : List String,
      prop? (jsonCleanProps seen props) k =
        if k ∈ seen then none
        else
          match prop? props k with
          | none => none
          | some .undefined => none
          | some v => some (jsonClean v) := by
  induction props with
  | nil =>
    intro seen
    have : prop? [] k = none := rfl
    simp only [jsonCleanProps, this, ite_self]
  | cons p rest ih =>
    intro seen
    obtain ⟨k0, v0⟩ := p
    by_cases hk : k = k0
    · subst hk
      rw [prop?_cons_self]
      by_cases hseen : k ∈ seen
      · cases v0 <;> simp only [jsonCleanProps, hseen, if_true, ih, List.mem_cons, true_or]
      · cases v0 <;>
          simp only [jsonCleanProps, hseen, if_false, ih, List.mem_cons, true_or, if_true,
            prop?_cons_self]
    · rw [prop?_cons_of_ne _ _ hk]
      have hmem : (k ∈ k0 :: seen) ↔ k ∈ seen := by simp [hk]
      by_cases hseen0 : k0 ∈ seen
      · cases v0 <;> simp only [jsonCleanProps, hseen0, if_true, ih, hmem]
      · cases v0 <;>
          simp only [jsonCleanProps, hseen0, if_false, ih, hmem, prop?_cons_of_ne _ _ hk]

/-- A property of an object after the round trip reads as `undefined` when it did so before,
and as the cleaned value otherwise. -/
theorem getProp_jsonCleanProps (props : Record) (k : String) :
    getProp (jsonCleanProps [] props) k =
      if getProp props k = .undefined then .undefined else jsonClean (getProp props k) := by
  unfold getProp
  rw [prop?_jsonCleanProps props k []]
  simp only [List.not_mem_nil, if_false]
  cases h : prop? props k with
  | none => simp
  | some v => cases v <;> simp

theorem getProp_mem_or_undefined (r : Record) (k : String) :
    getProp r k = .undefined ∨ ∃ p ∈ r, getProp r k = p.2 := by
  unfold getProp
  cases h : prop? r k with
  | none => exact Or.inl rfl
  | some v =>
    right
    induction r with
    | nil => simp [prop?, List.lookup] at h
    | cons q rest ih =>
      obtain ⟨k0, v0⟩ := q
      cases hk : (k == k0) with
      | true =>
        simp only [prop?, List.lookup, hk, Option.some.injEq] at h
        exact ⟨(k0, v0), List.mem_cons_self _ _, by simp [h]⟩
      | false =>
        simp only [prop?, List.lookup, hk] at h
        obtain ⟨p, hp, hpv⟩ := ih h
        exact ⟨p, List.mem_cons_of_mem _ hp, hpv⟩

/-- On a record whose values are stable under the round trip, every property reads after it
as before. -/
theorem getProp_jsonCleanProps_of_stable (props : Record) (k : String)
    (h : ∀ p ∈ props, jsonStable p.2) :
    getProp (jsonCleanProps [] props) k = getProp props k := by
  rw [getProp_jsonCleanProps]
  split
  · rename_i hu; exact hu.symm
  · rename_i hu
    rcases getProp_mem_or_undefined props k with h1 | ⟨p, hp, hpv⟩
    · exact absurd h1 hu
    · rcases h p hp with h2 | h2
      · rw [hpv] at hu; exact absurd h2 hu
      · rw [hpv]; exact h2

theorem findByKey_of_mem {r : Record} {records : List Record}
    (hnodup : (records.map keyOf).Nodup) (hr : r ∈ records) :
    findByKey (keyOf r) records = some r := by
  induction records with
  | nil => cases hr
  | cons x xs ih =>
    rw [List.map_cons, List.nodup_cons] at hnodup
    rcases List.mem_cons.1 hr with rfl | hr
    · simp [findByKey]
    · have hx : keyOf x ≠ keyOf r := by
        intro e
        exact hnodup.1 (e ▸ List.mem_map_of_mem keyOf hr)
      have := ih hnodup.2 hr
      simp only [findByKey] at this ⊢
      rw [List.find?_cons_of_neg _ (by simpa using hx)]
      exact this

/-- The records stored for a cleaned snapshot agree with the records the snapshot was made
of on every property but `id`, up to what the round trip does to a value. -/
theorem importedRecords_roundtrip (keyGen : Nat) (items : List Record) :
    List.Forall₂
      (fun d r => ∀ k, k ≠ "id" →
        getProp d k = if getProp r k = .undefined then .undefined else jsonClean (getProp r k))
      (importedRecords keyGen (items.map (jsonCleanProps []))) items := by
  induction items generalizing keyGen with
  | nil => exact List.Forall₂.nil
  | cons r rs ih =>
    refine List.Forall₂.cons ?_ (ih _)
    intro k hk
    rw [getProp_setProp_of_ne _ _ hk]
    have : getProp (omitProp (jsonCleanProps [] r) "id") k = getProp (jsonCleanProps [] r) k := by
      simp [getProp, prop?_omitProp_of_ne _ hk]
    rw [this, getProp_jsonCleanProps]

/-- When the values of the records are stable under the round trip, the records stored for
the cleaned snapshot agree with them on every property but `id`. -/
theorem importedRecords_roundtrip_stable (keyGen : Nat) (items : List Record)
    (h : ∀ r ∈ items, ∀ p ∈ r, jsonStable p.2) :
    List.Forall₂ (fun d r => ∀ k, k ≠ "id" → getProp d k = getProp r k)
      (importedRecords keyGen (items.map (jsonCleanProps []))) items := by
  induction items generalizing keyGen with
  | nil => exact List.Forall₂.nil
  | cons r rs ih =>
    refine List.Forall₂.cons ?_ (ih _ (fun x hx => h x (List.mem_cons_of_mem _ hx)))
    intro k hk
    rw [getProp_setProp_of_ne _ _ hk]
    have : getProp (omitProp (jsonCleanProps [] r) "id") k = getProp (jsonCleanProps [] r) k := by
      simp [getProp, prop?_omitProp_of_ne _ hk]
    rw [this]
    exact getProp_jsonCleanProps_of_stable r k (h r (List.mem_cons_self _ _))

/-- C13: when the storage layer does not fail and the key generator has room, `importLibrary`
on a snapshot array of records stores each element without its own `id` under the next
number of the key generator: the new ids differ from every id in the store and from one
another, each new record agrees with its element on every other property, and every record
stored before is still stored under its id; hence importing the store's own export into the
same store doubles the length of `getAllSaved()`. -/
theorem importLibrary_fresh_ids (env : Env) (s : Store) (jsonData : String)
    (propsList : List Record) (hwf : s.WF) (hopen : env.openFails = false)
    (hreq : ∀ n, env.requestFails n = false)
    (hparse : env.jsonParse jsonData = some (.array (propsList.map .object)))
    (hroom : s.keyGen + propsList.length ≤ maxGeneratedKey + 1) :
    ∃ s', importLibrary env s jsonData = (.ok propsList.length, s') ∧
      s'.records.Perm (s.records ++ importedRecords s.keyGen propsList) ∧
      List.Forall₂ (fun rec props => ∀ k, k ≠ "id" → prop? rec k = prop? props k)
        (importedRecords s.keyGen propsList) propsList ∧
      (importedRecords s.keyGen propsList).map keyOf =
        (List.range propsList.length).map
          (fun j => JSValue.number ((s.keyGen + j : Nat) : Int)) ∧
      ((s.records ++ importedRecords s.keyGen propsList).map keyOf).Nodup ∧
      (∀ r ∈ s.records, findByKey (keyOf r) s'.records = some r) ∧
      (∀ items, getAllSaved env s = .ok items →
        env.jsonParse (jsonStringify (.array (items.map .object))) =
          some (jsonClean (.array (items.map .object))) →
        s.keyGen + s.records.length ≤ maxGeneratedKey + 1 →
        ∃ json s2 items2, exportLibrary env s = .ok json ∧
          importLibrary env s json = (.ok items.length, s2) ∧
          getAllSaved env s2 = .ok items2 ∧ items2.length = 2 * items.length) := by
  obtain ⟨s', himp, hwf', _, hperm, _⟩ :=
    importLibrary_objects env s jsonData propsList hwf hopen hreq hparse hroom
  have hnodup : (s'.records.map keyOf).Nodup := hwf'.nodup_keys
  refine ⟨s', himp, hperm, importedRecords_props _ _, keyOf_importedRecords _ _,
    (hperm.map keyOf).nodup_iff.1 hnodup, ?_, ?_⟩
  · intro r hr
    exact findByKey_of_mem hnodup (hperm.symm.subset (List.mem_append_left _ hr))
  · intro items hall hjson hroom2
    have hsorted := getAllSaved_ok env s hopen (hreq 0)
    rw [hall] at hsorted
    have hitems : items = jsSort (dateCompare env) s.records := by
      injection hsorted
    have hlen : items.length = s.records.length := by
      rw [hitems]; exact (jsSort_perm _ _).length_eq
    rw [jsonClean_snapshot] at hjson
    obtain ⟨s2, himp2, _, _, hperm2, _⟩ :=
      importLibrary_objects env s _ (items.map (jsonCleanProps [])) hwf hopen hreq hjson
        (by simpa [hlen] using hroom2)
    refine ⟨jsonStringify (.array (items.map .object)), s2, _, by simp [exportLibrary, hall],
      ?_, getAllSaved_ok env s2 hopen (hreq 0), ?_⟩
    · simpa using himp2
    · rw [(jsSort_perm _ _).length_eq, hperm2.length_eq, List.length_append,
        length_importedRecords, List.length_map, hlen]
      omega

/-! ## Reading JSON: numbers -/

theorem digitChar_toNat (d : Nat) (h : d < 10) :
    (Nat.digitChar d).isDigit = true ∧ (Nat.digitChar d).toNat - 48 = d ∧
      (d ≠ 0 → Nat.digitChar d ≠ '0') := by
  interval_cases d <;> decide

theorem digitsValue_foldl (ds : List Char) (n : Nat) :
    ds.foldl (fun n c => 10 * n + (c.toNat - 48)) n =
      n * 10 ^ ds.length + digitsValue ds := by
  unfold digitsValue
  induction ds generalizing n with
  | nil => simp
  | cons c cs ih =>
    simp only [List.foldl_cons, List.length_cons]
    rw [ih, ih (10 * 0 + (c.toNat - 48))]
    ring

/-- The digits `Nat.toDigitsCore` writes in front of `ds` are digits, denote `n`, and start
with a zero only for `n = 0`. -/
theorem toDigitsCore_spec (fuel : Nat) : ∀ (n : Nat) (ds : List Char), n < fuel →
    ∃ front : List Char, Nat.toDigitsCore 10 fuel n ds = front ++ ds ∧ front ≠ [] ∧
      front.all Char.isDigit = true ∧ digitsValue front = n ∧
      (front.head? = some '0' → front.length = 1) := by
  induction fuel with
  | zero => intro n ds h; omega
  | succ fuel ih =>
    intro n ds h
    have hd := digitChar_toNat (n % 10) (Nat.mod_lt n (by decide))
    unfold Nat.toDigitsCore
    simp only
    split
    · rename_i hzero
      refine ⟨[Nat.digitChar (n % 10)], rfl, by simp, by simp [hd.1], ?_, fun _ => rfl⟩
      simp only [digitsValue, List.foldl_cons, List.foldl_nil, hd.2.1]
      omega
    · rename_i hne
      obtain ⟨front, hfront, hnonempty, hall, hval, hzero⟩ :=
        ih (n / 10) (Nat.digitChar (n % 10) :: ds) (by omega)
      refine ⟨front ++ [Nat.digitChar (n % 10)], by rw [hfront]; simp, by simp, ?_, ?_, ?_⟩
      · simp [List.all_append, hall, hd.1]
      · unfold digitsValue
        rw [List.foldl_append]
        simp only [List.foldl_cons, List.foldl_nil, hd.2.1]
        have : List.foldl (fun n c => 10 * n + (c.toNat - 48)) 0 front = n / 10 := hval
        rw [this]
        omega
      · intro hhead
        exfalso
        cases front with
        | nil => exact hnonempty rfl
        | cons c cs =>
          simp only [List.cons_append, List.head?_cons, Option.some.injEq] at hhead
          have hlen := hzero (by simp [hhead])
          simp only [List.length_cons, add_left_eq_self, List.length_eq_zero] at hlen
          subst hlen
          subst hhead
          have : digitsValue ['0'] = 0 := by decide
          rw [this] at hval
          exact hne hval.symm

/-- The digits of `Nat.repr`. -/
theorem repr_spec (n : Nat) :
    (Nat.repr n).data ≠ [] ∧ (Nat.repr n).data.all Char.isDigit = true ∧
      digitsValue (Nat.repr n).data = n ∧
      ((Nat.repr n).data.head? = some '0' → (Nat.repr n).data.length = 1) := by
  obtain ⟨front, hfront, h1, h2, h3, h4⟩ := toDigitsCore_spec (n + 1) n [] (Nat.lt_succ_self n)
  have : (Nat.repr n).data = front := by
    simp only [Nat.repr, Nat.toDigits, List.asString, hfront, List.append_nil]
  rw [this]
  exact ⟨h1, h2, h3, h4⟩

theorem takeWhile_digits (ds rest : List Char) (hall : ds.all Char.isDigit = true)
    (hrest : endsNumber rest) :
    (ds ++ rest).takeWhile Char.isDigit = ds ∧ (ds ++ rest).dropWhile Char.isDigit = rest := by
  have hall' : ∀ c ∈ ds, Char.isDigit c = true := by simpa [List.all_eq_true] using hall
  have hr : rest.takeWhile Char.isDigit = [] ∧ rest.dropWhile Char.isDigit = rest := by
    cases rest with
    | nil => simp
    | cons c cs =>
      have := (hrest c rfl).1
      simp [List.takeWhile, List.dropWhile, this]
  rw [List.takeWhile_append_of_pos hall', List.dropWhile_append_of_pos hall', hr.1, hr.2]
  simp

theorem parseNumber_digits (ds rest : List Char) (hne : ds ≠ [])
    (hall : ds.all Char.isDigit = true) (hzero : ds.head? = some '0' → ds.length = 1)
    (hrest : endsNumber rest) :
    parseNumber (ds ++ rest) = some (.number (digitsValue ds), rest) ∧
    parseNumber ('-' :: (ds ++ rest)) = some (.number (-(digitsValue ds : Int)), rest) := by
  obtain ⟨htake, hdrop⟩ := takeWhile_digits ds rest hall hrest
  have hhead : ∃ c cs, ds = c :: cs ∧ c.isDigit = true := by
    cases ds with
    | nil => exact absurd rfl hne
    | cons c cs =>
      simp only [List.all_cons, Bool.and_eq_true] at hall
      exact ⟨c, cs, rfl, hall.1⟩
  obtain ⟨c, cs, hds, hc⟩ := hhead
  have hminus : (ds ++ rest).head? ≠ some '-' := by
    rw [hds]
    simp only [List.cons_append, List.head?_cons, ne_eq, Option.some.injEq]
    intro h
    rw [h] at hc
    exact absurd hc (by decide)
  have hdot : rest.head? ≠ some '.' := fun h => (hrest _ h).2.1 rfl
  have hexp : ¬ (rest.head? = some 'e' ∨ rest.head? = some 'E') := by
    rintro (h | h)
    · exact (hrest _ h).2.2.1 rfl
    · exact (hrest _ h).2.2.2 rfl
  have hz : ¬ (ds.head? = some '0' ∧ ds.length ≠ 1) := fun h => h.2 (hzero h.1)
  have e1 : afterSign '-' (ds ++ rest) = ds ++ rest := by
    unfold afterSign
    rw [if_neg hminus]
  have e2 : afterSign '-' ('-' :: (ds ++ rest)) = ds ++ rest := by
    unfold afterSign
    simp
  have e3 : ('-' :: (ds ++ rest)).head? = some '-' := rfl
  constructor
  · unfold parseNumber
    simp only [e1, htake, hdrop, hminus, hdot, hexp, hne, hz, if_false, false_and,
      List.append_nil, List.length_nil, Nat.cast_zero, sub_zero, Nat.cast_nonneg, if_true,
      Int.toNat_ofNat, digitsValue, List.foldl_nil, pow_zero, mul_one, one_mul]
    simp
  · unfold parseNumber
    simp only [e2, e3, htake, hdrop, hdot, hexp, hne, hz, if_false, false_and,
      List.append_nil, List.length_nil, Nat.cast_zero, sub_zero, Nat.cast_nonneg, if_true,
      Int.toNat_ofNat, digitsValue, List.foldl_nil, pow_zero, mul_one, neg_mul, one_mul]
    simp

/-- Reading the digits `toString` writes for an integer gives the integer back. -/
theorem parseNumber_toString (n : Int) (rest : List Char) (hrest : endsNumber rest) :
    parseNumber ((toString n).data ++ rest) = some (.number n, rest) := by
  cases n with
  | ofNat m =>
    obtain ⟨h1, h2, h3, h4⟩ := repr_spec m
    have := (parseNumber_digits _ rest h1 h2 h4 hrest).1
    rw [h3] at this
    exact this
  | negSucc m =>
    obtain ⟨h1, h2, h3, h4⟩ := repr_spec (m + 1)
    have := (parseNumber_digits _ rest h1 h2 h4 hrest).2
    rw [h3] at this
    have htext : (toString (Int.negSucc m)).data = '-' :: (Nat.repr (m + 1)).data := rfl
    rw [htext, List.cons_append, this]
    rfl

/-! ## Reading JSON: strings -/

theorem readString_quoteJSONChar_control (n : Nat) (hn : n < 32) (more : List Char) :
    readString .plain (quoteJSONChar (Char.ofNat n) ++ more) =
      consRead (Char.ofNat n) (readString .plain more) := by
  interval_cases n <;> rfl

theorem char_eq_ofNat (c : Char) : c = Char.ofNat c.toNat := by
  apply Char.ext
  apply UInt32.ext
  simp only [Char.ofNat, Char.toNat]
  rw [dif_pos c.valid]
  rfl

theorem readString_quoteJSONChar (c : Char) (more : List Char) :
    readString .plain (quoteJSONChar c ++ more) = consRead c (readString .plain more) := by
  by_cases hlow : c.toNat < 32
  · have := readString_quoteJSONChar_control c.toNat hlow more
    rw [← char_eq_ofNat c] at this
    exact this
  · by_cases hq : c = '"'
    · subst hq; rfl
    · by_cases hb : c = '\\'
      · subst hb; rfl
      · have h8 : ¬ c.toNat = 8 := by omega
        have h12 : ¬ c.toNat = 12 := by omega
        have hn : ¬ c = '\n' := by rintro rfl; exact hlow (by decide)
        have hr : ¬ c = '\r' := by rintro rfl; exact hlow (by decide)
        have ht : ¬ c = '\t' := by rintro rfl; exact hlow (by decide)
        have hquote : quoteJSONChar c = [c] := by
          simp only [quoteJSONChar, hq, hb, h8, h12, hn, hr, ht, hlow, if_false]
        rw [hquote]
        show readString .plain (c :: more) = consRead c (readString .plain more)
        simp only [readString, hq, hb, hlow, if_false]

/-- Reading the text `quoteJSON` writes gives the string back. -/
theorem readString_quoteJSON (str : String) (rest : List Char) :
    readString .plain ((quoteJSON str).data.tail ++ rest) = some (str.data, rest) := by
  have hbody : ∀ cs : List Char,
      readString .plain (cs.flatMap quoteJSONChar ++ ('"' :: rest)) = some (cs, rest) := by
    intro cs
    induction cs with
    | nil => rfl
    | cons c cs ih =>
      rw [List.flatMap_cons, List.append_assoc, readString_quoteJSONChar, ih]
      rfl
  have := hbody str.data
  simp only [quoteJSON, List.tail_cons, List.append_assoc, List.singleton_append]
  exact this

theorem quoteJSON_data (str : String) :
    (quoteJSON str).data = '"' :: (quoteJSON str).data.tail := rfl

/-! ## Reading JSON: the text of `JSON.stringify` -/

theorem skipJSONSpace_append (ws : List Char) (c : Char) (cs : List Char)
    (hws : ws.all isJSONSpace = true) (hc : isJSONSpace c = false) :
    skipJSONSpace (ws ++ c :: cs) = c :: cs := by
  unfold skipJSONSpace
  have hall : ∀ a ∈ ws, isJSONSpace a = true := by simpa [List.all_eq_true] using hws
  rw [List.dropWhile_append_of_pos hall, List.dropWhile_cons_of_neg (by simp [hc])]

theorem all_space_append {a b : List Char} (ha : a.all isJSONSpace = true)
    (hb : b.all isJSONSpace = true) : (a ++ b).all isJSONSpace = true := by
  rw [List.all_append, ha, hb]
  rfl

theorem toString_head (n : Int) :
    ∃ c cs, (toString n).data = c :: cs ∧ (c.isDigit = true ∨ c = '-') := by
  cases n with
  | ofNat m =>
    obtain ⟨h1, h2, _, _⟩ := repr_spec m
    have htext : (toString (Int.ofNat m)).data = (Nat.repr m).data := rfl
    rw [htext]
    cases hd : (Nat.repr m).data with
    | nil => exact absurd hd h1
    | cons c cs =>
      rw [hd] at h2
      simp only [List.all_cons, Bool.and_eq_true] at h2
      exact ⟨c, cs, rfl, Or.inl h2.1⟩
  | negSucc m => exact ⟨'-', (Nat.repr (m + 1)).data, rfl, Or.inr rfl⟩

/-- The first character of a number is no white space and starts no other value. -/
theorem numberStart_ne {c : Char} (h : c.isDigit = true ∨ c = '-') :
    isJSONSpace c = false ∧ c ≠ '"' ∧ c ≠ '[' ∧ c ≠ '\x7b' ∧ c ≠ 'n' ∧ c ≠ 't' ∧ c ≠ 'f' ∧
      c ≠ ']' ∧ c ≠ '\x7d' := by
  rcases h with h | rfl
  · refine ⟨?_, ?_, ?_, ?_, ?_, ?_, ?_, ?_, ?_⟩
    · cases hs : isJSONSpace c with
      | false => rfl
      | true =>
        have : c = ' ' ∨ c = '\t' ∨ c = '\n' ∨ c = '\r' := by
          simpa [isJSONSpace, or_assoc] using hs
        rcases this with rfl | rfl | rfl | rfl <;> exact absurd h (by decide)
    all_goals
      rintro rfl
      exact absurd h (by decide)
  · decide

theorem parseValue_null (fuel : Nat) (ws rest : List Char) (hws : ws.all isJSONSpace = true) :
    parseValue (fuel + 1) (ws ++ ("null" : String).data ++ rest) = some (.null, rest) := by
  have hskip := skipJSONSpace_append ws 'n' ('u' :: 'l' :: 'l' :: rest) hws (by decide)
  have htext : ws ++ ("null" : String).data ++ rest = ws ++ 'n' :: 'u' :: 'l' :: 'l' :: rest := by
    simp
  rw [htext]
  unfold parseValue
  simp [hskip, parseLiteral]

theorem parseValue_true (fuel : Nat) (ws rest : List Char) (hws : ws.all isJSONSpace = true) :
    parseValue (fuel + 1) (ws ++ ("true" : String).data ++ rest) = some (.bool true, rest) := by
  have hskip := skipJSONSpace_append ws 't' ('r' :: 'u' :: 'e' :: rest) hws (by decide)
  have htext : ws ++ ("true" : String).data ++ rest = ws ++ 't' :: 'r' :: 'u' :: 'e' :: rest := by
    simp
  rw [htext]
  unfold parseValue
  simp [hskip, parseLiteral]

theorem parseValue_false (fuel : Nat) (ws rest : List Char)
    (hws : ws.all isJSONSpace = true) :
    parseValue (fuel + 1) (ws ++ ("false" : String).data ++ rest) =
      some (.bool false, rest) := by
  have hskip := skipJSONSpace_append ws 'f' ('a' :: 'l' :: 's' :: 'e' :: rest) hws (by decide)
  have htext : ws ++ ("false" : String).data ++ rest =
      ws ++ 'f' :: 'a' :: 'l' :: 's' :: 'e' :: rest := by
    simp
  rw [htext]
  unfold parseValue
  simp [hskip, parseLiteral]

theorem parseValue_number (fuel : Nat) (n : Int) (ws rest : List Char)
    (hws : ws.all isJSONSpace = true) (hrest : endsNumber rest) :
    parseValue (fuel + 1) (ws ++ (toString n).data ++ rest) = some (.number n, rest) := by
  obtain ⟨c, cs, htext, hc⟩ := toString_head n
  obtain ⟨h0, h1, h2, h3, h4, h5, h6, _, _⟩ := numberStart_ne hc
  have hskip : skipJSONSpace (ws ++ (toString n).data ++ rest) = (toString n).data ++ rest := by
    rw [htext, List.append_assoc, List.cons_append]
    exact skipJSONSpace_append ws c (cs ++ rest) hws h0
  have hhead : ((toString n).data ++ rest).head? = some c := by
    rw [htext]
    rfl
  unfold parseValue
  simp only [hskip, hhead, Option.some.injEq, h1, h2, h3, h4, h5, h6, if_false]
  exact parseNumber_toString n rest hrest

theorem parseValue_string (fuel : Nat) (str : String) (ws rest : List Char)
    (hws : ws.all isJSONSpace = true) :
    parseValue (fuel + 1) (ws ++ (quoteJSON str).data ++ rest) = some (.string str, rest) := by
  have hskip : skipJSONSpace (ws ++ (quoteJSON str).data ++ rest) =
      '"' :: ((quoteJSON str).data.tail ++ rest) := by
    rw [quoteJSON_data, List.append_assoc, List.cons_append]
    exact skipJSONSpace_append ws '"' _ hws (by decide)
  unfold parseValue
  simp only [hskip, List.head?_cons, if_true, List.tail_cons, readString_quoteJSON,
    Option.map_some']

theorem parseElements_last {fuel : Nat} {cs r rest : List Char} {x : JSValue}
    (hv : parseValue fuel cs = some (x, r)) (hr : skipJSONSpace r = ']' :: rest) :
    parseElements (fuel + 1) cs = some ([x], rest) := by
  unfold parseElements
  simp [hv, hr]

theorem parseElements_more {fuel : Nat} {cs r t rest : List Char} {x : JSValue}
    {xs : List JSValue} (hv : parseValue fuel cs = some (x, r))
    (hr : skipJSONSpace r = ',' :: t) (hrest : parseElements fuel t = some (xs, rest)) :
    parseElements (fuel + 1) cs = some (x :: xs, rest) := by
  unfold parseElements
  simp [hv, hr, hrest]

theorem parseMembers_last {fuel : Nat} {cs a b c d rest k : List Char} {v : JSValue}
    (h1 : skipJSONSpace cs = '"' :: a) (h2 : readString .plain a = some (k, b))
    (h3 : skipJSONSpace b = ':' :: c) (hv : parseValue fuel c = some (v, d))
    (h4 : skipJSONSpace d = '\x7d' :: rest) :
    parseMembers (fuel + 1) cs = some ([(⟨k⟩, v)], rest) := by
  unfold parseMembers
  simp [h1, h2, h3, hv, h4]

theorem parseMembers_more {fuel : Nat} {cs a b c d e rest k : List Char} {v : JSValue}
    {ps : Record} (h1 : skipJSONSpace cs = '"' :: a)
    (h2 : readString .plain a = some (k, b)) (h3 : skipJSONSpace b = ':' :: c)
    (hv : parseValue fuel c = some (v, d)) (h4 : skipJSONSpace d = ',' :: e)
    (h5 : parseMembers fuel e = some (ps, rest)) (hnew : prop? ps ⟨k⟩ = none) :
    parseMembers (fuel + 1) cs = some ((⟨k⟩, v) :: ps, rest) := by
  unfold parseMembers
  simp [h1, h2, h3, hv, h4, h5, addMember, hnew]

theorem parseValue_array {fuel : Nat} {cs a rest : List Char} {xs : List JSValue}
    (h1 : skipJSONSpace cs = '[' :: a) (h2 : (skipJSONSpace a).head? ≠ some ']')
    (h3 : parseElements fuel a = some (xs, rest)) :
    parseValue (fuel + 1) cs = some (.array xs, rest) := by
  unfold parseValue
  simp [h1, h2, h3]

theorem parseValue_object {fuel : Nat} {cs a rest : List Char} {ps : Record}
    (h1 : skipJSONSpace cs = '\x7b' :: a) (h2 : (skipJSONSpace a).head? ≠ some '\x7d')
    (h3 : parseMembers fuel a = some (ps, rest)) :
    parseValue (fuel + 1) cs = some (.object ps, rest) := by
  unfold parseValue
  simp [h1, h2, h3]

theorem parseValue_empty_array (fuel : Nat) (ws rest : List Char)
    (hws : ws.all isJSONSpace = true) :
    parseValue (fuel + 1) (ws ++ ("[]" : String).data ++ rest) = some (.array [], rest) := by
  have hskip := skipJSONSpace_append ws '[' (']' :: rest) hws (by decide)
  have htext : ws ++ ("[]" : String).data ++ rest = ws ++ '[' :: ']' :: rest := by simp
  have hskip2 := skipJSONSpace_append [] ']' rest rfl (by decide)
  rw [List.nil_append] at hskip2
  rw [htext]
  unfold parseValue
  simp [hskip, hskip2]

theorem parseValue_empty_object (fuel : Nat) (ws rest : List Char)
    (hws : ws.all isJSONSpace = true) :
    parseValue (fuel + 1) (ws ++ ("\x7b\x7d" : String).data ++ rest) =
      some (.object [], rest) := by
  have hskip := skipJSONSpace_append ws '\x7b' ('\x7d' :: rest) hws (by decide)
  have htext : ws ++ ("\x7b\x7d" : String).data ++ rest = ws ++ '\x7b' :: '\x7d' :: rest := by
    simp
  have hskip2 := skipJSONSpace_append [] '\x7d' rest rfl (by decide)
  rw [List.nil_append] at hskip2
  rw [htext]
  unfold parseValue
  simp [hskip, hskip2]

theorem renderJSON_array_data (indent : String) (x : JSValue) (xs : List JSValue) :
    (renderJSON indent (.array (x :: xs))).data =
      '[' :: '\n' :: ((renderElements (indent ++ "  ") (x :: xs)).data ++
        '\n' :: (indent.data ++ [']'])) := by
  simp [renderJSON, String.data_append]

theorem renderJSON_object_data (indent : String) (p : String × JSValue) (ps : Record) :
    (renderJSON indent (.object (p :: ps))).data =
      '\x7b' :: '\n' :: ((renderProperties (indent ++ "  ") (p :: ps)).data ++
        '\n' :: (indent.data ++ ['\x7d'])) := by
  simp [renderJSON, String.data_append]

theorem renderElements_single_data (indent : String) (x : JSValue) :
    (renderElements indent [x]).data = indent.data ++ (renderJSON indent x).data := by
  simp [renderElements, String.data_append]

theorem renderElements_cons_data (indent : String) (x y : JSValue) (ys : List JSValue) :
    (renderElements indent (x :: y :: ys)).data =
      indent.data ++ ((renderJSON indent x).data ++
        ',' :: '\n' :: (renderElements indent (y :: ys)).data) := by
  simp [renderElements, String.data_append]

theorem renderProperties_single_data (indent k : String) (v : JSValue) :
    (renderProperties indent [(k, v)]).data =
      indent.data ++ ((quoteJSON k).data ++ ':' :: ' ' :: (renderJSON indent v).data) := by
  simp [renderProperties, String.data_append]

theorem renderProperties_cons_data (indent k : String) (v : JSValue) (q : String × JSValue)
    (qs : Record) :
    (renderProperties indent ((k, v) :: q :: qs)).data =
      indent.data ++ ((quoteJSON k).data ++ ':' :: ' ' :: ((renderJSON indent v).data ++
        ',' :: '\n' :: (renderProperties indent (q :: qs)).data)) := by
  simp [renderProperties, String.data_append]

/-- The text of a value starts with a character that is no white space and closes neither an
array nor an object. -/
theorem renderJSON_head (indent : String) (w : JSValue) :
    ∃ c cs, (renderJSON indent w).data = c :: cs ∧ isJSONSpace c = false ∧ c ≠ ']' ∧
      c ≠ '\x7d' := by
  cases w with
  | undefined => exact ⟨'n', ['u', 'l', 'l'], rfl, by decide, by decide, by decide⟩
  | null => exact ⟨'n', ['u', 'l', 'l'], rfl, by decide, by decide, by decide⟩
  | bool b =>
    cases b
    · exact ⟨'f', ['a', 'l', 's', 'e'], rfl, by decide, by decide, by decide⟩
    · exact ⟨'t', ['r', 'u', 'e'], rfl, by decide, by decide, by decide⟩
  | number n =>
    obtain ⟨c, cs, htext, hc⟩ := toString_head n
    obtain ⟨h0, _, _, _, _, _, _, h7, h8⟩ := numberStart_ne hc
    exact ⟨c, cs, htext, h0, h7, h8⟩
  | string str => exact ⟨'"', _, quoteJSON_data str, by decide, by decide, by decide⟩
  | array xs =>
    cases xs with
    | nil => exact ⟨'[', [']'], rfl, by decide, by decide, by decide⟩
    | cons x xs =>
      exact ⟨'[', _, renderJSON_array_data indent x xs, by decide, by decide, by decide⟩
  | object ps =>
    cases ps with
    | nil => exact ⟨'\x7b', ['\x7d'], rfl, by decide, by decide, by decide⟩
    | cons p ps =>
      exact ⟨'\x7b', _, renderJSON_object_data indent p ps, by decide, by decide, by decide⟩

theorem endsNumber_cons {c : Char} (cs : List Char)
    (h : c.isDigit = false ∧ c ≠ '.' ∧ c ≠ 'e' ∧ c ≠ 'E') : endsNumber (c :: cs) := by
  intro d hd
  simp only [List.head?_cons, Option.some.injEq] at hd
  subst hd
  exact h

theorem indent_more {indent : String} (h : indent.data.all isJSONSpace = true) :
    (indent ++ "  ").data.all isJSONSpace = true := by
  rw [String.data_append]
  exact all_space_append h (by decide)

theorem skip_renderElements (indent : String) (x : JSValue) (xs : List JSValue)
    (ws tail : List Char) (hindent : indent.data.all isJSONSpace = true)
    (hws : ws.all isJSONSpace = true) :
    (skipJSONSpace (ws ++ ((renderElements indent (x :: xs)).data ++ tail))).head? ≠
      some ']' := by
  obtain ⟨c, cs, hhead, hc, hne, _⟩ := renderJSON_head indent x
  have hskip : ∀ more : List Char,
      skipJSONSpace (ws ++ (indent.data ++ ((renderJSON indent x).data ++ more))) =
        c :: (cs ++ more) := by
    intro more
    rw [hhead, ← List.append_assoc, List.cons_append]
    exact skipJSONSpace_append _ c _ (all_space_append hws hindent) hc
  cases xs with
  | nil =>
    rw [renderElements_single_data, List.append_assoc, hskip]
    simpa using hne
  | cons y ys =>
    rw [renderElements_cons_data, List.append_assoc, List.append_assoc, hskip]
    simpa using hne

theorem skip_renderProperties (indent : String) (p : String × JSValue) (ps : Record)
    (ws tail : List Char) (hindent : indent.data.all isJSONSpace = true)
    (hws : ws.all isJSONSpace = true) :
    (skipJSONSpace (ws ++ ((renderProperties indent (p :: ps)).data ++ tail))).head? ≠
      some '\x7d' := by
  obtain ⟨k, v⟩ := p
  have hskip : ∀ more : List Char,
      skipJSONSpace (ws ++ (indent.data ++ ((quoteJSON k).data ++ more))) =
        '"' :: ((quoteJSON k).data.tail ++ more) := by
    intro more
    rw [quoteJSON_data, ← List.append_assoc, List.cons_append]
    exact skipJSONSpace_append _ '"' _ (all_space_append hws hindent) (by decide)
  cases ps with
  | nil =>
    rw [renderProperties_single_data, List.append_assoc, List.append_assoc, hskip]
    simp
  | cons q qs =>
    rw [renderProperties_cons_data, List.append_assoc, List.append_assoc, hskip]
    simp

mutual
/-- Reading the text written for a clean value gives the value back, whatever white space
stands in front and whatever follows that cannot continue a number. -/
theorem parseValue_render : ∀ (w : JSValue) (indent : String) (ws rest : List Char)
    (fuel : Nat), cleanValue w = true → indent.data.all isJSONSpace = true →
    ws.all isJSONSpace = true → endsNumber rest → (renderJSON indent w).data.length ≤ fuel →
    parseValue fuel (ws ++ (renderJSON indent w).data ++ rest) = some (w, rest)
  | .undefined, _, _, _, _, hclean, _, _, _, _ => by simp [cleanValue] at hclean
  | .null, indent, ws, rest, fuel, _, _, hws, _, hlen => by
    have h4 : (renderJSON indent .null).data.length = 4 := rfl
    obtain ⟨f, rfl⟩ : ∃ f, fuel = f + 1 := ⟨fuel - 1, by omega⟩
    exact parseValue_null f ws rest hws
  | .bool true, indent, ws, rest, fuel, _, _, hws, _, hlen => by
    have h4 : (renderJSON indent (.bool true)).data.length = 4 := rfl
    obtain ⟨f, rfl⟩ : ∃ f, fuel = f + 1 := ⟨fuel - 1, by omega⟩
    exact parseValue_true f ws rest hws
  | .bool false, indent, ws, rest, fuel, _, _, hws, _, hlen => by
    have h5 : (renderJSON indent (.bool false)).data.length = 5 := rfl
    obtain ⟨f, rfl⟩ : ∃ f, fuel = f + 1 := ⟨fuel - 1, by omega⟩
    exact parseValue_false f ws rest hws
  | .number n, indent, ws, rest, fuel, _, _, hws, hrest, hlen => by
    obtain ⟨c, cs, htext, _⟩ := toString_head n
    have htext' : (renderJSON indent (.number n)).data = (toString n).data := by
      simp [renderJSON]
    rw [htext', htext] at hlen
    simp only [List.length_cons] at hlen
    obtain ⟨f, rfl⟩ : ∃ f, fuel = f + 1 := ⟨fuel - 1, by omega⟩
    rw [htext']
    exact parseValue_number f n ws rest hws hrest
  | .string str, indent, ws, rest, fuel, _, _, hws, _, hlen => by
    have htext' : (renderJSON indent (.string str)).data = (quoteJSON str).data := by
      simp [renderJSON]
    rw [htext', quoteJSON_data] at hlen
    simp only [List.length_cons] at hlen
    obtain ⟨f, rfl⟩ : ∃ f, fuel = f + 1 := ⟨fuel - 1, by omega⟩
    rw [htext']
    exact parseValue_string f str ws rest hws
  | .array [], indent, ws, rest, fuel, _, _, hws, _, hlen => by
    have h2 : (renderJSON indent (.array [])).data.length = 2 := rfl
    obtain ⟨f, rfl⟩ : ∃ f, fuel = f + 1 := ⟨fuel - 1, by omega⟩
    exact parseValue_empty_array f ws rest hws
  | .array (x :: xs), indent, ws, rest, fuel, hclean, hindent, hws, _, hlen => by
    rw [renderJSON_array_data] at hlen ⊢
    simp only [List.length_cons, List.length_append, List.length_singleton,
      List.length_nil] at hlen
    obtain ⟨f, rfl⟩ : ∃ f, fuel = f + 1 := ⟨fuel - 1, by omega⟩
    have helems := parseElements_render (x :: xs) (indent ++ "  ") ['\n'] indent.data rest f
      (List.cons_ne_nil _ _) (by simpa [cleanValue] using hclean) (indent_more hindent)
      (by decide) hindent (by omega)
    have hnot := skip_renderElements (indent ++ "  ") x xs ['\n']
      ('\n' :: (indent.data ++ ']' :: rest)) (indent_more hindent) (by decide)
    refine parseValue_array
      (a := ['\n'] ++ ((renderElements (indent ++ "  ") (x :: xs)).data ++
        '\n' :: (indent.data ++ ']' :: rest))) ?_ hnot ?_
    · have := skipJSONSpace_append ws '['
        (['\n'] ++ ((renderElements (indent ++ "  ") (x :: xs)).data ++
          '\n' :: (indent.data ++ ']' :: rest))) hws (by decide)
      simpa [List.append_assoc] using this
    · simpa [List.append_assoc] using helems
  | .object [], indent, ws, rest, fuel, _, _, hws, _, hlen => by
    have h2 : (renderJSON indent (.object [])).data.length = 2 := rfl
    obtain ⟨f, rfl⟩ : ∃ f, fuel = f + 1 := ⟨fuel - 1, by omega⟩
    exact parseValue_empty_object f ws rest hws
  | .object (p :: ps), indent, ws, rest, fuel, hclean, hindent, hws, _, hlen => by
    rw [renderJSON_object_data] at hlen ⊢
    simp only [List.length_cons, List.length_append, List.length_singleton,
      List.length_nil] at hlen
    obtain ⟨f, rfl⟩ : ∃ f, fuel = f + 1 := ⟨fuel - 1, by omega⟩
    have hmembers := parseMembers_render (p :: ps) (indent ++ "  ") ['\n'] indent.data rest f
      (List.cons_ne_nil _ _) (by simpa [cleanValue] using hclean) (indent_more hindent)
      (by decide) hindent (by omega)
    have hnot := skip_renderProperties (indent ++ "  ") p ps ['\n']
      ('\n' :: (indent.data ++ '\x7d' :: rest)) (indent_more hindent) (by decide)
    refine parseValue_object
      (a := ['\n'] ++ ((renderProperties (indent ++ "  ") (p :: ps)).data ++
        '\n' :: (indent.data ++ '\x7d' :: rest))) ?_ hnot ?_
    · have := skipJSONSpace_append ws '\x7b'
        (['\n'] ++ ((renderProperties (indent ++ "  ") (p :: ps)).data ++
          '\n' :: (indent.data ++ '\x7d' :: rest))) hws (by decide)
      simpa [List.append_assoc] using this
    · simpa [List.append_assoc] using hmembers
/-- Reading the elements written for an array, up to its closing bracket. -/
theorem parseElements_render : ∀ (xs : List JSValue) (indent : String)
    (ws outer rest : List Char) (fuel : Nat), xs ≠ [] → cleanList xs = true →
    indent.data.all isJSONSpace = true → ws.all isJSONSpace = true →
    outer.all isJSONSpace = true → (renderElements indent xs).data.length + 1 ≤ fuel →
    parseElements fuel
      (ws ++ ((renderElements indent xs).data ++ '\n' :: (outer ++ ']' :: rest))) =
      some (xs, rest)
  | [], _, _, _, _, _, hne, _, _, _, _, _ => absurd rfl hne
  | x :: [], indent, ws, outer, rest, fuel, _, hclean, hindent, hws, houter, hlen => by
    rw [renderElements_single_data] at hlen ⊢
    simp only [List.length_append] at hlen
    obtain ⟨f, rfl⟩ : ∃ f, fuel = f + 1 := ⟨fuel - 1, by omega⟩
    have hx : cleanValue x = true := by simpa [cleanList] using hclean
    have hv := parseValue_render x indent (ws ++ indent.data)
      ('\n' :: (outer ++ ']' :: rest)) f hx hindent (all_space_append hws hindent)
      (endsNumber_cons _ (by decide)) (by omega)
    refine parseElements_last (r := '\n' :: (outer ++ ']' :: rest)) ?_ ?_
    · simpa [List.append_assoc] using hv
    · exact skipJSONSpace_append ('\n' :: outer) ']' rest
        (by simpa [isJSONSpace] using houter) (by decide)
  | x :: y :: ys, indent, ws, outer, rest, fuel, _, hclean, hindent, hws, houter, hlen => by
    rw [renderElements_cons_data] at hlen ⊢
    simp only [List.length_append, List.length_cons] at hlen
    obtain ⟨f, rfl⟩ : ∃ f, fuel = f + 1 := ⟨fuel - 1, by omega⟩
    have hclean' : cleanValue x = true ∧ cleanList (y :: ys) = true := by
      simpa [cleanList] using hclean
    have hv := parseValue_render x indent (ws ++ indent.data)
      (',' :: '\n' :: ((renderElements indent (y :: ys)).data ++
        '\n' :: (outer ++ ']' :: rest))) f hclean'.1 hindent (all_space_append hws hindent)
      (endsNumber_cons _ (by decide)) (by omega)
    have hrest := parseElements_render (y :: ys) indent ['\n'] outer rest f
      (List.cons_ne_nil _ _) hclean'.2 hindent (by decide) houter (by omega)
    refine parseElements_more
      (r := ',' :: '\n' :: ((renderElements indent (y :: ys)).data ++
        '\n' :: (outer ++ ']' :: rest)))
      (t := ['\n'] ++ ((renderElements indent (y :: ys)).data ++
        '\n' :: (outer ++ ']' :: rest))) ?_ ?_ hrest
    · simpa [List.append_assoc] using hv
    · exact skipJSONSpace_append [] ',' _ rfl (by decide)
/-- Reading the members written for an object, up to its closing brace. -/
theorem parseMembers_render : ∀ (ps : Record) (indent : String)
    (ws outer rest : List Char) (fuel : Nat), ps ≠ [] → cleanProps ps = true →
    indent.data.all isJSONSpace = true → ws.all isJSONSpace = true →
    outer.all isJSONSpace = true → (renderProperties indent ps).data.length + 1 ≤ fuel →
    parseMembers fuel
      (ws ++ ((renderProperties indent ps).data ++ '\n' :: (outer ++ '\x7d' :: rest))) =
      some (ps, rest)
  | [], _, _, _, _, _, hne, _, _, _, _, _ => absurd rfl hne
  | (k, v) :: [], indent, ws, outer, rest, fuel, _, hclean, hindent, hws, houter, hlen => by
    rw [renderProperties_single_data] at hlen ⊢
    simp only [List.length_append, List.length_cons] at hlen
    obtain ⟨f, rfl⟩ : ∃ f, fuel = f + 1 := ⟨fuel - 1, by omega⟩
    have hv' : cleanValue v = true := by
      simp only [cleanProps, Bool.and_eq_true] at hclean
      exact hclean.1.1
    have hv := parseValue_render v indent [' '] ('\n' :: (outer ++ '\x7d' :: rest)) f hv'
      hindent (by decide) (endsNumber_cons _ (by decide)) (by omega)
    refine parseMembers_last (k := k.data)
      (a := (quoteJSON k).data.tail ++ (':' :: ' ' :: ((renderJSON indent v).data ++
        '\n' :: (outer ++ '\x7d' :: rest))))
      (b := ':' :: ' ' :: ((renderJSON indent v).data ++ '\n' :: (outer ++ '\x7d' :: rest)))
      (c := [' '] ++ (renderJSON indent v).data ++ '\n' :: (outer ++ '\x7d' :: rest))
      (d := '\n' :: (outer ++ '\x7d' :: rest)) ?_ (readString_quoteJSON k _) ?_ hv ?_
    · have := skipJSONSpace_append (ws ++ indent.data) '"'
        ((quoteJSON k).data.tail ++ (':' :: ' ' :: ((renderJSON indent v).data ++
          '\n' :: (outer ++ '\x7d' :: rest)))) (all_space_append hws hindent) (by decide)
      rw [← this]
      conv_lhs => rw [quoteJSON_data]
      simp [List.append_assoc]
    · have := skipJSONSpace_append [] ':' ([' '] ++ (renderJSON indent v).data ++
        '\n' :: (outer ++ '\x7d' :: rest)) rfl (by decide)
      simpa [List.append_assoc] using this
    · exact skipJSONSpace_append ('\n' :: outer) '\x7d' rest
        (by simpa [isJSONSpace] using houter) (by decide)
  | (k, v) :: q :: qs, indent, ws, outer, rest, fuel, _, hclean, hindent, hws, houter,
      hlen => by
    rw [renderProperties_cons_data] at hlen ⊢
    simp only [List.length_append, List.length_cons] at hlen
    obtain ⟨f, rfl⟩ : ∃ f, fuel = f + 1 := ⟨fuel - 1, by omega⟩
    have hclean' : (cleanValue v = true ∧ prop? (q :: qs) k = none) ∧
        cleanProps (q :: qs) = true := by
      simpa [cleanProps, Option.isNone_iff_eq_none] using hclean
    have hv := parseValue_render v indent [' ']
      (',' :: '\n' :: ((renderProperties indent (q :: qs)).data ++
        '\n' :: (outer ++ '\x7d' :: rest))) f hclean'.1.1
      hindent (by decide) (endsNumber_cons _ (by decide)) (by omega)
    have hrest := parseMembers_render (q :: qs) indent ['\n'] outer rest f
      (List.cons_ne_nil _ _) hclean'.2 hindent (by decide) houter (by omega)
    refine parseMembers_more (k := k.data)
      (a := (quoteJSON k).data.tail ++ (':' :: ' ' :: ((renderJSON indent v).data ++
        ',' :: '\n' :: ((renderProperties indent (q :: qs)).data ++
          '\n' :: (outer ++ '\x7d' :: rest)))))
      (b := ':' :: ' ' :: ((renderJSON indent v).data ++
        ',' :: '\n' :: ((renderProperties indent (q :: qs)).data ++
          '\n' :: (outer ++ '\x7d' :: rest))))
      (c := [' '] ++ (renderJSON indent v).data ++
        ',' :: '\n' :: ((renderProperties indent (q :: qs)).data ++
          '\n' :: (outer ++ '\x7d' :: rest)))
      (d := ',' :: '\n' :: ((renderProperties indent (q :: qs)).data ++
          '\n' :: (outer ++ '\x7d' :: rest)))
      (e := ['\n'] ++ ((renderProperties indent (q :: qs)).data ++
          '\n' :: (outer ++ '\x7d' :: rest)))
      ?_ (readString_quoteJSON k _) ?_ hv ?_ hrest hclean'.1.2
    · have := skipJSONSpace_append (ws ++ indent.data) '"'
        ((quoteJSON k).data.tail ++ (':' :: ' ' :: ((renderJSON indent v).data ++
          ',' :: '\n' :: ((renderProperties indent (q :: qs)).data ++
            '\n' :: (outer ++ '\x7d' :: rest))))) (all_space_append hws hindent) (by decide)
      rw [← this]
      conv_lhs => rw [quoteJSON_data]
      simp [List.append_assoc]
    · have := skipJSONSpace_append [] ':' ([' '] ++ (renderJSON indent v).data ++
        ',' :: '\n' :: ((renderProperties indent (q :: qs)).data ++
          '\n' :: (outer ++ '\x7d' :: rest))) rfl (by decide)
      simpa [List.append_assoc] using this
    · exact skipJSONSpace_append [] ',' _ rfl (by decide)
end

mutual
theorem cleanValue_jsonClean : ∀ v : JSValue, cleanValue (jsonClean v) = true
  | .undefined => rfl
  | .null => rfl
  | .bool _ => rfl
  | .number _ => rfl
  | .string _ => rfl
  | .array xs => by
    simp only [jsonClean, cleanValue]
    exact cleanList_jsonCleanList xs
  | .object props => by
    simp only [jsonClean, cleanValue]
    exact cleanProps_jsonCleanProps props []
theorem cleanList_jsonCleanList : ∀ xs : List JSValue, cleanList (jsonCleanList xs) = true
  | [] => rfl
  | x :: xs => by
    simp only [jsonCleanList, cleanList, cleanValue_jsonClean x, cleanList_jsonCleanList xs,
      Bool.and_self]
theorem cleanProps_jsonCleanProps : ∀ (props : List (String × JSValue)) (seen : List String),
    cleanProps (jsonCleanProps seen props) = true
  | [], _ => rfl
  | (k, v) :: rest, seen => by
    have ihv := cleanValue_jsonClean v
    have ih1 := cleanProps_jsonCleanProps rest (k :: seen)
    have ih2 := cleanProps_jsonCleanProps rest seen
    have hnone : prop? (jsonCleanProps (k :: seen) rest) k = none := by
      rw [prop?_jsonCleanProps, if_pos (List.mem_cons_self k seen)]
    by_cases hseen : k ∈ seen
    · cases v <;> simp only [jsonCleanProps, hseen, if_true, ih1, ih2]
    · cases v <;>
        simp only [jsonCleanProps, hseen, if_false, ih1, cleanProps, hnone, Option.isNone_none,
          Bool.and_self, Bool.and_true] <;>
        first | rfl | exact ihv
end

/-- Reading the text `JSON.stringify` writes gives the value back, up to what JSON cannot
write: `JSON.parse(JSON.stringify(v))` is `jsonClean v`. -/
theorem jsonParse_jsonStringify (v : JSValue) :
    jsonParse (jsonStringify v) = some (jsonClean v) := by
  have hlen : (renderJSON "" (jsonClean v)).data.length ≤ 2 * (jsonStringify v).length + 1 := by
    have : (jsonStringify v).length = (renderJSON "" (jsonClean v)).data.length := rfl
    omega
  have h := parseValue_render (jsonClean v) "" [] [] (2 * (jsonStringify v).length + 1)
    (cleanValue_jsonClean v) rfl rfl (fun c hc => by cases hc) hlen
  simp only [List.nil_append, List.append_nil] at h
  unfold jsonParse
  have htext : (jsonStringify v).data = (renderJSON "" (jsonClean v)).data := rfl
  rw [htext, h]
  rfl

set_option maxRecDepth 100000 in
/-- The `JSON.parse` of the example environment agrees with `jsonParse` on the texts it
knows. -/
theorem exampleEnv_jsonParse :
    exampleEnv.jsonParse "[\x7b\"text\":\"a\"\x7d]" = jsonParse "[\x7b\"text\":\"a\"\x7d]" ∧
    exampleEnv.jsonParse "[]" = jsonParse "[]" ∧
    exampleEnv.jsonParse "[1]" = jsonParse "[1]" ∧
    exampleEnv.jsonParse "\x7b\x7d" = jsonParse "\x7b\x7d" ∧
    exampleEnv.jsonParse (jsonStringify exampleSnapshot) =
      jsonParse (jsonStringify exampleSnapshot) := by
  refine ⟨by decide, by decide, by decide, by decide, ?_⟩
  rw [jsonParse_jsonStringify]
  decide

/-! ## Export and import -/

mutual
theorem jsonClean_of_plain : ∀ v : JSValue, plainJSON v = true → jsonClean v = v
  | .undefined, h => by simp [plainJSON] at h
  | .null, _ => rfl
  | .bool _, _ => rfl
  | .number _, _ => rfl
  | .string _, _ => rfl
  | .array xs, h => by
    simp only [plainJSON] at h
    simp only [jsonClean, jsonCleanList_of_plain xs h]
  | .object props, h => by
    simp only [plainJSON] at h
    simp only [jsonClean, jsonCleanProps_of_plain props [] h (fun k hk => by cases hk)]
theorem jsonCleanList_of_plain : ∀ xs : List JSValue, plainList xs = true →
    jsonCleanList xs = xs
  | [], _ => rfl
  | x :: xs, h => by
    simp only [plainList, Bool.and_eq_true] at h
    simp only [jsonCleanList, jsonClean_of_plain x h.1, jsonCleanList_of_plain xs h.2]
theorem jsonCleanProps_of_plain : ∀ (props : List (String × JSValue)) (seen : List String),
    plainProps props = true → (∀ k ∈ seen, prop? props k = none) →
    jsonCleanProps seen props = props
  | [], _, _, _ => rfl
  | (k, v) :: rest, seen, h, hseen => by
    simp only [plainProps, Bool.and_eq_true, Option.isNone_iff_eq_none] at h
    obtain ⟨⟨hv, hk⟩, hrest⟩ := h
    have ihv := jsonClean_of_plain v hv
    have hnot : k ∉ seen := by
      intro hmem
      have := hseen k hmem
      rw [prop?_cons_self] at this
      cases this
    have hseen' : ∀ k' ∈ k :: seen, prop? rest k' = none := by
      intro k' hk'
      rcases List.mem_cons.1 hk' with rfl | hmem
      · exact hk
      · have hne : k' ≠ k := fun heq => hnot (heq ▸ hmem)
        have := hseen k' hmem
        rw [prop?_cons_of_ne v rest hne] at this
        exact this
    have ih := jsonCleanProps_of_plain rest (k :: seen) hrest hseen'
    cases v with
    | undefined => simp [plainJSON] at hv
    | _ => simp only [jsonCleanProps, hnot, if_false, ih, ihv]
end

/-- A call of `importLibrary` whose text parses to an array runs the loop on its elements. -/
theorem importLibrary_of_array (env : Env) (s : Store) (jsonData : String)
    (items : List JSValue) (hparse : env.jsonParse jsonData = some (.array items))
    (hopen : env.openFails = false) :
    importLibrary env s jsonData = importLoop env s items 0 s false 0 := by
  simp only [importLibrary, hparse, hopen, Bool.false_eq_true, if_false]

/-- C12 (amended): when `JSON.parse` is the function `jsonParse`, the storage layer does not
fail, every field of the source store is missing or a value JSON holds as it is, and the
empty destination store has room in its key generator, `importLibrary(exportLibrary())`
returns the number of records of the source store and leaves the destination holding, in
the order of the export, one record for each record of the source, which reads as that
record does at every property but `id`. -/
theorem export_import_roundtrip (env : Env) (src dst : Store) (items : List Record)
    (hopen : env.openFails = false) (hreq : ∀ n, env.requestFails n = false)
    (hparse : env.jsonParse = jsonParse)
    (hall : getAllSaved env src = .ok items)
    (hplain : recordsPlain src.records)
    (hwf : dst.WF) (hempty : dst.records = [])
    (hroom : dst.keyGen + src.records.length ≤ maxGeneratedKey + 1) :
    ∃ json dst', exportLibrary env src = .ok json ∧
      importLibrary env dst json = (.ok src.records.length, dst') ∧
      items.Perm src.records ∧
      dst'.records.length = src.records.length ∧
      List.Forall₂ (fun d r => ∀ k, k ≠ "id" → getProp d k = getProp r k)
        dst'.records items := by
  have hsorted := getAllSaved_ok env src hopen (hreq 0)
  rw [hall] at hsorted
  have hitems : items = jsSort (dateCompare env) src.records := by
    injection hsorted
  have hperm : items.Perm src.records := by
    rw [hitems]; exact jsSort_perm _ _
  have hlen : items.length = src.records.length := hperm.length_eq
  have hjson : env.jsonParse (jsonStringify (.array (items.map .object))) =
      some (.array ((items.map (jsonCleanProps [])).map .object)) := by
    rw [hparse, jsonParse_jsonStringify, jsonClean_snapshot]
  have hauto : dst.AutoKeyed := by
    intro r hr
    rw [hempty] at hr
    cases hr
  obtain ⟨dst', himp, _, _, _, happ⟩ :=
    importLibrary_objects env dst _ (items.map (jsonCleanProps [])) hwf hopen hreq hjson
      (by simpa [hlen] using hroom)
  have hrecords : dst'.records = importedRecords dst.keyGen (items.map (jsonCleanProps [])) := by
    rw [happ hauto, hempty, List.nil_append]
  have hstable : ∀ r ∈ items, ∀ p ∈ r, jsonStable p.2 := by
    intro r hr p hp
    rcases hplain r (hperm.subset hr) p hp with h | h
    · exact Or.inl h
    · exact Or.inr (jsonClean_of_plain p.2 h)
  refine ⟨jsonStringify (.array (items.map .object)), dst', by simp [exportLibrary, hall],
    ?_, hperm, ?_, ?_⟩
  · simpa [hlen] using himp
  · rw [hrecords, length_importedRecords, List.length_map, hlen]
  · rw [hrecords]
    exact importedRecords_roundtrip_stable dst.keyGen items hstable

/-- C12 (witness): the export of the example store imported into the empty store: three
records under the ids 1, 2 and 3, in the order of the export. -/
theorem export_import_roundtrip_witness :
    parsingEnv.openFails = false ∧ (∀ n, parsingEnv.requestFails n = false) ∧
    parsingEnv.jsonParse = jsonParse ∧
    getAllSaved parsingEnv exampleStore = .ok exampleSnapshotRecords ∧
    recordsPlain exampleStore.records ∧
    Store.empty.WF ∧ Store.empty.records = [] ∧
    Store.empty.keyGen + exampleStore.records.length ≤ maxGeneratedKey + 1 ∧
    ∃ json dst', exportLibrary parsingEnv exampleStore = .ok json ∧
      importLibrary parsingEnv Store.empty json = (.ok exampleStore.records.length, dst') ∧
      exampleSnapshotRecords.Perm exampleStore.records ∧
      dst'.records.length = exampleStore.records.length ∧
      List.Forall₂ (fun d r => ∀ k, k ≠ "id" → getProp d k = getProp r k)
        dst'.records exampleSnapshotRecords :=
  ⟨rfl, fun _ => rfl, rfl, by decide, by unfold recordsPlain; decide, Store.empty_WF, rfl,
    by decide,
    export_import_roundtrip parsingEnv exampleStore Store.empty exampleSnapshotRecords rfl
      (fun _ => rfl) rfl (by decide) (by unfold recordsPlain; decide) Store.empty_WF rfl
      (by decide)⟩

set_option maxRecDepth 100000 in
/-- C12 (counterexample): a snippet saved with the tags `[undefined]` is exported with the
tags `[null]`, as `JSON.stringify` writes `undefined` within an array; the record that
`importLibrary` stores from the export has the tags `[null]`, which is not the value of the
field in the source store. -/
theorem export_import_undefined_counterexample :
    (saveToLibrary parsingEnv Store.empty
      [("text", .string "a"), ("tags", .array [.undefined])]).2 = undefinedTagStore ∧
    exportLibrary parsingEnv undefinedTagStore =
      .ok (jsonStringify (.array (undefinedTagStore.records.map .object))) ∧
    jsonStringify (.array (undefinedTagStore.records.map .object)) =
      "[\n  \x7b\n    \"text\": \"a\",\n    \"tags\": [\n      null\n    ],\n" ++
      "    \"date\": \"2024-05-01T12:00:00.000Z\",\n    \"source\": \"example.com\",\n" ++
      "    \"url\": \"https://example.com/page\",\n    \"id\": 1\n  \x7d\n]" ∧
    importLibrary parsingEnv Store.empty
        (jsonStringify (.array (undefinedTagStore.records.map .object))) =
      (.ok 1,
        { records :=
            [[("text", .string "a"), ("tags", .array [.null]),
              ("date", .string "2024-05-01T12:00:00.000Z"),
              ("source", .string "example.com"),
              ("url", .string "https://example.com/page"), ("id", .number 1)]],
          keyGen := 2 }) ∧
    (JSValue.array [.null] ≠ JSValue.array [.undefined]) := by
  refine ⟨by decide, by decide, by decide, ?_, by decide⟩
  rw [importLibrary_of_array parsingEnv Store.empty _
    (jsonCleanList (undefinedTagStore.records.map .object))
    (by
      have henv : parsingEnv.jsonParse = jsonParse := rfl
      rw [henv, jsonParse_jsonStringify]
      rfl) rfl]
  decide

set_option maxRecDepth 100000 in
/-- C13 (witness): the export of the example store imported into the example store itself:
three new records under the ids 4, 5 and 6, six records in all. -/
theorem importLibrary_fresh_ids_witness :
    exampleStore.WF ∧ exampleEnv.openFails = false ∧
    (∀ n, exampleEnv.requestFails n = false) ∧
    exampleEnv.jsonParse (jsonStringify exampleSnapshot) =
      some (.array (exampleSnapshotRecords.map .object)) ∧
    exampleStore.keyGen + exampleSnapshotRecords.length ≤ maxGeneratedKey + 1 ∧
    ((importLibrary exampleEnv exampleStore (jsonStringify exampleSnapshot)).2.records.map
      keyOf = [.number 1, .number 2, .number 3, .number 4, .number 5, .number 6]) ∧
    ∃ s', importLibrary exampleEnv exampleStore (jsonStringify exampleSnapshot) =
        (.ok exampleSnapshotRecords.length, s') ∧
      s'.records.Perm
        (exampleStore.records ++ importedRecords exampleStore.keyGen exampleSnapshotRecords) ∧
      List.Forall₂ (fun rec props => ∀ k, k ≠ "id" → prop? rec k = prop? props k)
        (importedRecords exampleStore.keyGen exampleSnapshotRecords) exampleSnapshotRecords ∧
      (importedRecords exampleStore.keyGen exampleSnapshotRecords).map keyOf =
        (List.range exampleSnapshotRecords.length).map
          (fun j => JSValue.number ((exampleStore.keyGen + j : Nat) : Int)) ∧
      ((exampleStore.records ++
        importedRecords exampleStore.keyGen exampleSnapshotRecords).map keyOf).Nodup ∧
      (∀ r ∈ exampleStore.records, findByKey (keyOf r) s'.records = some r) ∧
      (∀ items, getAllSaved exampleEnv exampleStore = .ok items →
        exampleEnv.jsonParse (jsonStringify (.array (items.map .object))) =
          some (jsonClean (.array (items.map .object))) →
        exampleStore.keyGen + exampleStore.records.length ≤ maxGeneratedKey + 1 →
        ∃ json s2 items2, exportLibrary exampleEnv exampleStore = .ok json ∧
          importLibrary exampleEnv exampleStore json = (.ok items.length, s2) ∧
          getAllSaved exampleEnv s2 = .ok items2 ∧ items2.length = 2 * items.length) :=
  ⟨by unfold Store.WF; decide, rfl, fun _ => rfl, by decide, by decide, by decide,
    importLibrary_fresh_ids exampleEnv exampleStore (jsonStringify exampleSnapshot)
      exampleSnapshotRecords (by unfold Store.WF; decide) rfl (fun _ => rfl) (by decide)
      (by decide)⟩

/-! ## Statistics -/

theorem dateAfter_iff (env : Env) (bound : Int) (r : Record) :
    dateAfter env bound r = true ↔
      ∃ t, env.timeValue (getProp r "date") = some t ∧ bound < t := by
  unfold dateAfter
  cases env.timeValue (getProp r "date") with
  | none => simp
  | some t => simp

/-- With one and the same offset from UTC at all times, `n` days of the calendar before now
are `n` times 24 hours before now. -/
theorem daysBefore_of_constant_offset (env : Env) (c : Int)
    (h : ∀ t b, env.localTZA t b = c) (n : Int) : daysBefore env n = env.now - n * msPerDay := by
  simp only [daysBefore, h]
  omega

theorem getLibraryStats_ok (env : Env) (s : Store) (hopen : env.openFails = false)
    (hreq : env.requestFails 0 = false) :
    getLibraryStats env s =
      { total := (jsSort (dateCompare env) s.records).length
        thisWeek :=
          ((jsSort (dateCompare env) s.records).filter (dateAfter env (daysBefore env 7))).length
        thisMonth :=
          ((jsSort (dateCompare env) s.records).filter
            (dateAfter env (daysBefore env 30))).length
        timeSaved := (jsSort (dateCompare env) s.records).length * 3
        sources :=
          setValues [] ((jsSort (dateCompare env) s.records).map
            (fun item => getProp item "source"))
        tags := setValues [] ((jsSort (dateCompare env) s.records).flatMap tagsOrEmpty) } := by
  simp only [getLibraryStats, getAllSaved_ok env s hopen hreq]

/-- C16: when the read succeeds, `thisWeek` is the number of stored records whose date is a
valid date strictly later than now minus 7 days, and `thisMonth` the number of those strictly
later than now minus 30 days, the days being days of the local calendar as `setDate` counts
them; so a record dated exactly 7 days before now is not counted in `thisWeek` and, that
instant lying after the one 30 days before now, is counted in `thisMonth`. With one and the
same offset from UTC at all times a day is 24 hours, and the record dated exactly 7 times 24
hours before now is not counted in `thisWeek` and is counted in `thisMonth`. -/
theorem getLibraryStats_windows (env : Env) (s : Store)
    (hopen : env.openFails = false) (hreq : env.requestFails 0 = false) :
    (getLibraryStats env s).thisWeek =
      s.records.countP (dateAfter env (daysBefore env 7)) ∧
    (getLibraryStats env s).thisMonth =
      s.records.countP (dateAfter env (daysBefore env 30)) ∧
    (∀ bound r, dateAfter env bound r = true ↔
      ∃ t, env.timeValue (getProp r "date") = some t ∧ bound < t) ∧
    (∀ r, env.timeValue (getProp r "date") = some (daysBefore env 7) →
      dateAfter env (daysBefore env 7) r = false ∧
      (daysBefore env 30 < daysBefore env 7 → dateAfter env (daysBefore env 30) r = true)) ∧
    (∀ c, (∀ t b, env.localTZA t b = c) →
      ∀ r, env.timeValue (getProp r "date") = some (env.now - 7 * msPerDay) →
        dateAfter env (daysBefore env 7) r = false ∧
        dateAfter env (daysBefore env 30) r = true) := by
  have hperm := jsSort_perm (dateCompare env) s.records
  rw [getLibraryStats_ok env s hopen hreq]
  refine ⟨?_, ?_, dateAfter_iff env, ?_, ?_⟩
  · simp only [← List.countP_eq_length_filter]
    exact hperm.countP_eq _
  · simp only [← List.countP_eq_length_filter]
    exact hperm.countP_eq _
  · intro r hr
    constructor
    · simp [dateAfter, hr]
    · intro hlt
      simp [dateAfter, hr, hlt]
  · intro c hc r hr
    rw [daysBefore_of_constant_offset env c hc, daysBefore_of_constant_offset env c hc]
    simp only [dateAfter, hr, msPerDay]
    constructor
    · simp
    · simp only [decide_eq_true_eq]
      omega

/-- C16 (witness): the store whose first record is dated exactly seven days before now: one
record counts for the week, two for the month. -/
theorem getLibraryStats_windows_witness :
    exampleEnv.openFails = false ∧ exampleEnv.requestFails 0 = false ∧
    (getLibraryStats exampleEnv statsStore).thisWeek = 1 ∧
    (getLibraryStats exampleEnv statsStore).thisMonth = 2 ∧
    exampleEnv.timeValue (.string "2024-04-24T12:00:00.000Z") =
      some (exampleEnv.now - 7 * msPerDay) ∧
    ((getLibraryStats exampleEnv statsStore).thisWeek =
      statsStore.records.countP (dateAfter exampleEnv (daysBefore exampleEnv 7)) ∧
    (getLibraryStats exampleEnv statsStore).thisMonth =
      statsStore.records.countP (dateAfter exampleEnv (daysBefore exampleEnv 30)) ∧
    (∀ bound r, dateAfter exampleEnv bound r = true ↔
      ∃ t, exampleEnv.timeValue (getProp r "date") = some t ∧ bound < t) ∧
    (∀ r, exampleEnv.timeValue (getProp r "date") = some (daysBefore exampleEnv 7) →
      dateAfter exampleEnv (daysBefore exampleEnv 7) r = false ∧
      (daysBefore exampleEnv 30 < daysBefore exampleEnv 7 →
        dateAfter exampleEnv (daysBefore exampleEnv 30) r = true)) ∧
    (∀ c, (∀ t b, exampleEnv.localTZA t b = c) →
      ∀ r, exampleEnv.timeValue (getProp r "date") = some (exampleEnv.now - 7 * msPerDay) →
        dateAfter exampleEnv (daysBefore exampleEnv 7) r = false ∧
        dateAfter exampleEnv (daysBefore exampleEnv 30) r = true)) :=
  ⟨rfl, rfl, by decide, by decide, by decide,
    getLibraryStats_windows exampleEnv statsStore rfl rfl⟩

theorem mem_setValues (v : JSValue) (xs : List JSValue) :
    ∀ seen : List JSValue,
      v ∈ setValues seen xs ↔ v ∈ xs ∧ ¬ (isPrimitive v = true ∧ v ∈ seen) := by
  induction xs with
  | nil => intro seen; simp [setValues]
  | cons x xs ih =>
    intro seen
    unfold setValues
    split
    · rename_i hx
      simp only [Bool.and_eq_true, decide_eq_true_eq] at hx
      rw [ih seen]
      constructor
      · rintro ⟨h1, h2⟩
        exact ⟨List.mem_cons_of_mem _ h1, h2⟩
      · rintro ⟨h1, h2⟩
        rcases List.mem_cons.1 h1 with rfl | h1
        · exact absurd hx h2
        · exact ⟨h1, h2⟩
    · rename_i hx
      simp only [Bool.and_eq_true, decide_eq_true_eq] at hx
      rw [List.mem_cons, ih (x :: seen)]
      constructor
      · rintro (rfl | ⟨h1, h2⟩)
        · exact ⟨List.mem_cons_self _ _, hx⟩
        · refine ⟨List.mem_cons_of_mem _ h1, ?_⟩
          rintro ⟨hp, hs⟩
          exact h2 ⟨hp, List.mem_cons_of_mem _ hs⟩
      · rintro ⟨h1, h2⟩
        by_cases hvx : v = x
        · exact Or.inl hvx
        · right
          rcases List.mem_cons.1 h1 with h | h
          · exact absurd h hvx
          · refine ⟨h, ?_⟩
            rintro ⟨hp, hs⟩
            rcases List.mem_cons.1 hs with h' | h'
            · exact hvx h'
            · exact h2 ⟨hp, h'⟩

theorem nodup_setValues (xs : List JSValue) (hprim : ∀ x ∈ xs, isPrimitive x = true) :
    ∀ seen : List JSValue, (setValues seen xs).Nodup := by
  induction xs with
  | nil => intro seen; simp [setValues]
  | cons x xs ih =>
    intro seen
    have hxs : ∀ y ∈ xs, isPrimitive y = true := fun y hy => hprim y (List.mem_cons_of_mem _ hy)
    unfold setValues
    split
    · exact ih hxs seen
    · refine List.nodup_cons.2 ⟨?_, ih hxs _⟩
      rw [mem_setValues]
      rintro ⟨_, h2⟩
      exact h2 ⟨hprim x (List.mem_cons_self _ _), List.mem_cons_self _ _⟩

theorem tagsOrEmpty_of_array {r : Record} {ts : List JSValue}
    (h : getProp r "tags" = .array ts) : tagsOrEmpty r = ts := by
  simp [tagsOrEmpty, h, JSValue.or, truthy]

theorem tagsOrEmpty_of_falsy {r : Record} (h : (getProp r "tags").truthy = false) :
    tagsOrEmpty r = [] := by
  simp [tagsOrEmpty, JSValue.or, h]

/-- C17: when the read succeeds, the list `sources` holds exactly the values of `source` of
the stored records and the list `tags` exactly the elements of their `tags` arrays (a record
without tags adding nothing); neither list has a duplicate when these values are primitive
values such as strings. -/
theorem getLibraryStats_sets (env : Env) (s : Store)
    (hopen : env.openFails = false) (hreq : env.requestFails 0 = false) :
    (∀ v, v ∈ (getLibraryStats env s).sources ↔ ∃ r ∈ s.records, getProp r "source" = v) ∧
    (∀ v, v ∈ (getLibraryStats env s).tags ↔ ∃ r ∈ s.records, v ∈ tagsOrEmpty r) ∧
    (∀ r ts, getProp r "tags" = .array ts → tagsOrEmpty r = ts) ∧
    (∀ r, (getProp r "tags").truthy = false → tagsOrEmpty r = []) ∧
    ((∀ r ∈ s.records, isPrimitive (getProp r "source") = true) →
      (getLibraryStats env s).sources.Nodup) ∧
    ((∀ r ∈ s.records, ∀ t ∈ tagsOrEmpty r, isPrimitive t = true) →
      (getLibraryStats env s).tags.Nodup) := by
  have hperm := jsSort_perm (dateCompare env) s.records
  rw [getLibraryStats_ok env s hopen hreq]
  refine ⟨?_, ?_, fun r ts h => tagsOrEmpty_of_array h, fun r h => tagsOrEmpty_of_falsy h,
    ?_, ?_⟩
  · intro v
    simp only [mem_setValues, List.not_mem_nil, and_false, not_false_eq_true, and_true,
      List.mem_map]
    constructor
    · rintro ⟨r, hr, h⟩; exact ⟨r, hperm.subset hr, h⟩
    · rintro ⟨r, hr, h⟩; exact ⟨r, hperm.symm.subset hr, h⟩
  · intro v
    simp only [mem_setValues, List.not_mem_nil, and_false, not_false_eq_true, and_true,
      List.mem_flatMap]
    constructor
    · rintro ⟨r, hr, h⟩; exact ⟨r, hperm.subset hr, h⟩
    · rintro ⟨r, hr, h⟩; exact ⟨r, hperm.symm.subset hr, h⟩
  · intro hprim
    refine nodup_setValues _ ?_ []
    intro x hx
    obtain ⟨r, hr, rfl⟩ := List.mem_map.1 hx
    exact hprim r (hperm.subset hr)
  · intro hprim
    refine nodup_setValues _ ?_ []
    intro x hx
    obtain ⟨r, hr, hxr⟩ := List.mem_flatMap.1 hx
    exact hprim r (hperm.subset hr) x hxr

/-- C17 (witness): the sources and tags of the store with tags. -/
theorem getLibraryStats_sets_witness :
    exampleEnv.openFails = false ∧ exampleEnv.requestFails 0 = false ∧
    (getLibraryStats exampleEnv statsStore).sources =
      [.string "example.org", .string "example.com"] ∧
    (getLibraryStats exampleEnv statsStore).tags = [.string "b", .string "a"] ∧
    (∀ r ∈ statsStore.records, isPrimitive (getProp r "source") = true) ∧
    (∀ r ∈ statsStore.records, ∀ t ∈ tagsOrEmpty r, isPrimitive t = true) ∧
    ((∀ v, v ∈ (getLibraryStats exampleEnv statsStore).sources ↔
      ∃ r ∈ statsStore.records, getProp r "source" = v) ∧
    (∀ v, v ∈ (getLibraryStats exampleEnv statsStore).tags ↔
      ∃ r ∈ statsStore.records, v ∈ tagsOrEmpty r) ∧
    (∀ r ts, getProp r "tags" = .array ts → tagsOrEmpty r = ts) ∧
    (∀ r, (getProp r "tags").truthy = false → tagsOrEmpty r = []) ∧
    ((∀ r ∈ statsStore.records, isPrimitive (getProp r "source") = true) →
      (getLibraryStats exampleEnv statsStore).sources.Nodup) ∧
    ((∀ r ∈ statsStore.records, ∀ t ∈ tagsOrEmpty r, isPrimitive t = true) →
      (getLibraryStats exampleEnv statsStore).tags.Nodup)) :=
  ⟨rfl, rfl, by decide, by decide, by decide, by decide,
    getLibraryStats_sets exampleEnv statsStore rfl rfl⟩

/-! ## Records by tag -/

theorem mem_tagIndexKeys_of_array {r : Record} {ts : List JSValue} {tag : String}
    (h : getProp r "tags" = .array ts) :
    JSValue.string tag ∈ tagIndexKeys r ↔ JSValue.string tag ∈ ts := by
  simp [tagIndexKeys, h, isValidKey]

theorem mem_tagIndexKeys {r : Record} {tag : String}
    (h : JSValue.string tag ∈ tagIndexKeys r) :
    getProp r "tags" = .string tag ∨
      ∃ ts, getProp r "tags" = .array ts ∧ JSValue.string tag ∈ ts := by
  unfold tagIndexKeys at h
  cases hv : getProp r "tags" with
  | array ts =>
    rw [hv] at h
    exact Or.inr ⟨ts, rfl, (List.mem_filter.1 h).1⟩
  | string str =>
    rw [hv] at h
    simp only [isValidKey, if_true, List.mem_singleton, JSValue.string.injEq] at h
    exact Or.inl (by rw [h])
  | undefined => rw [hv] at h; simp [isValidKey] at h
  | null => rw [hv] at h; simp [isValidKey] at h
  | bool b => rw [hv] at h; simp [isValidKey] at h
  | number n => rw [hv] at h; simp [isValidKey] at h
  | object props => rw [hv] at h; simp [isValidKey] at h

/-- C18: when the read succeeds, `getItemsByTag(t)` returns every stored record whose `tags`
array has the element `t`, each once and in the stored order, and every record it returns is
a stored record whose `tags` array has the element `t` (or whose `tags` is the string `t`
itself); and a record saved with a `tags` array that has the element `t` is stored with that
array and is returned by `getItemsByTag(t)` after the save. -/
theorem getItemsByTag_fanout (env : Env) (s : Store) (tag : String)
    (hopen : env.openFails = false) (hreq : env.requestFails 0 = false) :
    ∃ found, getItemsByTag env s tag = .ok found ∧
      found.Sublist s.records ∧
      (∀ r ∈ s.records, ∀ ts, getProp r "tags" = .array ts → JSValue.string tag ∈ ts →
        r ∈ found) ∧
      (∀ r ∈ found, r ∈ s.records ∧
        (getProp r "tags" = .string tag ∨
          ∃ ts, getProp r "tags" = .array ts ∧ JSValue.string tag ∈ ts)) ∧
      (∀ x ts, s.WF → s.keyGen ≤ maxGeneratedKey → getProp x "id" = .undefined →
        getProp x "tags" = .array ts → JSValue.string tag ∈ ts →
        ∃ stored found', getSavedById env (saveToLibrary env s x).2 (.number s.keyGen) =
            .ok (.object stored) ∧
          getProp stored "tags" = .array ts ∧
          getItemsByTag env (saveToLibrary env s x).2 tag = .ok found' ∧
          stored ∈ found') := by
  have hget : ∀ t : Store, getItemsByTag env t tag =
      .ok (t.records.filter (fun r => decide (JSValue.string tag ∈ tagIndexKeys r))) := by
    intro t
    simp [getItemsByTag, hopen, hreq]
  refine ⟨_, hget s, List.filter_sublist _, ?_, ?_, ?_⟩
  · intro r hr ts hts hmem
    exact List.mem_filter.2 ⟨hr, by simpa using (mem_tagIndexKeys_of_array hts).2 hmem⟩
  · intro r hr
    obtain ⟨h1, h2⟩ := List.mem_filter.1 hr
    exact ⟨h1, mem_tagIndexKeys (by simpa using h2)⟩
  · intro x ts hwf hgen hid hts hmem
    have hsave := saveToLibrary_generated env s x hwf hgen hopen hreq hid
    have htags : getProp
        (setProp
          (setProp
            (setProp
              (setProp x "date" ((getProp x "date").or (.string env.nowISO)))
              "source" ((getProp x "source").or (.string env.hostname)))
            "url" ((getProp x "url").or (.string env.href)))
          "id" (.number s.keyGen)) "tags" = .array ts := by
      rw [getProp_setProp_of_ne _ _ (by decide), getProp_setProp_of_ne _ _ (by decide),
        getProp_setProp_of_ne _ _ (by decide), getProp_setProp_of_ne _ _ (by decide)]
      exact hts
    have hkey := getProp_setProp_self
      (setProp (setProp (setProp x "date" ((getProp x "date").or (.string env.nowISO)))
        "source" ((getProp x "source").or (.string env.hostname)))
        "url" ((getProp x "url").or (.string env.href))) "id" (.number s.keyGen)
    generalize setProp
      (setProp (setProp (setProp x "date" ((getProp x "date").or (.string env.nowISO)))
        "source" ((getProp x "source").or (.string env.hostname)))
        "url" ((getProp x "url").or (.string env.href))) "id" (.number s.keyGen) = stored
      at hsave htags hkey
    rw [hsave]
    have hfind : findByKey (.number s.keyGen) (insertByKey stored s.records) = some stored := by
      have := @findByKey_insertByKey_self stored s.records
        (by
          intro y hy
          show keyOf y ≠ getProp stored "id"
          rw [hkey]
          exact hwf.fresh hgen y hy)
      unfold keyOf at this
      rw [hkey] at this
      exact this
    refine ⟨stored, _, ?_, htags, hget _, ?_⟩
    · simp [getSavedById, hopen, storeGet, isValidKey, hfind, hreq]
    · exact List.mem_filter.2 ⟨mem_insertByKey.2 (Or.inl rfl),
        by simpa using (mem_tagIndexKeys_of_array htags).2 hmem⟩

/-- C18 (witness): in the store with tags the first record, tagged `a` and `b`, is found
under `a` and under `b`; the second, tagged `b`, only under `b`. -/
theorem getItemsByTag_fanout_witness :
    exampleEnv.openFails = false ∧ exampleEnv.requestFails 0 = false ∧
    ((getItemsByTag exampleEnv statsStore "a").map (fun found => found.map keyOf)) =
      .ok [.number 1] ∧
    ((getItemsByTag exampleEnv statsStore "b").map (fun found => found.map keyOf)) =
      .ok [.number 1, .number 2] ∧
    ∃ found, getItemsByTag exampleEnv statsStore "a" = .ok found ∧
      found.Sublist statsStore.records ∧
      (∀ r ∈ statsStore.records, ∀ ts, getProp r "tags" = .array ts →
        JSValue.string "a" ∈ ts → r ∈ found) ∧
      (∀ r ∈ found, r ∈ statsStore.records ∧
        (getProp r "tags" = .string "a" ∨
          ∃ ts, getProp r "tags" = .array ts ∧ JSValue.string "a" ∈ ts)) ∧
      (∀ x ts, statsStore.WF → statsStore.keyGen ≤ maxGeneratedKey →
        getProp x "id" = .undefined →
        getProp x "tags" = .array ts → JSValue.string "a" ∈ ts →
        ∃ stored found', getSavedById exampleEnv (saveToLibrary exampleEnv statsStore x).2
            (.number statsStore.keyGen) = .ok (.object stored) ∧
          getProp stored "tags" = .array ts ∧
          getItemsByTag exampleEnv (saveToLibrary exampleEnv statsStore x).2 "a" =
            .ok found' ∧
          stored ∈ found') :=
  ⟨rfl, rfl, by decide, by decide, getItemsByTag_fanout exampleEnv statsStore "a" rfl rfl⟩

/-! ## The helpers -/

/-- C19 (amended): for every text and every integer `maxLength`, `truncateText` returns the
text itself when its length is at most `maxLength` (and the empty text as it is), and
otherwise its first `maxLength` code units (none for a negative `maxLength`) followed by
three dots; so the result is at most three code units longer than a non-negative
`maxLength`, and exactly three longer when the text was cut. -/
theorem truncateText_length (text : List Nat) (maxLength : Int) :
    ((text.length : Int) ≤ maxLength → truncateText text maxLength = text) ∧
    (text ≠ [] → maxLength < (text.length : Int) →
      truncateText text maxLength = text.take maxLength.toNat ++ utf16 "...") ∧
    truncateText [] maxLength = [] ∧
    ((truncateText text maxLength).length : Int) ≤ max maxLength 0 + 3 ∧
    (0 ≤ maxLength → maxLength < (text.length : Int) →
      ((truncateText text maxLength).length : Int) = maxLength + 3) := by
  have h3 : (utf16 "...").length = 3 := by decide
  have hfit : (text.length : Int) ≤ maxLength → truncateText text maxLength = text := by
    intro hle
    by_cases hempty : text = []
    · simp [truncateText, hempty]
    · simp only [truncateText, hempty, if_false, hle, if_true]
  have hcut : text ≠ [] → maxLength < (text.length : Int) →
      truncateText text maxLength = text.take maxLength.toNat ++ utf16 "..." := by
    intro hempty hlt
    simp only [truncateText, hempty, if_false, not_le.2 hlt]
  refine ⟨hfit, hcut, by simp [truncateText], ?_, ?_⟩
  · by_cases hempty : text = []
    · subst hempty
      simp only [truncateText, if_true, List.length_nil]
      omega
    · by_cases hle : (text.length : Int) ≤ maxLength
      · rw [hfit hle]
        omega
      · rw [hcut hempty (not_le.1 hle), List.length_append, List.length_take, h3]
        omega
  · intro hnonneg hlt
    have hempty : text ≠ [] := by
      intro h
      subst h
      simp only [List.length_nil] at hlt
      omega
    rw [hcut hempty hlt, List.length_append, List.length_take, h3]
    omega

/-- C19 (counterexample): `truncateText("abcdef", 3)` is `abc...`, a string of length 6, not
of length at most 3; and two characters above U+FFFF, of length 4, are cut after the first
of them. -/
theorem truncateText_too_long :
    truncateText (utf16 "abcdef") 3 = utf16 "abc..." ∧
    (truncateText (utf16 "abcdef") 3).length = 6 ∧
    ¬ ((truncateText (utf16 "abcdef") 3).length ≤ 3) ∧
    truncateText (utf16 ⟨[Char.ofNat 0x1F600, Char.ofNat 0x1F600]⟩) 2 =
      utf16 ⟨[Char.ofNat 0x1F600, '.', '.', '.']⟩ := by
  decide

/-- C20 (the failing input): for a text of three spaces `countWords` returns 1, although the
text has no word; for the empty text it returns 0, and for ` a  b c ` it returns 3. -/
theorem countWords_blank :
    ("   " : String).data.all isJSWhiteSpace = true ∧ wordRuns ("   " : String).data = 0 ∧
    countWords "   " = 1 ∧ countWords "" = 0 ∧ countWords " a  b c " = 3 := by
  decide

/-! ## Counting words -/

theorem wordRuns_cons_of_ws {c : Char} (cs : List Char) (hc : isJSWhiteSpace c = true) :
    wordRuns (c :: cs) = wordRuns cs := by
  cases cs with
  | nil => simp [wordRuns, hc]
  | cons d ds => rw [wordRuns, if_pos hc]

theorem wordRuns_single {c : Char} (hc : isJSWhiteSpace c = false) : wordRuns [c] = 1 := by
  rw [wordRuns, if_neg (by rw [hc]; exact Bool.false_ne_true)]

theorem wordRuns_cons_cons_of_ws {c d : Char} (ds : List Char)
    (hc : isJSWhiteSpace c = false) (hd : isJSWhiteSpace d = true) :
    wordRuns (c :: d :: ds) = wordRuns (d :: ds) + 1 := by
  rw [wordRuns, if_neg (by rw [hc]; exact Bool.false_ne_true), if_pos hd]

theorem wordRuns_cons_cons {c d : Char} (ds : List Char)
    (hc : isJSWhiteSpace c = false) (hd : isJSWhiteSpace d = false) :
    wordRuns (c :: d :: ds) = wordRuns (d :: ds) := by
  rw [wordRuns, if_neg (by rw [hc]; exact Bool.false_ne_true),
    if_neg (by rw [hd]; exact Bool.false_ne_true)]

theorem splitWhiteSpace_single_of_ws {c : Char} (hc : isJSWhiteSpace c = true) :
    splitWhiteSpace [c] = [[], []] := by
  rw [splitWhiteSpace, if_pos hc]

theorem splitWhiteSpace_single {c : Char} (hc : isJSWhiteSpace c = false) :
    splitWhiteSpace [c] = [[c]] := by
  rw [splitWhiteSpace, if_neg (by rw [hc]; exact Bool.false_ne_true)]

theorem splitWhiteSpace_cons_cons_ws {c d : Char} (ds : List Char)
    (hc : isJSWhiteSpace c = true) (hd : isJSWhiteSpace d = true) :
    splitWhiteSpace (c :: d :: ds) = splitWhiteSpace (d :: ds) := by
  rw [splitWhiteSpace, if_pos hc, if_pos hd]

theorem splitWhiteSpace_cons_cons_of_ws {c d : Char} (ds : List Char)
    (hc : isJSWhiteSpace c = true) (hd : isJSWhiteSpace d = false) :
    splitWhiteSpace (c :: d :: ds) = [] :: splitWhiteSpace (d :: ds) := by
  rw [splitWhiteSpace, if_pos hc, if_neg (by rw [hd]; exact Bool.false_ne_true)]

theorem splitWhiteSpace_cons_cons {c d : Char} (ds : List Char)
    (hc : isJSWhiteSpace c = false) :
    splitWhiteSpace (c :: d :: ds) = consToFirst c (splitWhiteSpace (d :: ds)) := by
  rw [splitWhiteSpace, if_neg (by rw [hc]; exact Bool.false_ne_true)]

theorem length_consToFirst (c : Char) (pieces : List (List Char)) (h : pieces ≠ []) :
    (consToFirst c pieces).length = pieces.length := by
  cases pieces with
  | nil => exact absurd rfl h
  | cons piece rest => rfl

theorem splitWhiteSpace_ne_nil : ∀ l : List Char, splitWhiteSpace l ≠ []
  | [] => by rw [splitWhiteSpace]; exact List.cons_ne_nil _ _
  | [c] => by
    cases hc : isJSWhiteSpace c with
    | true => rw [splitWhiteSpace_single_of_ws hc]; exact List.cons_ne_nil _ _
    | false => rw [splitWhiteSpace_single hc]; exact List.cons_ne_nil _ _
  | c :: d :: ds => by
    cases hc : isJSWhiteSpace c with
    | true =>
      cases hd : isJSWhiteSpace d with
      | true => rw [splitWhiteSpace_cons_cons_ws ds hc hd]; exact splitWhiteSpace_ne_nil (d :: ds)
      | false => rw [splitWhiteSpace_cons_cons_of_ws ds hc hd]; exact List.cons_ne_nil _ _
    | false =>
      rw [splitWhiteSpace_cons_cons ds hc]
      intro h
      have hlen := length_consToFirst c _ (splitWhiteSpace_ne_nil (d :: ds))
      rw [h] at hlen
      exact splitWhiteSpace_ne_nil (d :: ds) (List.length_eq_zero.1 hlen.symm)

/-- The pieces of `split(/\s+/)` are the words of the text, and one empty piece more for
white space (or nothing at all) at the start, and one more for white space at the end. -/
theorem length_splitWhiteSpace : ∀ l : List Char,
    (splitWhiteSpace l).length =
      wordRuns l + (if (l.head?.map isJSWhiteSpace).getD true = true then 1 else 0) +
        (if (l.getLast?.map isJSWhiteSpace).getD false = true then 1 else 0)
  | [] => rfl
  | [c] => by
    cases hc : isJSWhiteSpace c with
    | true =>
      rw [splitWhiteSpace_single_of_ws hc, wordRuns_cons_of_ws _ hc]
      simp [hc, wordRuns]
    | false =>
      rw [splitWhiteSpace_single hc, wordRuns_single hc]
      simp [hc]
  | c :: d :: ds => by
    have ih := length_splitWhiteSpace (d :: ds)
    have hlast : (c :: d :: ds).getLast? = (d :: ds).getLast? := List.getLast?_cons_cons
    rw [hlast]
    simp only [List.head?_cons, Option.map_some', Option.getD_some] at ih ⊢
    generalize (if (Option.map isJSWhiteSpace (d :: ds).getLast?).getD false = true
      then 1 else 0) = e at ih ⊢
    rcases Bool.eq_false_or_eq_true (isJSWhiteSpace c) with hc | hc
    · rcases Bool.eq_false_or_eq_true (isJSWhiteSpace d) with hd | hd
      · rw [splitWhiteSpace_cons_cons_ws ds hc hd, wordRuns_cons_of_ws _ hc, ih]
        simp only [hc, hd]
      · rw [splitWhiteSpace_cons_cons_of_ws ds hc hd, wordRuns_cons_of_ws _ hc,
          List.length_cons, ih]
        simp only [hc, hd, Bool.false_eq_true, if_false, if_true]
        omega
    · rw [splitWhiteSpace_cons_cons ds hc,
        length_consToFirst c _ (splitWhiteSpace_ne_nil (d :: ds)), ih]
      rcases Bool.eq_false_or_eq_true (isJSWhiteSpace d) with hd | hd
      · rw [wordRuns_cons_cons_of_ws ds hc hd]
        simp only [hc, hd, Bool.false_eq_true, if_false, if_true]
      · rw [wordRuns_cons_cons ds hc hd]
        simp only [hc, hd]

theorem wordRuns_dropWhile (l : List Char) :
    wordRuns (l.dropWhile isJSWhiteSpace) = wordRuns l := by
  induction l with
  | nil => rfl
  | cons c cs ih =>
    cases hc : isJSWhiteSpace c with
    | true => rw [List.dropWhile_cons_of_pos hc, ih, wordRuns_cons_of_ws _ hc]
    | false => rw [List.dropWhile_cons_of_neg (by rw [hc]; decide)]

theorem wordRuns_of_all (w : List Char) (hw : w.all isJSWhiteSpace = true) :
    wordRuns w = 0 := by
  induction w with
  | nil => rfl
  | cons c cs ih =>
    simp only [List.all_cons, Bool.and_eq_true] at hw
    rw [wordRuns_cons_of_ws _ hw.1, ih hw.2]

theorem wordRuns_append_of_all : ∀ (l w : List Char), w.all isJSWhiteSpace = true →
    wordRuns (l ++ w) = wordRuns l
  | [], w, hw => by rw [List.nil_append, wordRuns_of_all w hw]; rfl
  | [c], w, hw => by
    cases hc : isJSWhiteSpace c with
    | true =>
      rw [List.cons_append, wordRuns_cons_of_ws _ hc, wordRuns_cons_of_ws _ hc,
        List.nil_append, wordRuns_of_all w hw]
      rfl
    | false =>
      cases w with
      | nil => rfl
      | cons d ds =>
        have hd : isJSWhiteSpace d = true := by
          simp only [List.all_cons, Bool.and_eq_true] at hw
          exact hw.1
        show wordRuns (c :: d :: ds) = wordRuns [c]
        rw [wordRuns_cons_cons_of_ws ds hc hd, wordRuns_of_all _ hw, wordRuns_single hc]
  | c :: d :: ds, w, hw => by
    have ih : wordRuns (d :: (ds ++ w)) = wordRuns (d :: ds) :=
      wordRuns_append_of_all (d :: ds) w hw
    show wordRuns (c :: d :: (ds ++ w)) = wordRuns (c :: d :: ds)
    cases hc : isJSWhiteSpace c with
    | true => rw [wordRuns_cons_of_ws _ hc, wordRuns_cons_of_ws _ hc, ih]
    | false =>
      cases hd : isJSWhiteSpace d with
      | true =>
        rw [wordRuns_cons_cons_of_ws _ hc hd, wordRuns_cons_cons_of_ws _ hc hd, ih]
      | false =>
        rw [wordRuns_cons_cons _ hc hd, wordRuns_cons_cons _ hc hd, ih]

/-- Cutting white space off the end of a text does not change its words. -/
theorem wordRuns_dropLast (m : List Char) :
    wordRuns (m.reverse.dropWhile isJSWhiteSpace).reverse = wordRuns m := by
  have hsplit : m = (m.reverse.dropWhile isJSWhiteSpace).reverse ++
      (m.reverse.takeWhile isJSWhiteSpace).reverse := by
    rw [← List.reverse_append, List.takeWhile_append_dropWhile, List.reverse_reverse]
  have hall : (m.reverse.takeWhile isJSWhiteSpace).reverse.all isJSWhiteSpace = true := by
    rw [List.all_eq_true]
    intro x hx
    exact List.mem_takeWhile_imp (List.mem_reverse.1 hx)
  conv_rhs => rw [hsplit]
  exact (wordRuns_append_of_all _ _ hall).symm

/-- On a text that is not blank `countWords` counts the pieces of the trimmed text, which
starts and ends with a character that is not white space. -/
theorem length_splitWhiteSpace_trimmed (l : List Char)
    (h : l.all isJSWhiteSpace = false) :
    (splitWhiteSpace
      ((l.dropWhile isJSWhiteSpace).reverse.dropWhile isJSWhiteSpace).reverse).length =
      wordRuns l := by
  generalize hm : l.dropWhile isJSWhiteSpace = m
  have hmne : m ≠ [] := by
    intro h0
    rw [h0] at hm
    rw [all_of_dropWhile_eq_nil _ _ hm] at h
    exact Bool.noConfusion h
  have hhead := List.head?_dropWhile_not isJSWhiteSpace l
  rw [hm] at hhead
  generalize ht : (m.reverse.dropWhile isJSWhiteSpace).reverse = t
  have hlast := List.head?_dropWhile_not isJSWhiteSpace m.reverse
  have hlast' : t.getLast? = (m.reverse.dropWhile isJSWhiteSpace).head? := by
    rw [← ht, List.getLast?_reverse]
  have hsplit : m = t ++ (m.reverse.takeWhile isJSWhiteSpace).reverse := by
    rw [← ht, ← List.reverse_append, List.takeWhile_append_dropWhile, List.reverse_reverse]
  have hwords : wordRuns t = wordRuns l := by
    rw [← ht, wordRuns_dropLast, ← hm, wordRuns_dropWhile]
  cases m with
  | nil => exact absurd rfl hmne
  | cons x xs =>
    have hx : isJSWhiteSpace x = false := by simpa using hhead
    have htne : t ≠ [] := by
      intro h0
      have hnil : ((x :: xs).reverse.dropWhile isJSWhiteSpace) = [] := by
        have := congrArg List.reverse ht
        rw [List.reverse_reverse, h0] at this
        exact this
      have hall := all_of_dropWhile_eq_nil _ _ hnil
      rw [List.all_eq_true] at hall
      have := hall x (List.mem_reverse.2 (List.mem_cons_self x xs))
      rw [hx] at this
      exact Bool.noConfusion this
    have hthead : t.head? = some x := by
      have := congrArg List.head? hsplit
      rw [List.head?_append_of_ne_nil _ htne] at this
      exact this.symm
    rw [length_splitWhiteSpace t, hwords, hthead, hlast']
    cases hd : ((x :: xs).reverse.dropWhile isJSWhiteSpace).head? with
    | none => simp [hx]
    | some y =>
      rw [hd] at hlast
      have hy : isJSWhiteSpace y = false := by simpa using hlast
      simp [hx, hy]

/-- What `countWords` returns on every text: the number of words, except on a non-empty text
of white space only, where it returns 1. -/
theorem countWords_eq (text : String) :
    countWords text =
      if text ≠ "" ∧ text.data.all isJSWhiteSpace = true then 1 else wordRuns text.data := by
  by_cases hempty : text = ""
  · subst hempty
    rfl
  · cases hall : text.data.all isJSWhiteSpace with
    | true =>
      have htrim : jsTrim text = "" := (jsTrim_eq_empty_iff text).2 hall
      simp only [countWords, hempty, htrim, if_false, ne_eq, not_false_eq_true, and_self,
        if_true]
      rfl
    | false =>
      simp only [countWords, hempty, if_false, ne_eq, not_false_eq_true, true_and,
        Bool.false_eq_true]
      exact length_splitWhiteSpace_trimmed text.data hall

/-! ## Dates relative to now -/

theorem ceilDiv_bounds (a b : Nat) (hb : 0 < b) :
    a ≤ ceilDiv a b * b ∧ ceilDiv a b * b < a + b := by
  unfold ceilDiv
  have hmod := Nat.mod_lt (a + (b - 1)) hb
  have hdiv := Nat.div_add_mod (a + (b - 1)) b
  rw [Nat.mul_comm] at hdiv
  constructor <;> omega

theorem ceilDiv_eq_zero_iff (a b : Nat) (hb : 0 < b) : ceilDiv a b = 0 ↔ a = 0 := by
  have h := ceilDiv_bounds a b hb
  constructor
  · intro h0
    rw [h0] at h
    omega
  · intro h0
    subst h0
    rcases Nat.eq_zero_or_pos (ceilDiv 0 b) with hz | hpos
    · exact hz
    · have : b ≤ ceilDiv 0 b * b := Nat.le_mul_of_pos_left b hpos
      omega

theorem ceilDiv_eq_one (a b : Nat) (ha : 0 < a) (hab : a ≤ b) : ceilDiv a b = 1 := by
  have hb : 0 < b := Nat.lt_of_lt_of_le ha hab
  have h := ceilDiv_bounds a b hb
  have hne : ceilDiv a b ≠ 0 := fun h0 => by
    rw [(ceilDiv_eq_zero_iff a b hb).1 h0] at ha
    exact Nat.lt_irrefl 0 ha
  by_contra hone
  have h2 : 2 ≤ ceilDiv a b := by omega
  have : 2 * b ≤ ceilDiv a b * b := Nat.mul_le_mul_right b h2
  omega

/-- The number `ceilDiv a b` is the ceiling of the quotient of `a` by `b`. -/
theorem ceilDiv_eq_ceil (a b : Nat) (hb : 0 < b) :
    ((ceilDiv a b : Nat) : Int) = ⌈(a : ℚ) / (b : ℚ)⌉ := by
  have h := ceilDiv_bounds a b hb
  have hbq : (0 : ℚ) < (b : ℚ) := by exact_mod_cast hb
  symm
  rw [Int.ceil_eq_iff]
  constructor
  · rw [lt_div_iff₀ hbq]
    have h2 : ceilDiv a b * b < a + b := h.2
    have h3 : ((ceilDiv a b : ℚ)) * (b : ℚ) < (a : ℚ) + (b : ℚ) := by exact_mod_cast h2
    push_cast
    linarith
  · rw [div_le_iff₀ hbq]
    have h1 : a ≤ ceilDiv a b * b := h.1
    exact_mod_cast h1

theorem diffDays_eq_zero_iff (env : Env) (d : Int) : diffDays env d = 0 ↔ d = env.now := by
  unfold diffDays
  rw [ceilDiv_eq_zero_iff _ _ (by decide), Int.natAbs_eq_zero]
  constructor <;> intro h <;> omega

theorem diffDays_eq_one (env : Env) (d : Int) (hne : d ≠ env.now)
    (hpast : env.now - d ≤ 86400000) (hfuture : d - env.now ≤ 86400000) :
    diffDays env d = 1 := by
  unfold diffDays
  apply ceilDiv_eq_one <;> omega

theorem formatDate_of_valid (env : Env) (toLocaleDateString : Option Int → String)
    (dateString : JSValue) (d : Int) (hdate : env.timeValue dateString = some d) :
    formatDate env toLocaleDateString dateString =
      if diffDays env d = 0 then "Today"
      else if diffDays env d = 1 then "Yesterday"
      else if diffDays env d < 7 then toString (diffDays env d) ++ " days ago"
      else if diffDays env d < 30 then toString (diffDays env d / 7) ++ " weeks ago"
      else if diffDays env d < 365 then toString (diffDays env d / 30) ++ " months ago"
      else toLocaleDateString (some d) := by
  simp only [formatDate, hdate]

theorem append_ne_today (str : String) (suffix : String) (h : 5 < suffix.length) :
    str ++ suffix ≠ "Today" := by
  intro heq
  have hlen := congrArg String.length heq
  rw [String.length_append] at hlen
  have h5 : ("Today" : String).length = 5 := rfl
  omega

/-- An invalid date is given to `toLocaleDateString` as it is. -/
theorem formatDate_invalid (env : Env) (toLocaleDateString : Option Int → String)
    (dateString : JSValue) (hdate : env.timeValue dateString = none) :
    formatDate env toLocaleDateString dateString = toLocaleDateString none := by
  simp only [formatDate, hdate]

/-- C21: for a date string whose time value is `d`, the day count of `formatDate` is the
ceiling of the absolute difference of now and `d` in days; `formatDate` returns `Today` when
`d` is now, and, when the platform does not render the date itself as `Today`, only then; it
returns `Yesterday` whenever `d` is not now and at most 24 hours from now, before or after. -/
theorem formatDate_today_yesterday (env : Env) (toLocaleDateString : Option Int → String)
    (dateString : JSValue) (d : Int) (hdate : env.timeValue dateString = some d) :
    ((diffDays env d : Nat) : Int) = ⌈((|env.now - d| : Int) : ℚ) / 86400000⌉ ∧
    (d = env.now → formatDate env toLocaleDateString dateString = "Today") ∧
    (toLocaleDateString (some d) ≠ "Today" →
      (formatDate env toLocaleDateString dateString = "Today" ↔ d = env.now)) ∧
    (d ≠ env.now → env.now - d ≤ 86400000 → d - env.now ≤ 86400000 →
      formatDate env toLocaleDateString dateString = "Yesterday") := by
  have htoday : d = env.now → formatDate env toLocaleDateString dateString = "Today" := by
    intro h
    rw [formatDate_of_valid env toLocaleDateString dateString d hdate,
      if_pos ((diffDays_eq_zero_iff env d).2 h)]
  refine ⟨?_, htoday, ?_, ?_⟩
  · have h := ceilDiv_eq_ceil (env.now - d).natAbs (1000 * 60 * 60 * 24) (by decide)
    have habs : (((env.now - d).natAbs : Nat) : ℚ) = ((|env.now - d| : Int) : ℚ) := by
      rw [← Int.natCast_natAbs]
      rfl
    have hday : (((1000 * 60 * 60 * 24 : Nat)) : ℚ) = 86400000 := by norm_num
    rw [habs, hday] at h
    exact h
  · intro hlocale
    refine ⟨fun h => ?_, htoday⟩
    by_contra hne
    have hzero : diffDays env d ≠ 0 := fun h0 => hne ((diffDays_eq_zero_iff env d).1 h0)
    rw [formatDate_of_valid env toLocaleDateString dateString d hdate, if_neg hzero] at h
    split at h
    · exact absurd h (by decide)
    · split at h
      · exact append_ne_today _ _ (by decide) h
      · split at h
        · exact append_ne_today _ _ (by decide) h
        · split at h
          · exact append_ne_today _ _ (by decide) h
          · exact hlocale h
  · intro hne hpast hfuture
    have hone := diffDays_eq_one env d hne hpast hfuture
    rw [formatDate_of_valid env toLocaleDateString dateString d hdate, hone]
    rfl

/-- C21 (witness): in the example environment, where now is noon of 1 May 2024, a date one
millisecond after now is `Yesterday`. -/
theorem formatDate_today_yesterday_witness :
    exampleEnv.timeValue (.string "2024-05-01T12:00:00.001Z") = some 1714564800001 ∧
    formatDate exampleEnv exampleLocaleDateString (.string "2024-05-01T12:00:00.001Z") =
      "Yesterday" ∧
    formatDate exampleEnv exampleLocaleDateString (.string "2024-05-01T12:00:00.000Z") =
      "Today" ∧
    formatDate exampleEnv exampleLocaleDateString (.string "2024-04-30T12:00:00.000Z") =
      "Yesterday" ∧
    formatDate exampleEnv exampleLocaleDateString (.string "2024-04-30T11:59:59.999Z") =
      "2 days ago" :=
  ⟨by decide,
    (formatDate_today_yesterday exampleEnv exampleLocaleDateString
      (.string "2024-05-01T12:00:00.001Z") 1714564800001 (by decide)).2.2.2
      (by decide) (by decide) (by decide),
    by decide, by decide, by decide⟩
end ReadSmart
